import Mathlib

/-!
Verification of the LMDB-derived storage core in `libraries/liblmdb/mdb.c`
against its natural-language specification.

The development is a shallow embedding: the C functions that decide each
claim are translated into executable Lean definitions (machine integers
become `Nat` with explicit `% 2^64` where C unsigned wrap-around matters;
fallible code returns `Except`/`Option`), and the claims are proved or
refuted as theorems about those definitions.
-/

namespace LMDB

/-! ## Constants from mdb.c -/

/-- `MDB_MAXKEYSIZE` (mdb.c line 485): max size of a key we can write. -/
def MDB_MAXKEYSIZE : Nat := 511

/-- `MAXDATASIZE` (mdb.c line 493): maximum size of a data item, `0xffffffffUL`. -/
def MAXDATASIZE : Nat := 0xffffffff

/-- `MDB_MINKEYS` (mdb.c line 451). -/
def MDB_MINKEYS : Nat := 2

/-- `PAGEHDRSZ` (mdb.c line 837): `offsetof(MDB_PageHeader, offsets)`.
On a 64-bit platform the header is an 8-byte pgno union, two `uint16_t`
fields and a 4-byte bounds union, hence 16 bytes. -/
def PAGEHDRSZ : Nat := 16

/-- `__node_header_size` (mdb.c line 924): `offsetof(MDB_node, mn_data)`,
four `unsigned short` fields, hence 8 bytes. -/
def node_header_size : Nat := 8

/-- `sizeof(indx_t)` — `indx_t` is `uint16_t`. -/
def indx_size : Nat := 2

/-- `sizeof(pgno_t)` on a 64-bit platform. -/
def pgno_size : Nat := 8

/-- Modulus of C `size_t` arithmetic on the 64-bit platform the file targets. -/
def SIZE_T_MOD : Nat := 2 ^ 64

/-- `EVEN(n)` (mdb.c line 530): `((n) + 1U) & -2`, i.e. round up to even. -/
def EVEN (n : Nat) : Nat := (n + 1) / 2 * 2

/-- `OVPAGES(size, psize)` (mdb.c line 878): number of overflow pages needed
to store `size` bytes: `((PAGEHDRSZ-1 + (size)) / (psize) + 1)`. -/
def OVPAGES (size psize : Nat) : Nat := (PAGEHDRSZ - 1 + size) / psize + 1

/-- `env->me_nodemax` (mdb.c line 4081):
`(((psize - PAGEHDRSZ) / MDB_MINKEYS) & -2) - sizeof(indx_t)`. -/
def me_nodemax (psize : Nat) : Nat :=
  (psize - PAGEHDRSZ) / MDB_MINKEYS / 2 * 2 - indx_size

/-- `env->me_maxpg` (mdb.c lines 3801, 4085): `m_map_size / me_psize`. -/
def me_maxpg (mapsize psize : Nat) : Nat := mapsize / psize

/-- `LEAFSIZE(k, d)` (mdb.c line 937): `__node_header_size + key size + data size`. -/
def LEAFSIZE (ksize dsize : Nat) : Nat := node_header_size + ksize + dsize

/-- `MDB_MAGIC` (meta page magic number). -/
def MDB_MAGIC : Nat := 0xBEEFC0DE

/-- `MDB_DATA_VERSION` (mdb.c line 460), non-devel build. -/
def MDB_DATA_VERSION : Nat := 1

/-! ## Error codes

The typed error values of the public API (`lmdb.h` error taxonomy plus the
OS `errno` pass-through values used in mdb.c). -/

/-- Return codes of the storage core, symbolically. `MDB_SUCCESS` is
represented by the success branch of `Except`/`Option`, the rest by this
type. -/
inductive Err where
  | KEYEXIST
  | NOTFOUND
  | PAGE_NOTFOUND
  | CORRUPTED
  | PANIC
  | VERSION_MISMATCH
  | INVALID
  | MAP_FULL
  | TXN_FULL
  | PAGE_FULL
  | CURSOR_FULL
  | MAP_RESIZED
  | INCOMPATIBLE
  | BAD_RSLOT
  | BAD_TXN
  | BAD_VALSIZE
  | BAD_DBI
  | PROBLEM
  | NO_ROOT
  | EINVAL
  | EACCES
  | ENOMEM
  | Eio
  | ENOENT
  | osError (code : Nat)
deriving DecidableEq, Repr

/-! ## Meta pages and meta selection (mdb_env_pick_meta, mdb_env_read_header) -/

/-- The fields of a meta page (`MDB_meta`, mdb.c) that meta validation and
meta selection read, plus the `P_META` page flag of its containing page
header checked by `mdb_env_read_header`. -/
structure MetaPage where
  p_meta_flag : Bool
  mm_magic : Nat
  mm_version : Nat
  mm_txnid : Nat
  /-- `mm_dbs[FREE_DBI]`, `mm_dbs[MAIN_DBI]` root descriptors, abstracted. -/
  mm_dbs : Nat × Nat
  mm_last_pg : Nat
deriving DecidableEq, Repr

/-- A meta page passes the validation performed by `mdb_env_read_header`
(mdb.c lines 3519-3534): `P_META` page flag, magic, data-format version. -/
def metaValid (m : MetaPage) : Bool :=
  m.p_meta_flag && m.mm_magic == MDB_MAGIC && m.mm_version == MDB_DATA_VERSION

/-- `mdb_env_pick_meta` (mdb.c lines 3692-3696):
`metas[(metas[0]->mm_txnid < metas[1]->mm_txnid) ^ ((env->me_flags & MDB_PREVSNAPSHOT) != 0)]`. -/
def mdb_env_pick_meta (prevsnapshot : Bool) (m0 m1 : MetaPage) : MetaPage :=
  if xor (decide (m0.mm_txnid < m1.mm_txnid)) prevsnapshot then m1 else m0

/-- `mdb_env_read_header` (mdb.c lines 3485-3540): read and validate both
meta pages; keep page 0's meta, then replace it by page 1's meta iff
`prev ? m.mm_txnid < meta.mm_txnid : m.mm_txnid > meta.mm_txnid`. -/
def mdb_env_read_header (prev : Bool) (m0 m1 : MetaPage) : Except Err MetaPage := do
  if !m0.p_meta_flag then throw .INVALID
  if m0.mm_magic ≠ MDB_MAGIC then throw .INVALID
  if m0.mm_version ≠ MDB_DATA_VERSION then throw .VERSION_MISMATCH
  let meta := m0
  if !m1.p_meta_flag then throw .INVALID
  if m1.mm_magic ≠ MDB_MAGIC then throw .INVALID
  if m1.mm_version ≠ MDB_DATA_VERSION then throw .VERSION_MISMATCH
  let meta := if (if prev then m1.mm_txnid < meta.mm_txnid else m1.mm_txnid > meta.mm_txnid)
    then m1 else meta
  return meta

/-! ## Page allocation from the file tail (mdb_page_alloc) -/

/-- The transaction state read and written by `mdb_page_alloc`
(mdb.c lines 2302-2351). The loose-page list is abstracted to its length
and head page number; the dirty list to the remaining room. -/
structure AllocTxn where
  mt_loose_count : Nat
  mt_loose_head : Nat
  mt_dirty_room : Nat
  mt_next_pgno : Nat
  me_maxpg : Nat
deriving DecidableEq, Repr

/-- Which branch of `mdb_page_alloc` produced the pages. -/
inductive AllocSource where
  | loose (pgno : Nat)
  | freeDb (pgno : Nat)
  | tail (pgno : Nat)
deriving DecidableEq, Repr

/-- `mdb_page_alloc` (mdb.c lines 2302-2351).  `freeDbResult` stands for
the outcome of `__try_alloc_from_free_page_db` (modelled separately by
`freeWalk` below): `.ok pgno` when the harvest produced a suitable run,
`.error .NOTFOUND` when nothing suitable was found, any other error is
passed through.  The tail branch: allocation fails with `MDB_MAP_FULL`
when `mt_next_pgno + num >= me_maxpg`. -/
def mdb_page_alloc (txn : AllocTxn) (num : Nat) (freeDbResult : Except Err Nat) :
    Except Err (AllocSource × AllocTxn) :=
  if num = 1 ∧ txn.mt_loose_count ≠ 0 then
    .ok (.loose txn.mt_loose_head, { txn with mt_loose_count := txn.mt_loose_count - 1 })
  else if txn.mt_dirty_room = 0 then
    .error .TXN_FULL
  else
    match freeDbResult with
    | .ok pgno => .ok (.freeDb pgno, { txn with mt_dirty_room := txn.mt_dirty_room - 1 })
    | .error .NOTFOUND =>
        if txn.mt_next_pgno + num ≥ txn.me_maxpg then
          .error .MAP_FULL
        else
          .ok (.tail txn.mt_next_pgno,
               { txn with mt_next_pgno := txn.mt_next_pgno + num,
                          mt_dirty_room := txn.mt_dirty_room - 1 })
    | .error e => .error e

/-! ## Key/data size guards of _mdb_cursor_put (mdb.c lines 6197-6201) -/

/-- The guard `key->mv_size-1 >= MDB_MAXKEYSIZE` of `_mdb_cursor_put`
(mdb.c line 6197).  `mv_size` is `size_t`, so the subtraction wraps:
size 0 becomes `2^64 - 1`. -/
def put_key_guard_rejects (keySize : Nat) : Bool :=
  (keySize + (SIZE_T_MOD - 1)) % SIZE_T_MOD ≥ MDB_MAXKEYSIZE

/-- The guard `data->mv_size > (DUPSORT ? MDB_MAXKEYSIZE : MAXDATASIZE)` of
`_mdb_cursor_put` (mdb.c line 6200). -/
def put_data_guard_rejects (dataSize : Nat) (dupsort : Bool) : Bool :=
  dataSize > (if dupsort then MDB_MAXKEYSIZE else MAXDATASIZE)

/-- The size-check prologue of `_mdb_cursor_put` (mdb.c lines 6197-6201),
run before the database is touched in any way: first the key-size guard,
then the data-size guard, each returning `MDB_BAD_VALSIZE`. -/
def cursor_put_size_prologue (keySize dataSize : Nat) (dupsort : Bool) : Option Err :=
  if put_key_guard_rejects keySize then some .BAD_VALSIZE
  else if put_data_guard_rejects dataSize dupsort then some .BAD_VALSIZE
  else none

/-- The guard `key->mv_size == 0` of `mdb_locate_cursor_by_op`
(mdb.c line 5333), which `mdb_get` reaches before any page access. -/
def locate_key_guard_rejects (keySize : Nat) : Bool := keySize == 0

/-! ## Leaf-node placement (mdb_insert_node, OVPAGES) -/

/-- Where `mdb_insert_node` puts the data of a new leaf node. -/
inductive NodePlacement where
  | inline
  | overflow (npages : Nat)
deriving DecidableEq, Repr

/-- The placement decision of `mdb_insert_node` for a leaf node whose
caller did not pass `F_BIGDATA` (mdb.c lines 6866-6888): with
`node_size = __node_header_size + key size`, the data goes onto an
overflow run of `OVPAGES(data size, psize)` pages iff
`node_size + data->mv_size > me_nodemax`, else it is stored inline. -/
def insert_node_placement (psize ksize dsize : Nat) : NodePlacement :=
  if node_header_size + ksize + dsize > me_nodemax psize then
    .overflow (OVPAGES dsize psize)
  else
    .inline

/-! ## Reader table and the free-DB harvest walk
(mdb_find_alive_snapshot_id, __try_alloc_from_free_page_db) -/

/-- A slot of the reader table (`MDB_reader_entry`): owning process id and
the stamped snapshot id. -/
structure ReaderSlot where
  mr_pid : Nat
  mr_txnid : Nat
deriving DecidableEq, Repr

/-- `mdb_find_alive_snapshot_id` (mdb.c lines 2141-2156): start from
`txn->m_snapshot_id - 1`; for each reader slot with nonzero pid take its
stamped snapshot id; return the minimum.  The C loop runs over slot
indices `numreaders-1 .. 0`; the running minimum is order-independent, so
the fold direction is immaterial. -/
def mdb_find_alive_snapshot_id (m_snapshot_id : Nat) (readers : List ReaderSlot) : Nat :=
  readers.foldl
    (fun oldest r => if r.mr_pid ≠ 0 ∧ r.mr_txnid < oldest then r.mr_txnid else oldest)
    (m_snapshot_id - 1)

/-- A record of the free-DB: key = snapshot id, value = descending list of
page numbers freed by that snapshot. -/
structure FreeRecord where
  snapshot_id : Nat
  pages : List Nat
deriving DecidableEq, Repr

/-- The environment fields read and written by the free-DB walk of
`__try_alloc_from_free_page_db` (mdb.c lines 2171-2284), plus the ghost
list `merged` recording the snapshot ids of the records the walk has
consumed (merged into the reclaimed pool). -/
structure FreeWalkState where
  /-- `env->old_pg_state.last_snapshot_id`. -/
  last_snapshot_id : Nat
  /-- `env->alive_snapshot_id` (cached oldest live snapshot id). -/
  alive_snapshot_id : Nat
  /-- the local `found_old` of `__try_alloc_from_free_page_db`. -/
  found_old : Bool
  /-- ghost: ids of free-DB records merged so far. -/
  merged : List Nat
deriving DecidableEq, Repr

/-- One staleness check of the walk (mdb.c lines 2233-2240 and 2247-2254):
if the cached `alive_snapshot_id` does not exceed the candidate id,
recompute it once per walk via `mdb_find_alive_snapshot_id`; report
whether the walk must stop before consuming the candidate. -/
def walkStalenessCheck (writer : Nat) (readers : List ReaderSlot) (cand : Nat)
    (alive : Nat) (found_old : Bool) : Nat × Bool × Bool :=
  if alive ≤ cand then
    if ¬ found_old then
      let alive2 := mdb_find_alive_snapshot_id writer readers
      (alive2, true, alive2 ≤ cand)
    else
      (alive, found_old, true)
  else
    (alive, found_old, false)

/-- The record-fetching walk of `__try_alloc_from_free_page_db`
(mdb.c lines 2179-2281), as a recursion over the free-DB records with id
`≥ last_snapshot_id + 1` in ascending key order (the cursor positions by
`MDB_SET_RANGE` on `last_snapshot_id + 1`, then steps with `MDB_NEXT`).

Each iteration: first the reclaimed pool is searched for a contiguous run
(`runFound`, the outcome of the `mdb_midl`-based search of mdb.c lines
2186-2215; `midl.c` is not part of the sources, so the outcome is an
oracle parameter indexed by the number of records merged so far, and the
theorems below quantify over it); then the staleness check against the
incremented candidate id, the cursor fetch, the staleness check against
the fetched record's id, and finally the merge (mdb.c lines 2255-2280),
which advances `last_snapshot_id` to the record's id.

When a staleness check stops the walk, the C `break` leaves the `for`
loop and falls off the end of the function without a `return`; callers
treat any nonzero code as "nothing harvested", modelled as `.NOTFOUND`. -/
def freeWalk (writer : Nat) (readers : List ReaderSlot) (runFound : Nat → Bool)
    (st : FreeWalkState) (records : List FreeRecord) : FreeWalkState × Except Err Unit :=
  if runFound st.merged.length then
    (st, .ok ())
  else
    let chk1 :=
      walkStalenessCheck writer readers (st.last_snapshot_id + 1)
        st.alive_snapshot_id st.found_old
    let st1 := { st with alive_snapshot_id := chk1.1, found_old := chk1.2.1 }
    if chk1.2.2 then
      (st1, .error .NOTFOUND)
    else
      match records with
      | [] => (st1, .error .NOTFOUND)
      | r :: rest =>
        let chk2 := walkStalenessCheck writer readers r.snapshot_id chk1.1 chk1.2.1
        let st2 := { st1 with alive_snapshot_id := chk2.1, found_old := chk2.2.1 }
        if chk2.2.2 then
          (st2, .error .NOTFOUND)
        else
          freeWalk writer readers runFound
            { st2 with last_snapshot_id := r.snapshot_id,
                       merged := st2.merged ++ [r.snapshot_id] } rest
termination_by records.length

/-! ## Environment state, transaction begin, commit
(mdb_txn_begin, __mdb_txn_init, _mdb_txn_commit, mdb_env_write_meta) -/

/-- The environment fields read and written by transaction begin and
commit.  `me_txn0` is the identity of the single preallocated writer
transaction object of the environment. -/
structure EnvState where
  meta0 : MetaPage
  meta1 : MetaPage
  /-- `m_reader_table->mti_txnid`: latest committed snapshot id. -/
  mti_txnid : Nat
  /-- `MDB_FATAL_ERROR` sticky bit of `me_flags`. -/
  fatal : Bool
  /-- `MDB_PREVSNAPSHOT` bit of `me_flags`. -/
  prevsnapshot : Bool
  /-- `MDB_RDONLY` bit of `me_flags`. -/
  me_rdonly : Bool
  me_txn0 : Nat
  me_maxpg : Nat
deriving DecidableEq, Repr

/-- The write-transaction fields read and written by `_mdb_txn_commit`.
The dirty, free and spill lists are abstracted to lists of page numbers. -/
structure WriteTxn where
  m_snapshot_id : Nat
  mt_dirty : List Nat
  m_free_pgs : List Nat
  mt_spill_pgs : List Nat
  mt_next_pgno : Nat
  /-- `mt_dbs[FREE_DBI]`, `mt_dbs[MAIN_DBI]` descriptors, abstracted. -/
  mt_dbs : Nat × Nat
  flags_rdonly : Bool
  flags_finished : Bool
  flags_error : Bool
  flags_nosync : Bool
  /-- `MDB_TXN_DIRTY` bit. -/
  flags_dirty : Bool
  /-- `MDB_TXN_SPILLS` bit. -/
  flags_spills : Bool
deriving DecidableEq, Repr

/-- `mdb_txn_end` on a write transaction that is not yet finished
(mdb.c lines 2949-2977): close cursors, free the dirty list, drop the
free and spill lists, mark the transaction finished, release the writer
mutex.  A transaction already finished is left alone. -/
def mdb_txn_end_write (txn : WriteTxn) : WriteTxn :=
  if txn.flags_finished then txn
  else
    { txn with mt_dirty := [], m_free_pgs := [], mt_spill_pgs := [],
               flags_finished := true, flags_error := false,
               flags_dirty := false, flags_spills := false }

/-- `mdb_env_write_meta` (mdb.c lines 3611-3686): target slot is
`txn->m_snapshot_id & 1`; on `pwrite` success the slot receives the new
txnid, db descriptors and `mm_last_pg = mt_next_pgno - 1`, and the
reader-table header's `mti_txnid` is advanced; on `pwrite` failure the
environment is marked `MDB_FATAL_ERROR` and the error is returned
(`meta_pwrite_rc` stands for the OS outcome of the `pwrite`). -/
def mdb_env_write_meta (meta_pwrite_rc : Option Err) (env : EnvState) (txn : WriteTxn) :
    EnvState × Option Err :=
  let toggle := txn.m_snapshot_id % 2
  let newMeta : MetaPage :=
    { p_meta_flag := true, mm_magic := MDB_MAGIC, mm_version := MDB_DATA_VERSION,
      mm_txnid := txn.m_snapshot_id, mm_dbs := txn.mt_dbs,
      mm_last_pg := txn.mt_next_pgno - 1 }
  match meta_pwrite_rc with
  | some e => ({ env with fatal := true }, some e)
  | none =>
    let env1 := if toggle = 0 then { env with meta0 := newMeta } else { env with meta1 := newMeta }
    ({ env1 with mti_txnid := txn.m_snapshot_id }, none)

/-- The outcomes of the I/O performed by the steps of `_mdb_txn_commit`,
passed as oracle parameters of the commit model. -/
structure CommitIO where
  /-- outcome of the `_mdb_cursor_put` loop updating dirty named sub-DB
  descriptors (mdb.c lines 3412-3431). -/
  subdb_update_rc : Option Err
  /-- outcome of `mdb_freelist_save` (mdb.c line 3433). -/
  freelist_save_rc : Option Err
  /-- outcome of `mdb_page_flush` (mdb.c line 3445). -/
  page_flush_rc : Option Err
  /-- outcome of `mdb_env_sync0` (mdb.c line 3448). -/
  sync_rc : Option Err
  /-- outcome of the meta `pwrite` inside `mdb_env_write_meta`. -/
  meta_pwrite_rc : Option Err
  /-- outcome of `mdb_env_share_locks` (mdb.c line 3456, `PREVSNAPSHOT` commits). -/
  share_locks_rc : Option Err
deriving DecidableEq, Repr

/-- `_mdb_txn_commit` (mdb.c lines 3372-3470).  `is_current` models the
`txn != env->me_txn` check.  Every failing step takes the `fail:` path,
which aborts the transaction (`_mdb_txn_abort` → `mdb_txn_end`,
discarding the dirty/free/spill state) and returns the step's error;
the meta pages are only touched inside `mdb_env_write_meta`. -/
def _mdb_txn_commit (io : CommitIO) (env : EnvState) (txn : WriteTxn) (is_current : Bool) :
    EnvState × WriteTxn × Except Err Unit :=
  if txn.flags_rdonly then
    (env, mdb_txn_end_write txn, .ok ())
  else if txn.flags_finished ∨ txn.flags_error then
    (env, mdb_txn_end_write txn, .error .BAD_TXN)
  else if ¬ is_current then
    (env, mdb_txn_end_write txn, .error .EINVAL)
  else if txn.mt_dirty = [] ∧ ¬ txn.flags_dirty ∧ ¬ txn.flags_spills then
    (env, mdb_txn_end_write txn, .ok ())
  else
    match io.subdb_update_rc with
    | some e => (env, mdb_txn_end_write txn, .error e)
    | none =>
    match io.freelist_save_rc with
    | some e => (env, mdb_txn_end_write txn, .error e)
    | none =>
    match io.page_flush_rc with
    | some e => (env, mdb_txn_end_write txn, .error e)
    | none =>
    match (if ¬ txn.flags_nosync then io.sync_rc else none) with
    | some e => (env, mdb_txn_end_write txn, .error e)
    | none =>
    match mdb_env_write_meta io.meta_pwrite_rc env txn with
    | (env1, some e) => (env1, mdb_txn_end_write txn, .error e)
    | (env1, none) =>
      if env1.prevsnapshot then
        match io.share_locks_rc with
        | some e => (env1, mdb_txn_end_write txn, .error e)
        | none => ({ env1 with prevsnapshot := false }, mdb_txn_end_write txn, .ok ())
      else
        (env1, mdb_txn_end_write txn, .ok ())

/-- The read-only path of `__mdb_txn_init` (mdb.c lines 2724-2745 and
2774-2801): stamp the reader slot with `mti_txnid`, take the meta page
`me_metas[mr_txnid & 1]` (or `mdb_env_pick_meta` when the stamp is 0 in a
read-only environment), freeze `mt_next_pgno = mm_last_pg + 1` and copy
the DB descriptors; then fail with `MDB_PANIC` if the environment carries
`MDB_FATAL_ERROR`, or `MDB_MAP_RESIZED` if the map is too small.
Returns the snapshot id and the DB descriptors the reader observes. -/
def read_txn_begin (env : EnvState) : Except Err (Nat × (Nat × Nat)) :=
  let r_txnid := env.mti_txnid
  let meta :=
    if r_txnid = 0 ∧ env.me_rdonly then
      mdb_env_pick_meta env.prevsnapshot env.meta0 env.meta1
    else
      if r_txnid % 2 = 1 then env.meta1 else env.meta0
  let mt_next_pgno := meta.mm_last_pg + 1
  if env.fatal then .error .PANIC
  else if env.me_maxpg < mt_next_pgno then .error .MAP_RESIZED
  else .ok (r_txnid, meta.mm_dbs)

/-- The write path of `__mdb_txn_init` (mdb.c lines 2747-2801): lock the
writer mutex (`lock_rc` is the mutex outcome), pick the newest meta, set
`m_snapshot_id = meta.mm_txnid + 1`, reset the dirty/free/spill lists and
`mt_next_pgno = mm_last_pg + 1`; then the common epilogue checks
`MDB_FATAL_ERROR` (→ `MDB_PANIC`) and the map bound (→ `MDB_MAP_RESIZED`). -/
def write_txn_begin (env : EnvState) (lock_rc : Option Err) : Except Err WriteTxn :=
  match lock_rc with
  | some e => .error e
  | none =>
    let meta := mdb_env_pick_meta env.prevsnapshot env.meta0 env.meta1
    let txn : WriteTxn :=
      { m_snapshot_id := meta.mm_txnid + 1,
        mt_dirty := [], m_free_pgs := [], mt_spill_pgs := [],
        mt_next_pgno := meta.mm_last_pg + 1, mt_dbs := meta.mm_dbs,
        flags_rdonly := false, flags_finished := false, flags_error := false,
        flags_nosync := false, flags_dirty := false, flags_spills := false }
    if env.fatal then .error .PANIC
    else if env.me_maxpg < txn.mt_next_pgno then .error .MAP_RESIZED
    else .ok txn

/-- Result of `mdb_txn_begin`. -/
inductive BeginOutcome where
  /-- the `assert(!parent)` at mdb.c line 2822 fired: nested transactions
  have no code path. -/
  | assert_violation
  | err (e : Err)
  /-- success; `txnObj` is the identity of the transaction object handed
  back to the caller. -/
  | okTxn (txnObj : Nat)
deriving DecidableEq, Repr

/-- `mdb_txn_begin` (mdb.c lines 2820-2872): asserts `!parent`; rejects a
write transaction in a read-only environment with `EACCES`; a read-only
transaction gets a freshly allocated object (`freshReadObj`), a write
transaction reuses the environment's preallocated `me_txn0`; then
`__mdb_txn_init` runs. -/
def mdb_txn_begin (env : EnvState) (freshReadObj : Nat) (parent : Option Nat)
    (rdonly : Bool) (lock_rc : Option Err) : BeginOutcome :=
  if parent.isSome then .assert_violation
  else if env.me_rdonly ∧ ¬ rdonly then .err .EACCES
  else if rdonly then
    match read_txn_begin env with
    | .error e => .err e
    | .ok _ => .okTxn freshReadObj
  else
    match write_txn_begin env lock_rc with
    | .error e => .err e
    | .ok _ => .okTxn env.me_txn0

/-- `mdb_env_sync0` (mdb.c lines 2508-2524), reached from the public
`mdb_env_sync`: rejects read-only environments with `EACCES`, otherwise
issues `fdatasync` (outcome `fdatasync_rc`) when forced or unless
`MDB_NOSYNC`.  It never consults the `MDB_FATAL_ERROR` flag. -/
def mdb_env_sync0 (env : EnvState) (nosync force : Bool) (fdatasync_rc : Option Err) :
    Except Err Unit :=
  if env.me_rdonly then .error .EACCES
  else if force ∨ ¬ nosync then
    match fdatasync_rc with
    | some e => .error e
    | none => .ok ()
  else .ok ()

/-- A valid meta page with the given snapshot id, used by concrete
witnesses. -/
def sampleMeta (txnid : Nat) : MetaPage :=
  { p_meta_flag := true, mm_magic := MDB_MAGIC, mm_version := MDB_DATA_VERSION,
    mm_txnid := txnid, mm_dbs := (0, 0), mm_last_pg := 3 }

/-- A concrete environment used by witnesses: metas at snapshot ids 4 and
5, latest committed id 5, healthy flags. -/
def sampleEnv : EnvState :=
  { meta0 := sampleMeta 4, meta1 := sampleMeta 5, mti_txnid := 5,
    fatal := false, prevsnapshot := false, me_rdonly := false,
    me_txn0 := 99, me_maxpg := 1024 }

/-- A concrete active write transaction with work to commit, used by
witnesses. -/
def sampleWriteTxn : WriteTxn :=
  { m_snapshot_id := 6, mt_dirty := [7, 8], m_free_pgs := [5], mt_spill_pgs := [],
    mt_next_pgno := 9, mt_dbs := (1, 2),
    flags_rdonly := false, flags_finished := false, flags_error := false,
    flags_nosync := false, flags_dirty := false, flags_spills := false }

/-! ## The B+tree put/get model (non-dupsort databases)

The remaining definitions embed the page-level B+tree of mdb.c for a
non-dupsort database: `mdb_cmp_memn`, the in-page binary search of
`mdb_node_search_in_page`, the descent of `mdb_relocate_cursor` /
`__mdb_locate_cursor`, `_mdb_cursor_put` / `_mdb_cursor_put_simple` with
`mdb_insert_node` and `mdb_page_split_insert`, and `mdb_get` /
`mdb_locate_cursor_by_op` / `mdb_node_read`.

Pages are represented by their node lists (the offset-table/heap byte
layout is abstracted away, but every size computation — node heap sizes,
`EVEN` rounding, page capacity, the split-point scan — follows the C
arithmetic).  Page numbers and the copy-on-write/dirty machinery do not
affect which keys map to which bytes, so a page is identified with its
content: an overflow run is carried as its page count plus its bytes, and
`mdb_page_get` indirection disappears.  I/O and allocation are taken to
succeed (their failures only produce more error paths).  The page size is
fixed at the common configuration `PSIZE = 4096`. -/

/-- Page size of the model (`env->me_psize`), the usual 4096-byte OS page. -/
def PSIZE : Nat := 4096

/-- `pmax` of `mdb_page_split_insert` (mdb.c line 8286): maximum free
space in an empty page. -/
def pmaxP : Nat := PSIZE - PAGEHDRSZ

/-- `keythresh` (mdb.c line 8288): `env->me_psize >> 7`. -/
def keythreshP : Nat := PSIZE / 128

/-- `me_nodemax` at `PSIZE`. -/
def nodemaxP : Nat := me_nodemax PSIZE

/-! Put flags (numeric values from the public `lmdb.h`, which is not under
src/; the values are the stable public ABI of LMDB) and node flags
(mdb.c lines 905-910). -/

def MDB_NOOVERWRITE : Nat := 0x10
def MDB_NODUPDATA : Nat := 0x20
def MDB_CURRENT : Nat := 0x40
def MDB_RESERVE : Nat := 0x10000
def MDB_APPEND : Nat := 0x20000
def MDB_APPENDDUP : Nat := 0x40000
def F_BIGDATA : Nat := 0x01
def F_SUB_DATABASE : Nat := 0x02
def F_DUPDATA : Nat := 0x04

/-- `MDB_SPLIT_REPLACE` (mdb.c line 1404): alias of `MDB_APPENDDUP`. -/
def MDB_SPLIT_REPLACE : Nat := MDB_APPENDDUP

/-- `NODE_ADD_FLAGS` (mdb.c line 910): `F_DUPDATA|F_SUB_DATABASE|MDB_RESERVE`. -/
def NODE_ADD_FLAGS : Nat := F_DUPDATA ||| F_SUB_DATABASE ||| MDB_RESERVE

/-- Keys and values are byte strings. -/
abbrev Key := List Nat

/-- Byte strings (node data, overflow-page payloads). -/
abbrev Bytes := List Nat

/-- `memcmp` over two byte lists of equal length: sign of the first
differing byte pair (only the sign of the C `int` result is ever used). -/
def memcmpList : List Nat → List Nat → Int
  | x :: xs, y :: ys => if x < y then -1 else if y < x then 1 else memcmpList xs ys
  | _, _ => 0

/-- `mdb_cmp_memn` (mdb.c lines 4532-4547): compare the first
`min(asize, bsize)` bytes with `memcmp`; on a tie the shorter string is
smaller. -/
def mdb_cmp_memn (a b : List Nat) : Int :=
  let len := min a.length b.length
  let diff := memcmpList (a.take len) (b.take len)
  if diff ≠ 0 then diff
  else if a.length < b.length then -1 else if b.length < a.length then 1 else 0

/-- Recursive presentation of the same lexicographic order, used to reason
about `mdb_cmp_memn` (the two agree, see `mdb_cmp_memn_eq_lexCmp`). -/
def lexCmp : List Nat → List Nat → Int
  | [], [] => 0
  | [], _ :: _ => -1
  | _ :: _, [] => 1
  | x :: xs, y :: ys => if x < y then -1 else if y < x then 1 else lexCmp xs ys

/-- Data part of a leaf node: either inline bytes, or — with `F_BIGDATA` —
an overflow run of `ovfCount` pages (`m_ovf_page_count` of its first
page) holding the bytes, referenced from the node by page number. -/
inductive LeafVal where
  | inline (v : Bytes)
  | big (ovfCount : Nat) (v : Bytes)
deriving DecidableEq, Repr

/-- What `mdb_insert_node` receives as the data argument: fresh user data
(the `F_BIGDATA` decision of mdb.c lines 6870-6888 applies), or an
existing node moved during a split with its flags (an overflow reference
is copied verbatim). -/
inductive NodeData where
  | fresh (d : Bytes)
  | stored (v : LeafVal)
deriving DecidableEq, Repr

/-- The value `mdb_insert_node` ends up storing (mdb.c lines 6868-6932):
fresh data goes to an overflow run of `OVPAGES` pages iff
header + key + data exceeds `me_nodemax`; a moved node keeps its
representation. -/
def placeNodeVal (k : Key) : NodeData → LeafVal
  | .fresh d =>
    if node_header_size + k.length + d.length > nodemaxP then
      .big (OVPAGES d.length PSIZE) d
    else
      .inline d
  | .stored v => v

/-- Heap bytes a leaf node occupies in its page: `EVEN(node_size)` with
`node_size = header + key + data` inline, `header + key + pgno` for
`F_BIGDATA` (mdb.c lines 6866-6890). -/
def leafValHeapSize (k : Key) : LeafVal → Nat
  | .inline v => EVEN (node_header_size + k.length + v.length)
  | .big _ _ => EVEN (node_header_size + k.length + pgno_size)

/-- Bytes of a leaf page consumed by its nodes: heap size plus one offset
slot (`indx_t`) each. -/
def leafUsed (es : List (Key × LeafVal)) : Nat :=
  (es.map (fun e => leafValHeapSize e.1 e.2 + indx_size)).sum

/-- `mdb_leaf_size` (mdb.c lines 6774-6785). -/
def mdb_leaf_size_model (k : Key) (d : Bytes) : Nat :=
  let sz := node_header_size + k.length + d.length
  let sz := if sz > nodemaxP then node_header_size + k.length + pgno_size else sz
  EVEN (sz + indx_size)

/-- `mdb_branch_size` (mdb.c lines 6797-6809): `__node_header_size + key
size + sizeof(indx_t)` (no rounding here; `mdb_insert_node` rounds). -/
def mdb_branch_size_model (k : Key) : Nat :=
  node_header_size + k.length + indx_size

/-- The B+tree of one database: a leaf page is its ordered node list, a
branch page its ordered slot list, where the key of slot 0 is never
compared (index 0 holds the empty separator). -/
inductive Tree where
  | leaf (es : List (Key × LeafVal))
  | branch (slots : List (Key × Tree))
deriving Repr

/-- Bytes of a branch page consumed by its slots: `EVEN(header + key)`
heap plus one offset slot each. -/
def branchUsed (slots : List (Key × Tree)) : Nat :=
  (slots.map (fun s => EVEN (node_header_size + s.1.length) + indx_size)).sum

/-! ### In-page binary search (mdb_node_search_in_page) -/

/-- The binary-search loop of `mdb_node_search_in_page`
(mdb.c lines 4641-4661) on the page's key array.  `low` starts at 0 for a
leaf page and 1 for a branch page, `high` at `NUMKEYS-1`; `i` and `rc`
carry the index and result of the last comparison (both 0 initially).
Each iteration shrinks `high - low` by at least one, so the loop runs at
most `high + 1 - low` times; `fuel` is any bound on that count (the
wrapper passes `NUMKEYS + 1`) and the fuel-exhausted fallback is
unreachable. -/
def searchLoop (keys : List Key) (k : Key) :
    Nat → Nat → Int → Nat → Int → Nat × Int
  | 0, _, _, i, rc => (i, rc)
  | fuel + 1, low, high, i, rc =>
    if (low : Int) ≤ high then
      let mid := (low + high.toNat) / 2
      let r := mdb_cmp_memn k (keys.getD mid [])
      if r = 0 then (mid, 0)
      else if r > 0 then searchLoop keys k fuel (mid + 1) high mid r
      else searchLoop keys k fuel low ((mid : Int) - 1) mid r
    else (i, rc)

/-- `mdb_node_search_in_page` (mdb.c lines 4596-4683) on a non-leaf2 page,
returning the final key index (`mc_ki`, the lower bound) and the exact
flag `rc == 0 && nkeys > 0`. -/
def node_search_in_page (isLeaf : Bool) (keys : List Key) (k : Key) : Nat × Bool :=
  let n := keys.length
  let low := if isLeaf then 0 else 1
  let (i, rc) := searchLoop keys k (n + 1) low ((n : Int) - 1) 0 0
  let i := if rc > 0 then i + 1 else i
  (i, rc = 0 ∧ n > 0)

/-- Child selection on a branch page (`__mdb_locate_cursor`, mdb.c lines
4823-4836): if the search found no entry `≥ key` follow the rightmost
child, on an exact match follow child `i`, otherwise child `i - 1`. -/
def branchChildIdx (keys : List Key) (k : Key) : Nat :=
  let (i, ex) := node_search_in_page false keys k
  if i ≥ keys.length then keys.length - 1
  else if ex then i else i - 1

/-! ### Page split (mdb_page_split_insert) -/

/-- The payload bytes the split-point scan charges a staged leaf node
(mdb.c lines 8345-8352): `sizeof(pgno_t)` for `F_BIGDATA`, else the data
size; a fresh node at its staged position is charged via `nsize`
separately and is never queried here, but the formula covers it with the
`mdb_insert_node` big-data rule for completeness. -/
def leafNodePayload (k : Key) : NodeData → Nat
  | .fresh d => if node_header_size + k.length + d.length > nodemaxP then pgno_size else d.length
  | .stored (.inline v) => v.length
  | .stored (.big _ _) => pgno_size

/-- The un-rounded weight the split-point scan adds for one staged leaf
node: `__node_header_size + NODEKSZ + sizeof(indx_t)` plus payload
(mdb.c lines 8346-8351); the `EVEN` is applied to the running sum. -/
def leafStagedWeight (e : Key × NodeData) : Nat :=
  node_header_size + e.1.length + indx_size + leafNodePayload e.1 e.2

/-- The un-rounded weight of one staged branch node (mdb.c line 8346,
branch pages add no payload). -/
def branchStagedWeight (k : Key) : Nat :=
  node_header_size + k.length + indx_size

/-- The split-point scan of `mdb_page_split_insert` (mdb.c lines
8330-8360): walk the staged nodes from `i0` in direction `j` until the
accumulated (EVEN-rounded) size exceeds `pmax` or the index before `kk`
is reached; the result is `i + (j<0)`.  The loop always exits through its
`break`; `fuel` is the iteration bound `|kk - i0| + 1`, chosen so that the
fuel-exhausted fallback is unreachable. -/
def splitScan (weights : Nat → Nat) (nsize : Nat) (newindx : Nat) (kk j : Int) :
    Nat → Int → Nat → Int
  | 0, i, _ => i + (if j < 0 then 1 else 0)
  | fuel + 1, i, acc =>
    let acc2 := if i = (newindx : Int) then acc + nsize else EVEN (acc + weights i.toNat)
    if acc2 > pmaxP ∨ i = kk - j then i + (if j < 0 then 1 else 0)
    else splitScan weights nsize newindx kk j fuel (i + j) acc2

/-- `split_indx` of `mdb_page_split_insert` (mdb.c lines 8242, 8330-8360):
the median `(nkeys+1)/2` unless the page has few keys, the new node is
large, or the insertion is at the end — then the scanned split point. -/
def computeSplitIndx (isLeaf : Bool) (weights : Nat → Nat) (nkeys newindx nsize : Nat) : Nat :=
  let split0 := (nkeys + 1) / 2
  if nkeys < keythreshP ∨ nsize > pmaxP / 16 ∨ newindx ≥ nkeys then
    if newindx ≤ split0 ∨ newindx ≥ nkeys then
      let kk : Int := if newindx ≥ nkeys then (nkeys : Int) else
        (split0 : Int) + 1 + (if isLeaf then 1 else 0)
      (splitScan weights nsize newindx kk 1 ((kk - 0).natAbs + 1) 0 0).toNat
    else
      let kk : Int := (split0 : Int) - 1
      (splitScan weights nsize newindx kk (-1) ((kk - nkeys).natAbs + 1) (nkeys : Int) 0).toNat
  else split0

/-- The staged node sequence of a leaf split: the page's nodes with the
new node inserted at `newindx` (mdb.c lines 8307-8313 build exactly this
sequence in `copy`). -/
def stagedLeaf (es : List (Key × LeafVal)) (newindx : Nat) (k : Key) (d : Bytes) :
    List (Key × NodeData) :=
  (es.map (fun e => (e.1, NodeData.stored e.2))).insertIdx newindx (k, .fresh d)

/-- One `mdb_insert_node` call on a leaf page (mdb.c lines 6828-6941):
checks the room (`node_size > SIZELEFT - sizeof(indx_t)` fails with
`MDB_PAGE_FULL`), applies the big-data rule, and inserts the node at the
given index. -/
def mdb_insert_node_leaf (es : List (Key × LeafVal)) (idx : Nat) (k : Key) (nd : NodeData) :
    Except Err (List (Key × LeafVal)) :=
  let room : Int := (pmaxP : Int) - leafUsed es - indx_size
  let v := placeNodeVal k nd
  if (leafValHeapSize k v : Int) > room then .error .PAGE_FULL
  else .ok (es.insertIdx idx (k, v))

/-- One `mdb_insert_node` call on a branch page: `node_size =
EVEN(header + key)`, same room check, slot inserted at the index. -/
def mdb_insert_node_branch (slots : List (Key × Tree)) (idx : Nat) (k : Key) (t : Tree) :
    Except Err (List (Key × Tree)) :=
  let room : Int := (pmaxP : Int) - branchUsed slots - indx_size
  if (EVEN (node_header_size + k.length) : Int) > room then .error .PAGE_FULL
  else .ok (slots.insertIdx idx (k, t))

/-- Build one side of a leaf split by inserting the staged nodes in order
(the distribution loop of mdb.c lines 8429-8472, `j = 0, 1, ...`). -/
def buildLeafPage (seg : List (Key × NodeData)) : Except Err (List (Key × LeafVal)) :=
  seg.foldlM (fun acc e => mdb_insert_node_leaf acc acc.length e.1 e.2) []

/-- Build one side of a branch split: the first inserted slot gets the
empty key (mdb.c lines 8456-8459). -/
def buildBranchPage (seg : List (Key × Tree)) : Except Err (List (Key × Tree)) :=
  match seg with
  | [] => .ok []
  | s :: rest => do
    let first ← mdb_insert_node_branch [] 0 [] s.2
    rest.foldlM (fun acc e => mdb_insert_node_branch acc acc.length e.1 e.2) first

/-- The content transformation `buildBranchPage` applies to a staged
segment: the first slot's key is cleared (mdb.c lines 8456-8459). -/
def clearFirstKey (seg : List (Key × Tree)) : List (Key × Tree) :=
  match seg with
  | [] => []
  | s :: rest => ([], s.2) :: rest

/-- `mdb_page_split_insert` on a leaf page (mdb.c lines 8163-8580),
reduced to its content transformation: stage the new node at `newindx`,
compute the split index, promote the staged key at the split index, and
distribute the staged nodes — right sibling gets `staged[split..]`, the
original page keeps `staged[..split]`.  With `MDB_APPEND` in `nflags`
(mdb.c lines 8235-8239, 8419-8424) the right sibling receives only the
new node and the separator is the new key. -/
def splitLeafInsert (es : List (Key × LeafVal)) (newindx : Nat) (k : Key) (d : Bytes)
    (nflags : Nat) : Except Err (List (Key × LeafVal) × Key × List (Key × LeafVal)) :=
  if nflags &&& MDB_APPEND ≠ 0 then do
    let rp ← buildLeafPage [(k, .fresh d)]
    .ok (es, k, rp)
  else
    let staged := stagedLeaf es newindx k d
    let nsize := mdb_leaf_size_model k d
    let si := computeSplitIndx true
      (fun i => leafStagedWeight (staged.getD i ([], .fresh []))) es.length newindx nsize
    let sep := (staged.getD si ([], .fresh [])).1
    do
      let rp ← buildLeafPage (staged.drop si)
      let lp ← buildLeafPage (staged.take si)
      .ok (lp, sep, rp)

/-- `mdb_page_split_insert` on a branch page, same shape; the right
sibling's first slot key is cleared by `buildBranchPage`. -/
def splitBranchInsert (slots : List (Key × Tree)) (newindx : Nat) (k : Key) (t : Tree) :
    Except Err (List (Key × Tree) × Key × List (Key × Tree)) :=
  let staged := slots.insertIdx newindx (k, t)
  let nsize := EVEN (mdb_branch_size_model k)
  let si := computeSplitIndx false
    (fun i => branchStagedWeight (staged.getD i ([], .leaf [])).1) slots.length newindx nsize
  let sep := (staged.getD si ([], .leaf [])).1
  do
    let rp ← buildBranchPage (staged.drop si)
    let lp ← buildBranchPage (staged.take si)
    .ok (lp, sep, rp)

/-! ### Put and get (mdb_put, _mdb_cursor_put, _mdb_cursor_put_simple,
mdb_get, mdb_locate_cursor_by_op) -/

/-- Result of an insert into a subtree: the page absorbed the node, or it
split into a left page, a promoted separator, and a right sibling. -/
inductive InsR where
  | one (t : Tree)
  | two (l : Tree) (sep : Key) (r : Tree)
deriving Repr

/-- `_mdb_cursor_put` positioning plus `_mdb_cursor_put_simple` on the
located leaf (mdb.c lines 6236-6247, 5897-6005) for a non-dupsort
database.  `ovfDirty` is the oracle for the `P_DIRTY` state of an
existing overflow page (mdb.c line 5940; the model does not track dirty
flags — both outcomes are covered).  With `MDB_RESERVE` the caller later
fills the returned buffer; the model stores the eventual bytes `d`. -/
def leafPut (es : List (Key × LeafVal)) (k : Key) (d : Bytes) (flags : Nat)
    (ovfDirty : Bool) : Except Err InsR :=
  let ks := es.map (·.1)
  let fe := node_search_in_page true ks k
  if fe.2 ∧ flags &&& MDB_NOOVERWRITE ≠ 0 then .error .KEYEXIST
  else if ¬ fe.2 then
    -- insert a new node (mdb.c lines 5977-6003)
    let nflags := flags &&& NODE_ADD_FLAGS
    let nsize := mdb_leaf_size_model k d
    if pmaxP - leafUsed es < nsize then do
      let (lp, sep, rp) ← splitLeafInsert es fe.1 k d nflags
      .ok (.two (.leaf lp) sep (.leaf rp))
    else do
      let es2 ← mdb_insert_node_leaf es fe.1 k (.fresh d)
      .ok (.one (.leaf es2))
  else
    -- overwrite the node at the cursor (mdb.c lines 5904-5975)
    let e := es.getD fe.1 ([], .inline [])
    let replace : Except Err InsR :=
      let es2 := es.eraseIdx fe.1
      let nflags := (flags &&& NODE_ADD_FLAGS) ||| MDB_SPLIT_REPLACE
      let nsize := mdb_leaf_size_model k d
      if pmaxP - leafUsed es2 < nsize then do
        let (lp, sep, rp) ← splitLeafInsert es2 fe.1 k d nflags
        .ok (.two (.leaf lp) sep (.leaf rp))
      else do
        let es3 ← mdb_insert_node_leaf es2 fe.1 k (.fresh d)
        .ok (.one (.leaf es3))
    match e.2 with
    | .big c _ =>
      if c ≥ OVPAGES d.length PSIZE ∧ ovfDirty then
        -- overwrite the overflow run in place, keeping its page count
        .ok (.one (.leaf (es.set fe.1 (e.1, .big c d))))
      else
        -- mdb_ovpage_free, __mdb_node_del, insert the new node
        replace
    | .inline v =>
      if d.length = v.length then
        -- same size: replace the data bytes in place
        .ok (.one (.leaf (es.set fe.1 (e.1, .inline d))))
      else
        -- __mdb_node_del, insert the new node
        replace

/-- `CURSOR_STACK` (mdb.c line 1187): maximum cursor depth; descending
past it makes `mdb_cursor_push` fail with `MDB_CURSOR_FULL`
(mdb.c lines 4718-4720). -/
def CURSOR_STACK : Nat := 32

/-- Insert along the search path: descend per `branchChildIdx`, let the
child absorb or split, and on a split insert the promoted separator with
the right sibling into this page at child index + 1 (mdb.c lines
8374-8413), splitting this page in turn when it lacks room.  `fuel`
bounds the descent depth as `CURSOR_STACK` bounds the cursor stack. -/
def treePut : Nat → Tree → Key → Bytes → Nat → Bool → Except Err InsR
  | _, .leaf es, k, d, flags, ovfDirty => leafPut es k d flags ovfDirty
  | 0, .branch _, _, _, _, _ => .error .CURSOR_FULL
  | fuel + 1, .branch slots, k, d, flags, ovfDirty =>
    let ci := branchChildIdx (slots.map (·.1)) k
    do
      let r ← treePut fuel (slots.getD ci ([], .leaf [])).2 k d flags ovfDirty
      match r with
      | .one t2 =>
        .ok (.one (.branch (slots.set ci ((slots.getD ci ([], .leaf [])).1, t2))))
      | .two l sep rsub =>
        let slots2 := slots.set ci ((slots.getD ci ([], .leaf [])).1, l)
        if pmaxP - branchUsed slots2 < mdb_branch_size_model sep then do
          let (lp, sep2, rp) ← splitBranchInsert slots2 (ci + 1) sep rsub
          .ok (.two (.branch lp) sep2 (.branch rp))
        else do
          let slots3 ← mdb_insert_node_branch slots2 (ci + 1) sep rsub
          .ok (.one (.branch slots3))

/-- `_mdb_cursor_put` (mdb.c lines 6186-6272) for a fresh cursor on a
non-dupsort database: transaction-state and size guards, the
`MDB_NO_ROOT` new-root-leaf path (lines 6215-6235), then the located
insert; a root split allocates a new branch root whose slot 0 holds the
old root under the empty key (lines 8198-8224). -/
def _mdb_cursor_put_model (txn_rdonly txn_blocked : Bool) (root : Option Tree)
    (k : Key) (d : Bytes) (flags : Nat) (ovfDirty : Bool) : Except Err (Option Tree) :=
  if txn_rdonly ∨ txn_blocked then
    if txn_rdonly then .error .EACCES else .error .BAD_TXN
  else if put_key_guard_rejects k.length then .error .BAD_VALSIZE
  else if put_data_guard_rejects d.length false then .error .BAD_VALSIZE
  else if flags &&& MDB_CURRENT ≠ 0 then .error .EINVAL
  else
    let t0 := root.getD (.leaf [])
    do
      let r ← treePut CURSOR_STACK t0 k d flags ovfDirty
      match r with
      | .one t2 => .ok (some t2)
      | .two l sep rp => do
        let s0 ← mdb_insert_node_branch [] 0 [] l
        let s1 ← mdb_insert_node_branch s0 1 sep rp
        .ok (some (.branch s1))

/-- `mdb_put` (mdb.c lines 8582-8607): reject flags outside
`MDB_NOOVERWRITE|MDB_NODUPDATA|MDB_RESERVE|MDB_APPEND|MDB_APPENDDUP`,
check the transaction state, then `_mdb_cursor_put` on a fresh cursor. -/
def mdb_put_model (txn_rdonly txn_blocked : Bool) (root : Option Tree)
    (k : Key) (d : Bytes) (flags : Nat) (ovfDirty : Bool) : Except Err (Option Tree) :=
  if flags &&& (MDB_NOOVERWRITE ||| MDB_NODUPDATA ||| MDB_RESERVE ||| MDB_APPEND |||
      MDB_APPENDDUP) ≠ flags then .error .EINVAL
  else if txn_rdonly ∨ txn_blocked then
    if txn_rdonly then .error .EACCES else .error .BAD_TXN
  else _mdb_cursor_put_model txn_rdonly txn_blocked root k d flags ovfDirty

/-- The descent of `mdb_relocate_cursor` / `__mdb_locate_cursor` followed
by the exact leaf search and `mdb_node_read` (which returns the overflow
run's bytes for `F_BIGDATA` nodes).  `fuel` bounds the descent depth as
`CURSOR_STACK` bounds the cursor stack. -/
def treeGet : Nat → Tree → Key → Except Err Bytes
  | _, .leaf es, k =>
    let fe := node_search_in_page true (es.map (·.1)) k
    if ¬ fe.2 then .error .NOTFOUND
    else
      match (es.getD fe.1 ([], .inline [])).2 with
      | .inline v => .ok v
      | .big _ v => .ok v
  | 0, .branch _, _ => .error .CURSOR_FULL
  | fuel + 1, .branch slots, k =>
    treeGet fuel (slots.getD (branchChildIdx (slots.map (·.1)) k) ([], .leaf [])).2 k

/-- `mdb_get` (mdb.c lines 5084-5103): `mdb_locate_cursor_by_op` with
`MDB_SET` on a fresh cursor — transaction check, the empty-key guard
(line 5333), `MDB_NOTFOUND` on an empty tree (`mdb_relocate_cursor`,
lines 4951-4953), else the descent and exact search. -/
def mdb_get_model (txn_blocked : Bool) (root : Option Tree) (k : Key) : Except Err Bytes :=
  if txn_blocked then .error .BAD_TXN
  else if k.length = 0 then .error .BAD_VALSIZE
  else
    match root with
    | none => .error .NOTFOUND
    | some t => treeGet CURSOR_STACK t k

/-- All key/value entries of a subtree, in page order (`fuel` as in
`treeGet`). -/
def entries : Nat → Tree → List (Key × LeafVal)
  | _, .leaf es => es
  | 0, .branch _ => []
  | fuel + 1, .branch slots => (slots.map (fun s => entries fuel s.2)).flatten

/-- The bytes an entry's value denotes (what `mdb_node_read` returns). -/
def valBytes : LeafVal → Bytes
  | .inline v => v
  | .big _ v => v

/-! ### Well-formedness of the B+tree

The invariants maintained by the storage core (spec §3): keys within the
writable bound, nodes sorted by the database comparator, page contents
within page capacity, and each child subtree's keys within the half-open
interval delimited by its separator and the next (invariant 4 of §8); the
separator at slot `i` is the least key of the subtree at child `i`. -/

/-- A key accepted by the put path: size in `[1, MDB_MAXKEYSIZE]`. -/
def wfKey (k : Key) : Bool :=
  1 ≤ k.length ∧ k.length ≤ MDB_MAXKEYSIZE

/-- Inclusive lower bound (`none` = unbounded). -/
def lbOKb : Option Key → Key → Bool
  | none, _ => true
  | some l, k => lexCmp l k ≤ 0

/-- Strict lower bound (`none` = unbounded). -/
def lbStrictB : Option Key → Key → Bool
  | none, _ => true
  | some l, k => lexCmp l k < 0

/-- Strict upper bound (`none` = unbounded). -/
def ubOKb : Option Key → Key → Bool
  | none, _ => true
  | some h, k => lexCmp k h < 0

/-- Keys in strictly increasing comparator order. -/
def sortedKeysB : List Key → Bool
  | [] => true
  | [_] => true
  | a :: b :: t => lexCmp a b < 0 && sortedKeysB (b :: t)

/-- A leaf node respects the size invariants: an inline node fits in
`me_nodemax` (enforced by `mdb_insert_node`). -/
def wfNodeSize (k : Key) : LeafVal → Bool
  | .inline v => node_header_size + k.length + v.length ≤ nodemaxP
  | .big _ _ => true

/-- Well-formed leaf page contents within bounds `(lo, hi)`. -/
def wfLeafB (lo hi : Option Key) (es : List (Key × LeafVal)) : Bool :=
  sortedKeysB (es.map (·.1)) &&
  es.all (fun e => wfKey e.1 && lbOKb lo e.1 && ubOKb hi e.1 && wfNodeSize e.1 e.2) &&
  leafUsed es ≤ pmaxP

/-- Lower bound of child `i` of a branch page: the parent's bound for
child 0 (whose slot key is never compared), else the separator at slot
`i`. -/
def childLo (lo : Option Key) (slots : List (Key × Tree)) (i : Nat) : Option Key :=
  if i = 0 then lo else some (slots.getD i ([], .leaf [])).1

/-- Upper bound of child `i`: the next separator, or the parent's bound
for the last child. -/
def childHi (hi : Option Key) (slots : List (Key × Tree)) (i : Nat) : Option Key :=
  if i + 1 = slots.length then hi else some (slots.getD (i + 1) ([], .leaf [])).1

/-- Well-formed tree of depth at most `fuel` within bounds `(lo, hi)`.
Slot 0 of a branch page carries the empty key: its key bytes are never
compared, new right siblings and new roots are created with an empty
slot-0 key (mdb.c lines 8456-8459, 8198-8224), and later insertions into
a branch page happen at child index + 1 ≥ 1, so the invariant is
maintained by the code. -/
def wfTreeB : Nat → Option Key → Option Key → Tree → Bool
  | _, lo, hi, .leaf es => wfLeafB lo hi es
  | 0, _, _, .branch _ => false
  | fuel + 1, lo, hi, .branch slots =>
    !slots.isEmpty &&
    (slots.getD 0 ([], .leaf [])).1.isEmpty &&
    sortedKeysB ((slots.map (·.1)).drop 1) &&
    ((slots.map (·.1)).drop 1).all
      (fun a => wfKey a && lbStrictB lo a && ubOKb hi a) &&
    decide (branchUsed slots ≤ pmaxP) &&
    (List.range slots.length).all (fun i =>
      wfTreeB fuel (childLo lo slots i) (childHi hi slots i)
        (slots.getD i ([], .leaf [])).2)

/-- The final index `mc_ki` of `mdb_node_search_in_page`: the index of
the last comparison, bumped by one when that comparison put the sought
key on the right. -/
def searchFi (res : Nat × Int) : Nat :=
  if res.2 > 0 then res.1 + 1 else res.1

/-- Postcondition of the binary-search loop on a page whose probed region
starts at `low0`: an exact hit, a separation index with everything left
of it strictly below `k` and everything right of it strictly above, or
the untouched initial state when the probed region is empty. -/
def SearchPost (ks : List Key) (k : Key) (low0 : Nat) (res : Nat × Int) : Prop :=
  (res.2 = 0 ∧ low0 ≤ res.1 ∧ res.1 < ks.length ∧ lexCmp k (ks.getD res.1 []) = 0) ∨
  (res.2 ≠ 0 ∧ low0 ≤ searchFi res ∧ searchFi res ≤ ks.length ∧
    (∀ j : Nat, low0 ≤ j → j < searchFi res → lexCmp (ks.getD j []) k < 0) ∧
    (∀ j : Nat, searchFi res ≤ j → j < ks.length → lexCmp k (ks.getD j []) < 0)) ∨
  (res = (0, 0) ∧ ks.length ≤ low0)

/-- What a successful insert into a subtree guarantees: the result is
well formed within the same bounds and a get for the inserted key
returns the inserted bytes; after a split both halves are well formed
against the promoted separator, the separator is a valid key strictly
inside the bounds, and the get succeeds in the half the separator
assigns to the key. -/
def PutPost (fuel : Nat) (lo hi : Option Key) (k : Key) (d : Bytes) : InsR → Prop
  | .one t2 => wfTreeB fuel lo hi t2 = true ∧ treeGet fuel t2 k = .ok d
  | .two l sep r2 =>
    wfKey sep = true ∧ lbStrictB lo sep = true ∧ ubOKb hi sep = true ∧
    wfTreeB fuel lo (some sep) l = true ∧ wfTreeB fuel (some sep) hi r2 = true ∧
    (if lexCmp k sep < 0 then treeGet fuel l k = .ok d else treeGet fuel r2 k = .ok d)

/-! ## Supporting lemmas -/

/-! ### Comparator lemmas: `mdb_cmp_memn` agrees with the recursive
lexicographic comparison, which is a strict linear order. -/

theorem memn_cons_lt {x y : Nat} (xs ys : List Nat) (hxy : x < y) :
    mdb_cmp_memn (x :: xs) (y :: ys) = -1 := by
  unfold mdb_cmp_memn
  simp only [List.length_cons]
  have hmin : min (xs.length + 1) (ys.length + 1) = min xs.length ys.length + 1 := by omega
  rw [hmin]
  simp [List.take_succ_cons, memcmpList, hxy]

theorem memn_cons_gt {x y : Nat} (xs ys : List Nat) (hyx : y < x) :
    mdb_cmp_memn (x :: xs) (y :: ys) = 1 := by
  unfold mdb_cmp_memn
  simp only [List.length_cons]
  have hmin : min (xs.length + 1) (ys.length + 1) = min xs.length ys.length + 1 := by omega
  rw [hmin]
  simp [List.take_succ_cons, memcmpList, hyx, Nat.lt_asymm hyx]

theorem memn_cons_eq (x : Nat) (xs ys : List Nat) :
    mdb_cmp_memn (x :: xs) (x :: ys) = mdb_cmp_memn xs ys := by
  unfold mdb_cmp_memn
  simp only [List.length_cons]
  have hmin : min (xs.length + 1) (ys.length + 1) = min xs.length ys.length + 1 := by omega
  rw [hmin]
  simp only [List.take_succ_cons, memcmpList, lt_irrefl, if_false,
    Nat.add_lt_add_iff_right]

theorem mdb_cmp_memn_eq_lexCmp (a b : List Nat) : mdb_cmp_memn a b = lexCmp a b := by
  induction a generalizing b with
  | nil => cases b <;> simp [mdb_cmp_memn, lexCmp, memcmpList]
  | cons x xs ih =>
    cases b with
    | nil => simp [mdb_cmp_memn, lexCmp, memcmpList]
    | cons y ys =>
      rcases Nat.lt_trichotomy x y with h | h | h
      · rw [memn_cons_lt xs ys h]
        simp [lexCmp, h]
      · subst h
        rw [memn_cons_eq, ih]
        simp [lexCmp]
      · rw [memn_cons_gt xs ys h]
        simp [lexCmp, h, Nat.lt_asymm h]

theorem lexCmp_self (a : List Nat) : lexCmp a a = 0 := by
  induction a with
  | nil => rfl
  | cons x xs ih => simp [lexCmp, ih]

theorem lexCmp_eq_zero_iff (a b : List Nat) : lexCmp a b = 0 ↔ a = b := by
  constructor
  · intro h
    induction a generalizing b with
    | nil => cases b with
      | nil => rfl
      | cons y ys => simp [lexCmp] at h
    | cons x xs ih =>
      cases b with
      | nil => simp [lexCmp] at h
      | cons y ys =>
        rcases Nat.lt_trichotomy x y with hc | hc | hc
        · simp [lexCmp, hc] at h
        · subst hc
          simp only [lexCmp, lt_irrefl, if_false] at h
          rw [ih ys h]
        · simp [lexCmp, hc, Nat.lt_asymm hc] at h
  · intro h
    subst h
    exact lexCmp_self a

theorem lexCmp_cons_neg_iff {x y : Nat} {xs ys : List Nat} :
    lexCmp (x :: xs) (y :: ys) < 0 ↔ x < y ∨ (x = y ∧ lexCmp xs ys < 0) := by
  rcases Nat.lt_trichotomy x y with hc | hc | hc
  · simp [lexCmp, hc]
  · subst hc
    simp [lexCmp]
  · simp [lexCmp, hc, Nat.lt_asymm hc]
    omega

theorem lexCmp_swap (a b : List Nat) : lexCmp b a = -lexCmp a b := by
  induction a generalizing b with
  | nil => cases b <;> simp [lexCmp]
  | cons x xs ih =>
    cases b with
    | nil => simp [lexCmp]
    | cons y ys =>
      rcases Nat.lt_trichotomy x y with hc | hc | hc
      · simp [lexCmp, hc, Nat.lt_asymm hc]
      · subst hc
        simp [lexCmp, ih]
      · simp [lexCmp, hc, Nat.lt_asymm hc]

theorem lexCmp_trans_neg {a b c : List Nat} (hab : lexCmp a b < 0)
    (hbc : lexCmp b c < 0) : lexCmp a c < 0 := by
  induction a generalizing b c with
  | nil =>
    cases b with
    | nil => simp [lexCmp] at hab
    | cons y ys =>
      cases c with
      | nil => simp [lexCmp] at hbc
      | cons z zs => simp [lexCmp]
  | cons x xs ih =>
    cases b with
    | nil => simp [lexCmp] at hab
    | cons y ys =>
      cases c with
      | nil => simp [lexCmp] at hbc
      | cons z zs =>
        rw [lexCmp_cons_neg_iff] at hab hbc ⊢
        rcases hab with hab | ⟨hab, hab2⟩
        · rcases hbc with hbc | ⟨hbc, _⟩
          · exact Or.inl (Nat.lt_trans hab hbc)
          · subst hbc
            exact Or.inl hab
        · subst hab
          rcases hbc with hbc | ⟨hbc, hbc2⟩
          · exact Or.inl hbc
          · subst hbc
            exact Or.inr ⟨rfl, ih hab2 hbc2⟩

theorem lexCmp_irrefl_lt (a : List Nat) : ¬ lexCmp a a < 0 := by
  simp [lexCmp_self]

theorem lexCmp_asymm {a b : List Nat} (h : lexCmp a b < 0) : ¬ lexCmp b a < 0 := by
  intro h2
  exact lexCmp_irrefl_lt a (lexCmp_trans_neg h h2)

theorem lexCmp_le_split {a b : List Nat} (h : lexCmp a b ≤ 0) :
    a = b ∨ lexCmp a b < 0 := by
  rcases eq_or_lt_of_le h with he | hl
  · exact Or.inl ((lexCmp_eq_zero_iff a b).mp he)
  · exact Or.inr hl

theorem lexCmp_le_of_not_lt {a b : List Nat} (h : ¬ lexCmp a b < 0) :
    lexCmp b a ≤ 0 := by
  rw [lexCmp_swap]
  omega

theorem lexCmp_trans_le_neg {a b c : List Nat} (hab : lexCmp a b ≤ 0)
    (hbc : lexCmp b c < 0) : lexCmp a c < 0 := by
  rcases lexCmp_le_split hab with h | h
  · subst h
    exact hbc
  · exact lexCmp_trans_neg h hbc

theorem lexCmp_trans_neg_le {a b c : List Nat} (hab : lexCmp a b < 0)
    (hbc : lexCmp b c ≤ 0) : lexCmp a c < 0 := by
  rcases lexCmp_le_split hbc with h | h
  · subst h
    exact hab
  · exact lexCmp_trans_neg hab h

/-! ### List index utilities (`getD` forms) -/

theorem getD_map_fst (l : List (Key × LeafVal)) (j : Nat) :
    (l.map (·.1)).getD j [] = (l.getD j ([], .inline [])).1 := by
  simp only [List.getD_eq_getElem?_getD, List.getElem?_map]
  cases h : l[j]? <;> simp

theorem getD_map_fst_tree (l : List (Key × Tree)) (j : Nat) :
    (l.map (·.1)).getD j [] = (l.getD j ([], .leaf [])).1 := by
  simp only [List.getD_eq_getElem?_getD, List.getElem?_map]
  cases h : l[j]? <;> simp

theorem getD_insertIdx {α : Type} (l : List α) (x d : α) (n j : Nat)
    (hn : n ≤ l.length) :
    (l.insertIdx n x).getD j d =
      if j < n then l.getD j d else if j = n then x else l.getD (j - 1) d := by
  split_ifs with h1 h2
  · simp only [List.getD_eq_getElem?_getD]
    have hj : j < l.length := Nat.lt_of_lt_of_le h1 hn
    have hj2 : j < (l.insertIdx n x).length := by
      rw [List.length_insertIdx n l hn]
      omega
    rw [List.getElem?_eq_getElem hj2, List.getElem?_eq_getElem hj,
      List.getElem_insertIdx_of_lt l x n j h1 hj]
  · subst h2
    simp only [List.getD_eq_getElem?_getD]
    have hj2 : j < (l.insertIdx j x).length := by
      rw [List.length_insertIdx j l hn]
      omega
    rw [List.getElem?_eq_getElem hj2, List.getElem_insertIdx_self l x j hn]
    rfl
  · obtain ⟨k, rfl⟩ : ∃ k, j = n + k + 1 := ⟨j - n - 1, by omega⟩
    by_cases hj : n + k < l.length
    · simp only [List.getD_eq_getElem?_getD]
      have hj2 : n + k + 1 < (l.insertIdx n x).length := by
        rw [List.length_insertIdx n l hn]
        omega
      have hs : n + k + 1 - 1 = n + k := by omega
      rw [hs, List.getElem?_eq_getElem hj2, List.getElem?_eq_getElem hj,
        List.getElem_insertIdx_add_succ]
    · simp only [List.getD_eq_getElem?_getD]
      have hs : n + k + 1 - 1 = n + k := by omega
      rw [hs, List.getElem?_eq_none, List.getElem?_eq_none]
      · omega
      · rw [List.length_insertIdx n l hn]
        omega

theorem getD_take {α : Type} (l : List α) (d : α) (n j : Nat) (h : j < n) :
    (l.take n).getD j d = l.getD j d := by
  simp only [List.getD_eq_getElem?_getD, List.getElem?_take, if_pos h]

theorem getD_drop {α : Type} (l : List α) (d : α) (n j : Nat) :
    (l.drop n).getD j d = l.getD (n + j) d := by
  simp only [List.getD_eq_getElem?_getD, List.getElem?_drop]

theorem getD_set {α : Type} (l : List α) (d a : α) (i j : Nat) :
    (l.set i a).getD j d =
      if i = j ∧ i < l.length then a else l.getD j d := by
  by_cases h1 : i = j
  · subst h1
    by_cases h2 : i < l.length
    · simp [List.getD_eq_getElem?_getD, List.getElem?_set, h2]
    · have hn : l[i]? = none := List.getElem?_eq_none (by omega)
      simp [List.getD_eq_getElem?_getD, List.getElem?_set, h2, hn]
  · simp [List.getD_eq_getElem?_getD, List.getElem?_set, h1]

theorem getD_eraseIdx {α : Type} (l : List α) (d : α) (i j : Nat) :
    (l.eraseIdx i).getD j d = if j < i then l.getD j d else l.getD (j + 1) d := by
  simp only [List.getD_eq_getElem?_getD, List.getElem?_eraseIdx]
  split_ifs <;> rfl

/-! ### Arithmetic and list-index helpers -/

theorem le_EVEN (n : Nat) : n ≤ EVEN n := by
  unfold EVEN
  omega

theorem EVEN_le_succ (n : Nat) : EVEN n ≤ n + 1 := by
  unfold EVEN
  omega

theorem EVEN_add_two (n : Nat) : EVEN (n + 2) = EVEN n + 2 := by
  unfold EVEN
  omega

theorem all_iff_getD {α : Type} (l : List α) (p : α → Bool) (d : α) :
    l.all p = true ↔ ∀ i, i < l.length → p (l.getD i d) = true := by
  rw [List.all_eq_true]
  constructor
  · intro h i hi
    have hg : l.getD i d = l[i] := by
      rw [List.getD_eq_getElem?_getD, List.getElem?_eq_getElem hi]
      rfl
    rw [hg]
    exact h _ (List.getElem_mem hi)
  · intro h x hx
    obtain ⟨i, hi, rfl⟩ := List.mem_iff_getElem.mp hx
    have hg : l.getD i d = l[i] := by
      rw [List.getD_eq_getElem?_getD, List.getElem?_eq_getElem hi]
      rfl
    rw [← hg]
    exact h i hi

theorem getD_map_in {α β : Type} (l : List α) (f : α → β) (j : Nat)
    (hj : j < l.length) (p : β) (q : α) : (l.map f).getD j p = f (l.getD j q) := by
  have hj2 : j < (l.map f).length := by simpa using hj
  rw [List.getD_eq_getElem?_getD, List.getElem?_eq_getElem hj2,
    List.getD_eq_getElem?_getD, List.getElem?_eq_getElem hj]
  simp

theorem map_insertIdx {α β : Type} (l : List α) (f : α → β) (i : Nat) (x : α) :
    (l.insertIdx i x).map f = (l.map f).insertIdx i (f x) := by
  induction l generalizing i with
  | nil => cases i <;> simp
  | cons a l ih =>
    cases i with
    | zero => simp
    | succ i => simp [List.insertIdx_succ_cons, ih]

theorem sum_map_insertIdx {α : Type} (l : List α) (i : Nat) (x : α) (f : α → Nat)
    (hi : i ≤ l.length) : ((l.insertIdx i x).map f).sum = (l.map f).sum + f x := by
  induction l generalizing i with
  | nil =>
    have : i = 0 := by simpa using hi
    subst this
    simp
  | cons a l ih =>
    cases i with
    | zero => simp; omega
    | succ i =>
      have h2 := ih i (by simpa using hi)
      simp [List.insertIdx_succ_cons, h2]
      omega

theorem sum_insertIdx (l : List Nat) (i : Nat) (x : Nat) (hi : i ≤ l.length) :
    (l.insertIdx i x).sum = l.sum + x := by
  induction l generalizing i with
  | nil =>
    have : i = 0 := by simpa using hi
    subst this
    simp
  | cons a l ih =>
    cases i with
    | zero => simp; omega
    | succ i =>
      have h2 := ih i (by simpa using hi)
      simp [List.insertIdx_succ_cons, h2]
      omega

theorem map_fst_set {β : Type} (l : List (Key × β)) (i : Nat) (p : Key × β) (b : β)
    (hi : i < l.length) :
    (l.set i ((l.getD i p).1, b)).map (fun e => e.1) = l.map (fun e => e.1) := by
  apply List.ext_getElem
  · simp
  · intro j h1 h2
    have h2' : j < l.length := by simpa using h2
    simp only [List.getElem_map, List.getElem_set]
    split_ifs with h
    · have hg : l.getD i p = l[j] := by
        rw [List.getD_eq_getElem?_getD, h, List.getElem?_eq_getElem h2']
        rfl
      rw [hg]
    · rfl

theorem sum_map_eraseIdx_le {α : Type} (l : List α) (i : Nat) (f : α → Nat) :
    ((l.eraseIdx i).map f).sum ≤ (l.map f).sum := by
  induction l generalizing i with
  | nil => simp
  | cons a l ih =>
    cases i with
    | zero => simp
    | succ i =>
      have := ih i
      simp only [List.eraseIdx_cons_succ, List.map_cons, List.sum_cons]
      omega

/-! ### Sortedness: adjacent and pairwise characterizations -/

theorem sortedKeysB_iff_adj (l : List Key) :
    sortedKeysB l = true ↔
      ∀ i, i + 1 < l.length → lexCmp (l.getD i []) (l.getD (i+1) []) < 0 := by
  induction l with
  | nil => simp [sortedKeysB]
  | cons a l ih =>
    cases l with
    | nil => simp [sortedKeysB]
    | cons b t =>
      rw [show sortedKeysB (a :: b :: t) =
          (decide (lexCmp a b < 0) && sortedKeysB (b :: t)) from rfl,
        Bool.and_eq_true, decide_eq_true_iff, ih]
      constructor
      · rintro ⟨h1, h2⟩ i hi
        cases i with
        | zero => simpa using h1
        | succ i =>
          have := h2 i (by simpa using hi)
          simpa using this
      · intro h
        refine ⟨by simpa using h 0 (by simp), fun i hi => ?_⟩
        have := h (i+1) (by simpa using hi)
        simpa using this

theorem adj_pairwise_aux (l : List Key)
    (hadj : ∀ i, i + 1 < l.length → lexCmp (l.getD i []) (l.getD (i+1) []) < 0) :
    ∀ m i, i + 1 + m < l.length → lexCmp (l.getD i []) (l.getD (i+1+m) []) < 0 := by
  intro m
  induction m with
  | zero => intro i h; exact hadj i h
  | succ m ih =>
    intro i h
    have h1 := ih i (by omega)
    have h2 := hadj (i+1+m) (by omega)
    have h3 := lexCmp_trans_neg h1 h2
    have he : i + 1 + (m + 1) = i + 1 + m + 1 := by omega
    rw [he]
    exact h3

theorem sortedKeysB_pairwise {l : List Key} (hs : sortedKeysB l = true) :
    ∀ i j, i < j → j < l.length → lexCmp (l.getD i []) (l.getD j []) < 0 := by
  intro i j hij hj
  obtain ⟨m, rfl⟩ : ∃ m, j = i + 1 + m := ⟨j - i - 1, by omega⟩
  exact adj_pairwise_aux l ((sortedKeysB_iff_adj l).mp hs) m i hj

/-! ### The in-page binary search meets its specification -/

/-- Exit characterization of the binary-search loop: when the remaining
range is empty, the carried `(i, rc)` state already satisfies the search
postcondition. -/
theorem searchLoop_exit (ks : List Key) (k : Key) (low0 low : Nat) (high : Int)
    (i : Nat) (rc : Int)
    (hlow : low0 ≤ low) (hlown : (low : Int) ≤ (ks.length : Int))
    (hhl : (low0 : Int) - 1 ≤ high)
    (hlh : high < (low : Int))
    (hleft : ∀ j : Nat, low0 ≤ j → (j : Int) < (low : Int) → lexCmp (ks.getD j []) k < 0)
    (hright : ∀ j : Nat, high < (j : Int) → j < ks.length → lexCmp k (ks.getD j []) < 0)
    (hstate : (rc > 0 ∧ (i : Int) + 1 = (low : Int) ∧ low0 ≤ i) ∨
      (rc < 0 ∧ (i : Int) = high + 1) ∨
      (rc = 0 ∧ i = 0 ∧ (low : Int) = (low0 : Int) ∧ high = (ks.length : Int) - 1)) :
    SearchPost ks k low0 (i, rc) := by
  rcases hstate with ⟨hrc, hieq, hl0⟩ | ⟨hrc, hieq⟩ | ⟨hrc, hieq, hleq, hheq⟩
  · have hfi : searchFi (i, rc) = i + 1 := by
      simp only [searchFi]
      rw [if_pos hrc]
    refine Or.inr (Or.inl ⟨by omega, ?_, ?_, ?_, ?_⟩)
    · rw [hfi]; omega
    · rw [hfi]; omega
    · intro j hj0 hjlt
      rw [hfi] at hjlt
      exact hleft j hj0 (by omega)
    · intro j hjge hjn
      rw [hfi] at hjge
      exact hright j (by omega) hjn
  · have hrc' : ¬ rc > 0 := by omega
    have hfi : searchFi (i, rc) = i := by
      simp only [searchFi]
      rw [if_neg hrc']
    refine Or.inr (Or.inl ⟨by omega, ?_, ?_, ?_, ?_⟩)
    · rw [hfi]; omega
    · rw [hfi]; omega
    · intro j hj0 hjlt
      rw [hfi] at hjlt
      exact hleft j hj0 (by omega)
    · intro j hjge hjn
      rw [hfi] at hjge
      exact hright j (by omega) hjn
  · refine Or.inr (Or.inr ⟨?_, by omega⟩)
    rw [hieq, hrc]

/-- The binary-search loop of `mdb_node_search_in_page` satisfies the
search postcondition: given a key array pairwise sorted from `low0` and
the standard loop invariant, the loop lands on an exact hit or on the
separation index between the keys below and above `k`. -/
theorem searchLoop_spec (ks : List Key) (k : Key) (low0 : Nat)
    (hp : ∀ i j : Nat, low0 ≤ i → i < j → j < ks.length →
      lexCmp (ks.getD i []) (ks.getD j []) < 0) :
    ∀ (fuel low : Nat) (high : Int) (i : Nat) (rc : Int),
      low0 ≤ low → high ≤ (ks.length : Int) - 1 →
      (low : Int) ≤ (ks.length : Int) → (low0 : Int) - 1 ≤ high →
      (high + 1 - (low : Int)).toNat ≤ fuel →
      (∀ j : Nat, low0 ≤ j → (j : Int) < (low : Int) → lexCmp (ks.getD j []) k < 0) →
      (∀ j : Nat, high < (j : Int) → j < ks.length → lexCmp k (ks.getD j []) < 0) →
      ((rc > 0 ∧ (i : Int) + 1 = (low : Int) ∧ low0 ≤ i) ∨
        (rc < 0 ∧ (i : Int) = high + 1) ∨
        (rc = 0 ∧ i = 0 ∧ (low : Int) = (low0 : Int) ∧ high = (ks.length : Int) - 1)) →
      SearchPost ks k low0 (searchLoop ks k fuel low high i rc) := by
  intro fuel
  induction fuel with
  | zero =>
    intro low high i rc hlow hhigh hlown hhl hfuel hleft hright hstate
    rw [show searchLoop ks k 0 low high i rc = (i, rc) from rfl]
    exact searchLoop_exit ks k low0 low high i rc hlow hlown hhl (by omega)
      hleft hright hstate
  | succ fuel ih =>
    intro low high i rc hlow hhigh hlown hhl hfuel hleft hright hstate
    by_cases hlh : (low : Int) ≤ high
    · have hhn : (high.toNat : Int) = high := Int.toNat_of_nonneg (by omega)
      have hml : low ≤ (low + high.toNat) / 2 := by omega
      have hmh : ((low + high.toNat) / 2 : Nat) ≤ high.toNat := by omega
      have hmn : (low + high.toNat) / 2 < ks.length := by omega
      simp only [searchLoop]
      rw [if_pos hlh]
      by_cases hr0 : mdb_cmp_memn k (ks.getD ((low + high.toNat) / 2) []) = 0
      · rw [if_pos hr0]
        refine Or.inl ⟨rfl, by omega, hmn, ?_⟩
        rw [← mdb_cmp_memn_eq_lexCmp]
        exact hr0
      · rw [if_neg hr0]
        by_cases hrpos : mdb_cmp_memn k (ks.getD ((low + high.toNat) / 2) []) > 0
        · rw [if_pos hrpos]
          have hkm : lexCmp (ks.getD ((low + high.toNat) / 2) []) k < 0 := by
            have := lexCmp_swap k (ks.getD ((low + high.toNat) / 2) [])
            rw [mdb_cmp_memn_eq_lexCmp] at hrpos
            omega
          apply ih ((low + high.toNat) / 2 + 1) high ((low + high.toNat) / 2) _
            (by omega) hhigh (by omega) hhl (by omega) ?_ hright ?_
          · intro j hj0 hjlt
            by_cases hjl : (j : Int) < (low : Int)
            · exact hleft j hj0 hjl
            · by_cases hjm : j = (low + high.toNat) / 2
              · rw [hjm]
                exact hkm
              · have hjlt' : j < (low + high.toNat) / 2 := by omega
                exact lexCmp_trans_neg (hp j ((low + high.toNat) / 2) hj0 hjlt' hmn) hkm
          · refine Or.inl ⟨hrpos, by omega, by omega⟩
        · have hrneg : mdb_cmp_memn k (ks.getD ((low + high.toNat) / 2) []) < 0 := by
            omega
          rw [if_neg hrpos]
          have hkm : lexCmp k (ks.getD ((low + high.toNat) / 2) []) < 0 := by
            rw [mdb_cmp_memn_eq_lexCmp] at hrneg
            exact hrneg
          apply ih low ((((low + high.toNat) / 2 : Nat) : Int) - 1)
            ((low + high.toNat) / 2) _
            hlow (by omega) hlown (by omega) (by omega) hleft ?_ ?_
          · intro j hjgt hjn
            by_cases hjm : j = (low + high.toNat) / 2
            · rw [hjm]
              exact hkm
            · have hjgt' : (low + high.toNat) / 2 < j := by omega
              exact lexCmp_trans_neg hkm (hp ((low + high.toNat) / 2) j (by omega) hjgt' hjn)
          · refine Or.inr (Or.inl ⟨hrneg, by omega⟩)
    · simp only [searchLoop]
      rw [if_neg hlh]
      exact searchLoop_exit ks k low0 low high i rc hlow hlown hhl (by omega)
        hleft hright hstate

/-- `mdb_node_search_in_page` on a leaf page over sorted keys: either it
reports an exact match at the key's index, or it reports no match and
returns the key's insertion position. -/
theorem nsip_cases (ks : List Key) (k : Key) (fi : Nat) (ex : Bool)
    (hs : ∀ i j : Nat, i < j → j < ks.length → lexCmp (ks.getD i []) (ks.getD j []) < 0)
    (hres : node_search_in_page true ks k = (fi, ex)) :
    (ex = true ∧ fi < ks.length ∧ ks.getD fi [] = k) ∨
    (ex = false ∧ fi ≤ ks.length ∧
      (∀ j, j < fi → lexCmp (ks.getD j []) k < 0) ∧
      (∀ j, fi ≤ j → j < ks.length → lexCmp k (ks.getD j []) < 0)) := by
  have hpost := searchLoop_spec ks k 0
    (fun i j _ hij hj => hs i j hij hj)
    (ks.length + 1) 0 ((ks.length : Int) - 1) 0 0
    (by omega) (by omega) (by omega) (by omega) (by omega)
    (fun j _ hj => absurd hj (by omega))
    (fun j h1 h2 => absurd h2 (by omega))
    (by omega)
  have hunfold : node_search_in_page true ks k =
      (searchFi (searchLoop ks k (ks.length + 1) 0 ((ks.length : Int) - 1) 0 0),
        decide ((searchLoop ks k (ks.length + 1) 0 ((ks.length : Int) - 1) 0 0).2 = 0 ∧
          ks.length > 0)) := rfl
  rw [hunfold] at hres
  have hfi2 := congrArg Prod.fst hres
  have hex2 := congrArg Prod.snd hres
  simp only at hfi2 hex2
  rcases hpost with ⟨h2, hge, h1, hcmp⟩ | ⟨h2, hf0, hfn, hlft, hrgt⟩ | ⟨heq, hn0⟩
  · have hfiv : searchFi (searchLoop ks k (ks.length + 1) 0 ((ks.length : Int) - 1) 0 0) =
        (searchLoop ks k (ks.length + 1) 0 ((ks.length : Int) - 1) 0 0).1 := by
      simp only [searchFi]
      rw [if_neg (by omega)]
    refine Or.inl ⟨?_, ?_, ?_⟩
    · rw [← hex2]
      simp [h2]
      omega
    · rw [← hfi2, hfiv]
      exact h1
    · rw [← hfi2, hfiv]
      exact ((lexCmp_eq_zero_iff _ _).mp hcmp).symm
  · refine Or.inr ⟨?_, ?_, ?_, ?_⟩
    · rw [← hex2]
      simp [h2]
    · rw [← hfi2]
      exact hfn
    · intro j hj
      rw [← hfi2] at hj
      exact hlft j (by omega) hj
    · intro j hj hjn
      rw [← hfi2] at hj
      exact hrgt j hj hjn
  · have hn : ks.length = 0 := by omega
    have hr1 : (searchLoop ks k (ks.length + 1) 0 ((ks.length : Int) - 1) 0 0).1 = 0 := by
      rw [heq]
    have hr2 : (searchLoop ks k (ks.length + 1) 0 ((ks.length : Int) - 1) 0 0).2 = 0 := by
      rw [heq]
    have hfiv : searchFi (searchLoop ks k (ks.length + 1) 0 ((ks.length : Int) - 1) 0 0) = 0 := by
      simp [searchFi, hr1, hr2]
    refine Or.inr ⟨?_, ?_, ?_, ?_⟩
    · rw [← hex2]
      simp [hn]
    · rw [← hfi2, hfiv]
      omega
    · intro j hj
      rw [← hfi2, hfiv] at hj
      exact absurd hj (by omega)
    · intro j hj hjn
      exact absurd hjn (by omega)

/-- Child selection on a branch page over keys sorted from index 1:
`branchChildIdx` returns a child index `ci` with every compared
separator up to `ci` at most `k` and every later separator strictly
greater. -/
theorem branchChildIdx_spec (ks : List Key) (k : Key)
    (hn : 1 ≤ ks.length)
    (hs : ∀ i j : Nat, 1 ≤ i → i < j → j < ks.length →
      lexCmp (ks.getD i []) (ks.getD j []) < 0) :
    branchChildIdx ks k < ks.length ∧
    (∀ j, 1 ≤ j → j ≤ branchChildIdx ks k → j < ks.length →
      lexCmp (ks.getD j []) k ≤ 0) ∧
    (∀ j, branchChildIdx ks k < j → j < ks.length → lexCmp k (ks.getD j []) < 0) := by
  have hpost := searchLoop_spec ks k 1 hs
    (ks.length + 1) 1 ((ks.length : Int) - 1) 0 0
    (by omega) (by omega) (by omega) (by omega) (by omega)
    (fun j hj1 hj => absurd hj (by omega))
    (fun j h1 h2 => absurd h2 (by omega))
    (by omega)
  have hunfold : branchChildIdx ks k =
      (if searchFi (searchLoop ks k (ks.length + 1) 1 ((ks.length : Int) - 1) 0 0) ≥
          ks.length then ks.length - 1
        else if decide ((searchLoop ks k (ks.length + 1) 1 ((ks.length : Int) - 1) 0 0).2 = 0 ∧
            ks.length > 0) = true then
          searchFi (searchLoop ks k (ks.length + 1) 1 ((ks.length : Int) - 1) 0 0)
        else searchFi (searchLoop ks k (ks.length + 1) 1 ((ks.length : Int) - 1) 0 0) - 1) :=
    rfl
  rcases hpost with ⟨h2, hge, h1, hcmp⟩ | ⟨h2, hf0, hfn, hlft, hrgt⟩ | ⟨heq, hn0⟩
  · -- exact hit at index ≥ 1
    have hfiv : searchFi (searchLoop ks k (ks.length + 1) 1 ((ks.length : Int) - 1) 0 0) =
        (searchLoop ks k (ks.length + 1) 1 ((ks.length : Int) - 1) 0 0).1 := by
      simp only [searchFi]
      rw [if_neg (by omega)]
    have hkeq : ks.getD (searchLoop ks k (ks.length + 1) 1 ((ks.length : Int) - 1) 0 0).1 [] =
        k := ((lexCmp_eq_zero_iff _ _).mp hcmp).symm
    have hci : branchChildIdx ks k =
        (searchLoop ks k (ks.length + 1) 1 ((ks.length : Int) - 1) 0 0).1 := by
      rw [hunfold, hfiv, if_neg (by omega), if_pos (by simp [h2]; omega)]
    rw [hci]
    refine ⟨h1, ?_, ?_⟩
    · intro j hj1 hjc hjn
      by_cases hje : j = (searchLoop ks k (ks.length + 1) 1 ((ks.length : Int) - 1) 0 0).1
      · rw [hje, hkeq, lexCmp_self]
      · have := hs j _ hj1 (by omega) h1
        rw [hkeq] at this
        omega
    · intro j hjc hjn
      have := hs _ j hge hjc hjn
      rw [hkeq] at this
      omega
  · -- separation index
    by_cases hfin : searchFi (searchLoop ks k (ks.length + 1) 1 ((ks.length : Int) - 1) 0 0) ≥
        ks.length
    · have hci : branchChildIdx ks k = ks.length - 1 := by
        rw [hunfold, if_pos hfin]
      rw [hci]
      refine ⟨by omega, ?_, ?_⟩
      · intro j hj1 hjc hjn
        have := hlft j hj1 (by omega)
        omega
      · intro j hjc hjn
        exact absurd hjn (by omega)
    · have hci : branchChildIdx ks k =
          searchFi (searchLoop ks k (ks.length + 1) 1 ((ks.length : Int) - 1) 0 0) - 1 := by
        rw [hunfold, if_neg hfin, if_neg (by simp [h2])]
      rw [hci]
      refine ⟨by omega, ?_, ?_⟩
      · intro j hj1 hjc hjn
        have := hlft j hj1 (by omega)
        omega
      · intro j hjc hjn
        exact hrgt j (by omega) hjn
  · -- single-slot page: child 0
    have hr1 : (searchLoop ks k (ks.length + 1) 1 ((ks.length : Int) - 1) 0 0).1 = 0 := by
      rw [heq]
    have hr2 : (searchLoop ks k (ks.length + 1) 1 ((ks.length : Int) - 1) 0 0).2 = 0 := by
      rw [heq]
    have hn1 : ks.length = 1 := by omega
    have hfiv : searchFi (searchLoop ks k (ks.length + 1) 1 ((ks.length : Int) - 1) 0 0) = 0 := by
      simp [searchFi, hr1, hr2]
    have hci : branchChildIdx ks k = 0 := by
      rw [hunfold, hfiv, if_neg (by omega), if_pos (by simp [hr2]; omega)]
    rw [hci]
    refine ⟨by omega, ?_, ?_⟩
    · intro j hj1 hjc hjn
      omega
    · intro j hjc hjn
      exact absurd hjn (by omega)

/-- The child index of a branch page is determined by the interval the
key falls into: if separator `m` (when compared at all) is at most `k`
and the next separator (when present) exceeds `k`, the search descends
to child `m`. -/
theorem branchChildIdx_unique (ks : List Key) (k : Key) (m : Nat)
    (hn : 1 ≤ ks.length)
    (hs : ∀ i j : Nat, 1 ≤ i → i < j → j < ks.length →
      lexCmp (ks.getD i []) (ks.getD j []) < 0)
    (hm : m < ks.length)
    (hml : 1 ≤ m → lexCmp (ks.getD m []) k ≤ 0)
    (hmr : m + 1 < ks.length → lexCmp k (ks.getD (m+1) []) < 0) :
    branchChildIdx ks k = m := by
  obtain ⟨hci, hle, hgt⟩ := branchChildIdx_spec ks k hn hs
  by_cases hlt : branchChildIdx ks k < m
  · have h1 := hgt m (by omega) hm
    have h2 := hml (by omega)
    have h3 := lexCmp_swap k (ks.getD m [])
    omega
  · by_cases hgt2 : m < branchChildIdx ks k
    · have h1 := hle (m+1) (by omega) (by omega) (by omega)
      have h2 := hmr (by omega)
      have h3 := lexCmp_swap k (ks.getD (m+1) [])
      omega
    · omega

/-- `treeGet` is monotone in its descent-depth fuel. -/
theorem treeGet_mono : ∀ (f f' : Nat) (t : Tree) (k : Key) (v : Bytes), f ≤ f' →
    treeGet f t k = .ok v → treeGet f' t k = .ok v := by
  intro f
  induction f with
  | zero =>
    intro f' t k v hle hget
    cases t with
    | leaf es =>
      simp only [treeGet] at hget ⊢
      exact hget
    | branch slots => simp [treeGet] at hget
  | succ g ih =>
    intro f' t k v hle hget
    cases t with
    | leaf es =>
      simp only [treeGet] at hget ⊢
      exact hget
    | branch slots =>
      obtain ⟨g', rfl⟩ : ∃ g', f' = g' + 1 := ⟨f' - 1, by omega⟩
      simp only [treeGet] at hget ⊢
      exact ih g' _ k v (by omega) hget

/-- A get on a sorted leaf page holding `k` at index `j` returns that
node's bytes. -/
theorem treeGet_leaf_found (es : List (Key × LeafVal)) (k : Key) (j fuel : Nat)
    (hs : sortedKeysB (es.map (fun e => e.1)) = true)
    (hj : j < es.length) (hk : (es.getD j ([], .inline [])).1 = k) :
    treeGet fuel (.leaf es) k = .ok (valBytes (es.getD j ([], .inline [])).2) := by
  have hp := sortedKeysB_pairwise hs
  have hkj : (es.map (fun e => e.1)).getD j [] = k := by
    rw [getD_map_in es _ j hj [] ([], .inline [])]
    exact hk
  set fe := node_search_in_page true (es.map (fun e => e.1)) k with hfe
  have hres := nsip_cases (es.map (fun e => e.1)) k fe.1 fe.2
    (fun a b hab hb => hp a b hab hb) rfl
  rcases hres with ⟨hex, hfin, hfk⟩ | ⟨hex, hfin, hlft, hrgt⟩
  · have hfj : fe.1 = j := by
      by_contra hne
      by_cases hlt : fe.1 < j
      · have := hp fe.1 j hlt (by simpa using hj)
        rw [hfk, hkj, lexCmp_self] at this
        omega
      · have := hp j fe.1 (by omega) (by simpa using hfin)
        rw [hkj, hfk, lexCmp_self] at this
        omega
    simp only [treeGet, ← hfe, hex]
    rw [if_neg (by simp)]
    rw [hfj]
    cases hv : (es.getD j ([], .inline [])).2 with
    | inline v => simp [valBytes, hv]
    | big c v => simp [valBytes, hv]
  · exfalso
    by_cases hjf : j < fe.1
    · have := hlft j hjf
      rw [hkj, lexCmp_self] at this
      omega
    · have := hrgt j (by omega) (by simpa using hj)
      rw [hkj, lexCmp_self] at this
      omega

/-! ### Node placement and page builds -/

theorem valBytes_place_fresh (k : Key) (d : Bytes) :
    valBytes (placeNodeVal k (.fresh d)) = d := by
  simp only [placeNodeVal]
  split_ifs <;> rfl

theorem wfNodeSize_place_fresh (k : Key) (d : Bytes) :
    wfNodeSize k (placeNodeVal k (.fresh d)) = true := by
  simp only [placeNodeVal]
  split_ifs with h
  · rfl
  · simp only [wfNodeSize, decide_eq_true_iff]
    omega

theorem heap_place_fresh (k : Key) (d : Bytes) :
    leafValHeapSize k (placeNodeVal k (.fresh d)) + indx_size =
      mdb_leaf_size_model k d := by
  simp only [placeNodeVal, mdb_leaf_size_model, leafValHeapSize]
  split_ifs with h
  · show EVEN (node_header_size + k.length + pgno_size) + indx_size =
      EVEN (node_header_size + k.length + pgno_size + indx_size)
    unfold EVEN indx_size
    omega
  · show EVEN (node_header_size + k.length + d.length) + indx_size =
      EVEN (node_header_size + k.length + d.length + indx_size)
    unfold EVEN indx_size
    omega

theorem leafUsed_append (a b : List (Key × LeafVal)) :
    leafUsed (a ++ b) = leafUsed a + leafUsed b := by
  simp [leafUsed]

theorem branchUsed_append (a b : List (Key × Tree)) :
    branchUsed (a ++ b) = branchUsed a + branchUsed b := by
  simp [branchUsed]

/-- The distribution loop of a leaf split: a successful sequence of
`mdb_insert_node` calls appends the placed staged nodes in order, and
(once at least one node was inserted) the final page is within its
capacity. -/
theorem buildLeafPage_go (seg : List (Key × NodeData)) :
    ∀ (acc out : List (Key × LeafVal)),
      List.foldlM (fun acc e => mdb_insert_node_leaf acc acc.length e.1 e.2) acc seg =
        .ok out →
      out = acc ++ seg.map (fun e => (e.1, placeNodeVal e.1 e.2)) ∧
      (seg ≠ [] → leafUsed out ≤ pmaxP) := by
  induction seg with
  | nil =>
    intro acc out h
    simp only [List.foldlM_nil] at h
    have : acc = out := by
      cases h
      rfl
    refine ⟨by simp [this], by simp⟩
  | cons e seg ih =>
    intro acc out h
    rw [List.foldlM_cons] at h
    cases hstep : mdb_insert_node_leaf acc acc.length e.1 e.2 with
    | error er =>
      rw [hstep] at h
      simp only [bind, Except.bind] at h
      cases h
    | ok acc2 =>
      rw [hstep] at h
      simp only [bind, Except.bind] at h
      rw [mdb_insert_node_leaf] at hstep
      by_cases hroom : (leafValHeapSize e.1 (placeNodeVal e.1 e.2) : Int) >
          (pmaxP : Int) - leafUsed acc - indx_size
      · rw [if_pos hroom] at hstep
        cases hstep
      · rw [if_neg hroom] at hstep
        have hacc2 : acc2 = acc ++ [(e.1, placeNodeVal e.1 e.2)] := by
          cases hstep
          rw [List.insertIdx_length_self]
        have hused2 : leafUsed acc2 ≤ pmaxP := by
          rw [hacc2, leafUsed_append]
          have h1 : leafUsed [(e.1, placeNodeVal e.1 e.2)] =
              leafValHeapSize e.1 (placeNodeVal e.1 e.2) + indx_size := by
            simp [leafUsed]
          rw [h1]
          omega
        obtain ⟨hout, hbound⟩ := ih acc2 out h
        constructor
        · rw [hout, hacc2]
          simp
        · intro _
          rcases seg with _ | ⟨e2, seg⟩
          · have hoa : out = acc2 := by
              rw [hout]
              simp
            rw [hoa]
            exact hused2
          · exact hbound (by simp)

/-- `buildLeafPage` applied to a nonempty staged segment yields exactly
the placed segment and respects the page capacity. -/
theorem buildLeafPage_spec (seg : List (Key × NodeData)) (out : List (Key × LeafVal))
    (h : buildLeafPage seg = .ok out) :
    out = seg.map (fun e => (e.1, placeNodeVal e.1 e.2)) ∧
    (seg ≠ [] → leafUsed out ≤ pmaxP) := by
  have := buildLeafPage_go seg [] out h
  simpa using this

theorem buildBranchPage_go (seg : List (Key × Tree)) :
    ∀ (acc out : List (Key × Tree)),
      List.foldlM (fun acc e => mdb_insert_node_branch acc acc.length e.1 e.2) acc seg =
        .ok out →
      out = acc ++ seg ∧ (seg ≠ [] → branchUsed out ≤ pmaxP) := by
  induction seg with
  | nil =>
    intro acc out h
    simp only [List.foldlM_nil] at h
    have : acc = out := by
      cases h
      rfl
    refine ⟨by simp [this], by simp⟩
  | cons e seg ih =>
    intro acc out h
    rw [List.foldlM_cons] at h
    cases hstep : mdb_insert_node_branch acc acc.length e.1 e.2 with
    | error er =>
      rw [hstep] at h
      simp only [bind, Except.bind] at h
      cases h
    | ok acc2 =>
      rw [hstep] at h
      simp only [bind, Except.bind] at h
      rw [mdb_insert_node_branch] at hstep
      by_cases hroom : (EVEN (node_header_size + e.1.length) : Int) >
          (pmaxP : Int) - branchUsed acc - indx_size
      · rw [if_pos hroom] at hstep
        cases hstep
      · rw [if_neg hroom] at hstep
        have hacc2 : acc2 = acc ++ [e] := by
          cases hstep
          rw [List.insertIdx_length_self]
        have hused2 : branchUsed acc2 ≤ pmaxP := by
          rw [hacc2, branchUsed_append]
          have h1 : branchUsed [e] = EVEN (node_header_size + e.1.length) + indx_size := by
            simp [branchUsed]
          rw [h1]
          omega
        obtain ⟨hout, hbound⟩ := ih acc2 out h
        constructor
        · rw [hout, hacc2]
          simp
        · intro _
          rcases seg with _ | ⟨e2, seg⟩
          · have hoa : out = acc2 := by
              rw [hout]
              simp
            rw [hoa]
            exact hused2
          · exact hbound (by simp)

/-- `buildBranchPage` keeps the staged slots except that the first slot's
key is cleared; a nonempty result is within the page capacity. -/
theorem buildBranchPage_spec (seg : List (Key × Tree)) (out : List (Key × Tree))
    (h : buildBranchPage seg = .ok out) :
    out = clearFirstKey seg ∧
    (seg ≠ [] → branchUsed out ≤ pmaxP) := by
  cases seg with
  | nil =>
    simp only [buildBranchPage] at h
    have : out = [] := by
      cases h
      rfl
    simp [this, clearFirstKey]
  | cons s rest =>
    simp only [buildBranchPage] at h
    have hfirst : mdb_insert_node_branch [] 0 [] s.2 = .ok [([], s.2)] := rfl
    rw [hfirst] at h
    simp only [bind, Except.bind] at h
    obtain ⟨hout, hbound⟩ := buildBranchPage_go rest [([], s.2)] out h
    constructor
    · simpa [clearFirstKey] using hout
    · intro _
      rcases rest with _ | ⟨e2, rest⟩
      · rw [hout]
        show branchUsed ([([], s.2)] ++ []) ≤ pmaxP
        simp [branchUsed]
        decide
      · exact hbound (by simp)

/-! ### Indexed characterizations of the well-formedness predicates -/

theorem range_all_iff (n : Nat) (p : Nat → Bool) :
    (List.range n).all p = true ↔ ∀ i, i < n → p i = true := by
  rw [List.all_eq_true]
  constructor
  · intro h i hi
    exact h i (List.mem_range.mpr hi)
  · intro h x hx
    exact h x (List.mem_range.mp hx)

theorem wfLeafB_iff (lo hi : Option Key) (es : List (Key × LeafVal)) :
    wfLeafB lo hi es = true ↔
      ((∀ i j, i < j → j < es.length →
        lexCmp (es.getD i ([], .inline [])).1 (es.getD j ([], .inline [])).1 < 0) ∧
       (∀ i, i < es.length →
         wfKey (es.getD i ([], .inline [])).1 = true ∧
         lbOKb lo (es.getD i ([], .inline [])).1 = true ∧
         ubOKb hi (es.getD i ([], .inline [])).1 = true ∧
         wfNodeSize (es.getD i ([], .inline [])).1 (es.getD i ([], .inline [])).2 = true) ∧
       leafUsed es ≤ pmaxP) := by
  unfold wfLeafB
  rw [Bool.and_eq_true, Bool.and_eq_true, decide_eq_true_iff,
    all_iff_getD es _ ([], .inline [])]
  constructor
  · rintro ⟨⟨hsort, hall⟩, hused⟩
    refine ⟨?_, ?_, hused⟩
    · intro i j hij hj
      have h := sortedKeysB_pairwise hsort i j hij (by simpa using hj)
      rwa [getD_map_in es _ i (by omega) [] ([], .inline []),
        getD_map_in es _ j (by simpa using hj) [] ([], .inline [])] at h
    · intro i hi
      have h := hall i hi
      simp only [Bool.and_eq_true] at h
      exact ⟨h.1.1.1, h.1.1.2, h.1.2, h.2⟩
  · rintro ⟨hpair, hfacts, hused⟩
    refine ⟨⟨?_, ?_⟩, hused⟩
    · rw [sortedKeysB_iff_adj]
      intro i hi
      have hi' : i + 1 < es.length := by simpa using hi
      rw [getD_map_in es _ i (by omega) [] ([], .inline []),
        getD_map_in es _ (i+1) hi' [] ([], .inline [])]
      exact hpair i (i+1) (by omega) hi'
    · intro i hi
      obtain ⟨h1, h2, h3, h4⟩ := hfacts i hi
      simp only [Bool.and_eq_true]
      exact ⟨⟨⟨h1, h2⟩, h3⟩, h4⟩

theorem wfBranch_iff (fuel : Nat) (lo hi : Option Key) (slots : List (Key × Tree)) :
    wfTreeB (fuel + 1) lo hi (.branch slots) = true ↔
      (slots ≠ [] ∧ (slots.getD 0 ([], .leaf [])).1 = [] ∧
       (∀ j, 1 ≤ j → j < slots.length →
         wfKey (slots.getD j ([], .leaf [])).1 = true ∧
         lbStrictB lo (slots.getD j ([], .leaf [])).1 = true ∧
         ubOKb hi (slots.getD j ([], .leaf [])).1 = true) ∧
       (∀ i j, 1 ≤ i → i < j → j < slots.length →
         lexCmp (slots.getD i ([], .leaf [])).1 (slots.getD j ([], .leaf [])).1 < 0) ∧
       branchUsed slots ≤ pmaxP ∧
       (∀ i, i < slots.length →
         wfTreeB fuel (childLo lo slots i) (childHi hi slots i)
           (slots.getD i ([], .leaf [])).2 = true)) := by
  show (!slots.isEmpty &&
    (slots.getD 0 ([], .leaf [])).1.isEmpty &&
    sortedKeysB ((slots.map (·.1)).drop 1) &&
    ((slots.map (·.1)).drop 1).all
      (fun a => wfKey a && lbStrictB lo a && ubOKb hi a) &&
    decide (branchUsed slots ≤ pmaxP) &&
    (List.range slots.length).all (fun i =>
      wfTreeB fuel (childLo lo slots i) (childHi hi slots i)
        (slots.getD i ([], .leaf [])).2)) = true ↔ _
  have hdlen : ((slots.map (·.1)).drop 1).length = slots.length - 1 := by simp
  have hdget : ∀ m, m < slots.length - 1 →
      ((slots.map (·.1)).drop 1).getD m [] = (slots.getD (1 + m) ([], .leaf [])).1 := by
    intro m hm
    rw [getD_drop, getD_map_in slots _ (1 + m) (by omega) [] ([], .leaf [])]
  rw [Bool.and_eq_true, Bool.and_eq_true, Bool.and_eq_true, Bool.and_eq_true,
    Bool.and_eq_true, decide_eq_true_iff, range_all_iff,
    all_iff_getD _ _ []]
  constructor
  · rintro ⟨⟨⟨⟨⟨hne, h0⟩, hsort⟩, hall⟩, hused⟩, hch⟩
    refine ⟨?_, ?_, ?_, ?_, hused, hch⟩
    · simpa using hne
    · simpa using h0
    · intro j hj1 hjn
      have h := hall (j - 1) (by omega)
      rw [hdget (j - 1) (by omega)] at h
      have hje : 1 + (j - 1) = j := by omega
      rw [hje] at h
      simp only [Bool.and_eq_true] at h
      exact ⟨h.1.1, h.1.2, h.2⟩
    · intro i j h1i hij hjn
      have h := sortedKeysB_pairwise hsort (i - 1) (j - 1) (by omega) (by omega)
      rw [hdget (i - 1) (by omega), hdget (j - 1) (by omega)] at h
      have hie : 1 + (i - 1) = i := by omega
      have hje : 1 + (j - 1) = j := by omega
      rwa [hie, hje] at h
  · rintro ⟨hne, h0, hkeys, hpair, hused, hch⟩
    refine ⟨⟨⟨⟨⟨by simpa using hne, by simpa using h0⟩, ?_⟩, ?_⟩, hused⟩, hch⟩
    · rw [sortedKeysB_iff_adj]
      intro m hm
      rw [hdget m (by omega), hdget (m + 1) (by omega)]
      have he : 1 + (m + 1) = (1 + m) + 1 := by omega
      rw [he]
      exact hpair (1 + m) (1 + m + 1) (by omega) (by omega) (by omega)
    · intro m hm
      have hm' : m < slots.length - 1 := by omega
      rw [hdget m hm']
      obtain ⟨h1, h2, h3⟩ := hkeys (1 + m) (by omega) (by omega)
      simp only [Bool.and_eq_true]
      exact ⟨⟨h1, h2⟩, h3⟩

/-! ### Characterizing the split routines -/

theorem wfTreeB_leaf (f : Nat) (lo hi : Option Key) (es : List (Key × LeafVal)) :
    wfTreeB f lo hi (.leaf es) = wfLeafB lo hi es := by
  cases f <;> rfl

theorem pairwise_to_sortedKeys (es : List (Key × LeafVal))
    (hpair : ∀ i j, i < j → j < es.length →
      lexCmp (es.getD i ([], .inline [])).1 (es.getD j ([], .inline [])).1 < 0) :
    sortedKeysB (es.map (fun e => e.1)) = true := by
  rw [sortedKeysB_iff_adj]
  intro i hi
  have hi' : i + 1 < es.length := by simpa using hi
  rw [getD_map_in es _ i (by omega) [] ([], .inline []),
    getD_map_in es _ (i+1) hi' [] ([], .inline [])]
  exact hpair i (i+1) (by omega) hi'

theorem except_bind_ok {α β : Type} (x : Except Err α) (f : α → Except Err β) (b : β)
    (h : (x >>= f) = .ok b) : ∃ a, x = .ok a ∧ f a = .ok b := by
  cases x with
  | error e => simp [bind, Except.bind] at h
  | ok a =>
    refine ⟨a, rfl, ?_⟩
    simpa [bind, Except.bind] using h

theorem stagedLeaf_getD (es : List (Key × LeafVal)) (idx : Nat) (k : Key) (d : Bytes)
    (hidx : idx ≤ es.length) (j : Nat) (hj : j ≤ es.length) :
    (stagedLeaf es idx k d).getD j ([], .fresh []) =
      if j < idx then
        ((es.getD j ([], .inline [])).1, .stored (es.getD j ([], .inline [])).2)
      else if j = idx then (k, .fresh d)
      else
        ((es.getD (j-1) ([], .inline [])).1, .stored (es.getD (j-1) ([], .inline [])).2) := by
  unfold stagedLeaf
  rw [getD_insertIdx _ _ _ idx j (by simpa using hidx)]
  split_ifs with h1 h2
  · have hjl : j < es.length := by omega
    rw [getD_map_in es (fun e => (e.1, NodeData.stored e.2)) j hjl
      ([], NodeData.fresh []) ([], LeafVal.inline [])]
  · rfl
  · have hjl : j - 1 < es.length := by omega
    rw [getD_map_in es (fun e => (e.1, NodeData.stored e.2)) (j-1) hjl
      ([], NodeData.fresh []) ([], LeafVal.inline [])]

/-- A successful leaf split (without `MDB_APPEND`) distributes the
placed staged nodes around some split index, promotes the staged key at
that index, and each nonempty half respects the page capacity. -/
theorem splitLeafInsert_char (es : List (Key × LeafVal)) (idx : Nat) (k : Key)
    (d : Bytes) (nflags : Nat) (lp : List (Key × LeafVal)) (sep : Key)
    (rp : List (Key × LeafVal))
    (hnfl : nflags &&& MDB_APPEND = 0)
    (hsplit : splitLeafInsert es idx k d nflags = .ok (lp, sep, rp)) :
    ∃ si,
      lp = ((stagedLeaf es idx k d).take si).map (fun e => (e.1, placeNodeVal e.1 e.2)) ∧
      rp = ((stagedLeaf es idx k d).drop si).map (fun e => (e.1, placeNodeVal e.1 e.2)) ∧
      sep = ((stagedLeaf es idx k d).getD si ([], .fresh [])).1 ∧
      ((stagedLeaf es idx k d).take si ≠ [] → leafUsed lp ≤ pmaxP) ∧
      ((stagedLeaf es idx k d).drop si ≠ [] → leafUsed rp ≤ pmaxP) := by
  unfold splitLeafInsert at hsplit
  rw [if_neg (by simp [hnfl])] at hsplit
  dsimp only at hsplit
  obtain ⟨rpv, hrp2, hrest⟩ := except_bind_ok _ _ _ hsplit
  obtain ⟨lpv, hlp2, hfin⟩ := except_bind_ok _ _ _ hrest
  simp only [Except.ok.injEq, Prod.mk.injEq] at hfin
  obtain ⟨hl, hsep, hr⟩ := hfin
  obtain ⟨hrout, hrbound⟩ := buildLeafPage_spec _ _ hrp2
  obtain ⟨hlout, hlbound⟩ := buildLeafPage_spec _ _ hlp2
  refine ⟨_, ?_, ?_, hsep.symm, ?_, ?_⟩
  · rw [← hl, hlout]
  · rw [← hr, hrout]
  · intro hne
    rw [← hl]
    exact hlbound hne
  · intro hne
    rw [← hr]
    exact hrbound hne

/-- A successful branch split distributes the staged slots around some
split index with the right half's first key cleared, promotes the staged
key at that index, and each nonempty half respects the page capacity. -/
theorem splitBranchInsert_char (slots : List (Key × Tree)) (idx : Nat) (k : Key)
    (t : Tree) (lp : List (Key × Tree)) (sep : Key) (rp : List (Key × Tree))
    (hsplit : splitBranchInsert slots idx k t = .ok (lp, sep, rp)) :
    ∃ si,
      lp = clearFirstKey ((slots.insertIdx idx (k, t)).take si) ∧
      rp = clearFirstKey ((slots.insertIdx idx (k, t)).drop si) ∧
      sep = ((slots.insertIdx idx (k, t)).getD si ([], .leaf [])).1 ∧
      ((slots.insertIdx idx (k, t)).take si ≠ [] → branchUsed lp ≤ pmaxP) ∧
      ((slots.insertIdx idx (k, t)).drop si ≠ [] → branchUsed rp ≤ pmaxP) := by
  unfold splitBranchInsert at hsplit
  dsimp only at hsplit
  obtain ⟨rpv, hrp2, hrest⟩ := except_bind_ok _ _ _ hsplit
  obtain ⟨lpv, hlp2, hfin⟩ := except_bind_ok _ _ _ hrest
  simp only [Except.ok.injEq, Prod.mk.injEq] at hfin
  obtain ⟨hl, hsep, hr⟩ := hfin
  obtain ⟨hrout, hrbound⟩ := buildBranchPage_spec _ _ hrp2
  obtain ⟨hlout, hlbound⟩ := buildBranchPage_spec _ _ hlp2
  refine ⟨_, ?_, ?_, hsep.symm, ?_, ?_⟩
  · rw [← hl]
    exact hlout
  · rw [← hr]
    exact hrout
  · intro hne
    rw [← hl]
    exact hlbound hne
  · intro hne
    rw [← hr]
    exact hrbound hne

/-! ### Leaf-level insert specifications -/

/-- A successful `mdb_insert_node` of fresh data at the key's insertion
position keeps the leaf well formed and makes a get for the key return
the inserted bytes. -/
theorem leafInsert_one_spec (lo hi : Option Key) (es : List (Key × LeafVal)) (idx : Nat)
    (k : Key) (d : Bytes) (es3 : List (Key × LeafVal)) (hh : Nat)
    (hpair : ∀ i j, i < j → j < es.length →
      lexCmp (es.getD i ([], .inline [])).1 (es.getD j ([], .inline [])).1 < 0)
    (hfacts : ∀ i, i < es.length →
      wfKey (es.getD i ([], .inline [])).1 = true ∧
      lbOKb lo (es.getD i ([], .inline [])).1 = true ∧
      ubOKb hi (es.getD i ([], .inline [])).1 = true ∧
      wfNodeSize (es.getD i ([], .inline [])).1 (es.getD i ([], .inline [])).2 = true)
    (hk : wfKey k = true) (hlo : lbOKb lo k = true) (hhi : ubOKb hi k = true)
    (hidx : idx ≤ es.length)
    (hregL : ∀ j, j < idx → lexCmp (es.getD j ([], .inline [])).1 k < 0)
    (hregR : ∀ j, idx ≤ j → j < es.length → lexCmp k (es.getD j ([], .inline [])).1 < 0)
    (hins : mdb_insert_node_leaf es idx k (.fresh d) = .ok es3) :
    wfTreeB hh lo hi (.leaf es3) = true ∧ treeGet hh (.leaf es3) k = .ok d := by
  rw [mdb_insert_node_leaf] at hins
  by_cases hroom : (leafValHeapSize k (placeNodeVal k (.fresh d)) : Int) >
      (pmaxP : Int) - leafUsed es - indx_size
  · rw [if_pos hroom] at hins
    cases hins
  · rw [if_neg hroom] at hins
    have hes3 : es3 = es.insertIdx idx (k, placeNodeVal k (.fresh d)) := by
      cases hins
      rfl
    subst hes3
    have hlen3 : (es.insertIdx idx (k, placeNodeVal k (.fresh d))).length =
        es.length + 1 := by
      rw [List.length_insertIdx idx es hidx]
    have hget3 : ∀ j, (es.insertIdx idx (k, placeNodeVal k (.fresh d))).getD j
        ([], .inline []) =
        if j < idx then es.getD j ([], .inline [])
        else if j = idx then (k, placeNodeVal k (.fresh d))
        else es.getD (j-1) ([], .inline []) :=
      fun j => getD_insertIdx es (k, placeNodeVal k (.fresh d)) ([], .inline []) idx j hidx
    have hpair3 : ∀ i j, i < j → j < es.length + 1 →
        lexCmp ((es.insertIdx idx (k, placeNodeVal k (.fresh d))).getD i ([], .inline [])).1
          ((es.insertIdx idx (k, placeNodeVal k (.fresh d))).getD j ([], .inline [])).1
          < 0 := by
      intro i j hij hj
      rw [hget3 i, hget3 j]
      split_ifs <;>
        first
          | omega
          | exact hpair i j (by omega) (by omega)
          | exact hpair i (j-1) (by omega) (by omega)
          | exact hpair (i-1) (j-1) (by omega) (by omega)
          | exact hregL i (by omega)
          | exact hregR (j-1) (by omega) (by omega)
    have hfacts3 : ∀ i, i < es.length + 1 →
        wfKey ((es.insertIdx idx (k, placeNodeVal k (.fresh d))).getD i ([], .inline [])).1
          = true ∧
        lbOKb lo ((es.insertIdx idx (k, placeNodeVal k (.fresh d))).getD i
          ([], .inline [])).1 = true ∧
        ubOKb hi ((es.insertIdx idx (k, placeNodeVal k (.fresh d))).getD i
          ([], .inline [])).1 = true ∧
        wfNodeSize ((es.insertIdx idx (k, placeNodeVal k (.fresh d))).getD i
            ([], .inline [])).1
          ((es.insertIdx idx (k, placeNodeVal k (.fresh d))).getD i ([], .inline [])).2
          = true := by
      intro i hi
      rw [hget3 i]
      split_ifs with h1 h2
      · exact hfacts i (by omega)
      · exact ⟨hk, hlo, hhi, wfNodeSize_place_fresh k d⟩
      · exact hfacts (i-1) (by omega)
    have hused3 : leafUsed (es.insertIdx idx (k, placeNodeVal k (.fresh d))) ≤ pmaxP := by
      have hs : ((es.insertIdx idx (k, placeNodeVal k (.fresh d))).map
          (fun e => leafValHeapSize e.1 e.2 + indx_size)).sum =
          (es.map (fun e => leafValHeapSize e.1 e.2 + indx_size)).sum +
            (leafValHeapSize k (placeNodeVal k (.fresh d)) + indx_size) :=
        sum_map_insertIdx es idx (k, placeNodeVal k (.fresh d))
          (fun e => leafValHeapSize e.1 e.2 + indx_size) hidx
      unfold leafUsed at hroom ⊢
      omega
    constructor
    · rw [wfTreeB_leaf, wfLeafB_iff]
      refine ⟨?_, ?_, hused3⟩
      · intro i j hij hj
        rw [hlen3] at hj
        exact hpair3 i j hij hj
      · intro i hi
        rw [hlen3] at hi
        exact hfacts3 i hi
    · have hsorted3 : sortedKeysB ((es.insertIdx idx (k, placeNodeVal k (.fresh d))).map
          (fun e => e.1)) = true := by
        apply pairwise_to_sortedKeys
        intro i j hij hj
        rw [hlen3] at hj
        exact hpair3 i j hij hj
      have hkey : ((es.insertIdx idx (k, placeNodeVal k (.fresh d))).getD idx
          ([], .inline [])).1 = k := by
        rw [hget3 idx]
        simp
      have hfound := treeGet_leaf_found (es.insertIdx idx (k, placeNodeVal k (.fresh d)))
        k idx hh hsorted3 (by omega) hkey
      have hval : valBytes ((es.insertIdx idx (k, placeNodeVal k (.fresh d))).getD idx
          ([], .inline [])).2 = d := by
        rw [hget3 idx]
        simp [valBytes_place_fresh]
      rw [hval] at hfound
      exact hfound

/-- A successful leaf split at the key's insertion position yields two
well-formed halves around the promoted separator, with the new key
retrievable from the half its comparison against the separator selects. -/
theorem leafSplit_two_spec (lo hi : Option Key) (es : List (Key × LeafVal)) (idx : Nat)
    (k : Key) (d : Bytes) (nflags : Nat) (lp : List (Key × LeafVal)) (sep : Key)
    (rp : List (Key × LeafVal)) (hh : Nat)
    (hnfl : nflags &&& MDB_APPEND = 0)
    (hpair : ∀ i j, i < j → j < es.length →
      lexCmp (es.getD i ([], .inline [])).1 (es.getD j ([], .inline [])).1 < 0)
    (hfacts : ∀ i, i < es.length →
      wfKey (es.getD i ([], .inline [])).1 = true ∧
      lbOKb lo (es.getD i ([], .inline [])).1 = true ∧
      ubOKb hi (es.getD i ([], .inline [])).1 = true ∧
      wfNodeSize (es.getD i ([], .inline [])).1 (es.getD i ([], .inline [])).2 = true)
    (hk : wfKey k = true) (hlo : lbOKb lo k = true) (hhi : ubOKb hi k = true)
    (hidx : idx ≤ es.length)
    (hregL : ∀ j, j < idx → lexCmp (es.getD j ([], .inline [])).1 k < 0)
    (hregR : ∀ j, idx ≤ j → j < es.length → lexCmp k (es.getD j ([], .inline [])).1 < 0)
    (hguard : pmaxP - leafUsed es < mdb_leaf_size_model k d)
    (hsplit : splitLeafInsert es idx k d nflags = .ok (lp, sep, rp)) :
    PutPost hh lo hi k d (.two (.leaf lp) sep (.leaf rp)) := by
  obtain ⟨si, hlp, hrp, hsep, hlb, hrb⟩ :=
    splitLeafInsert_char es idx k d nflags lp sep rp hnfl hsplit
  set st := stagedLeaf es idx k d with hst
  have hslen : st.length = es.length + 1 := by
    rw [hst]
    unfold stagedLeaf
    rw [List.length_insertIdx idx _ (by simpa using hidx)]
    simp
  have hsget : ∀ j, j ≤ es.length → st.getD j ([], .fresh []) =
      if j < idx then
        ((es.getD j ([], .inline [])).1, .stored (es.getD j ([], .inline [])).2)
      else if j = idx then (k, .fresh d)
      else
        ((es.getD (j-1) ([], .inline [])).1, .stored (es.getD (j-1) ([], .inline [])).2) :=
    fun j hj => stagedLeaf_getD es idx k d hidx j hj
  have hkpair : ∀ i j, i < j → j < es.length + 1 →
      lexCmp (st.getD i ([], .fresh [])).1 (st.getD j ([], .fresh [])).1 < 0 := by
    intro i j hij hj
    rw [hsget i (by omega), hsget j (by omega)]
    split_ifs <;>
      first
        | omega
        | exact hpair i j (by omega) (by omega)
        | exact hpair i (j-1) (by omega) (by omega)
        | exact hpair (i-1) (j-1) (by omega) (by omega)
        | exact hregL i (by omega)
        | exact hregR (j-1) (by omega) (by omega)
  have hkfacts : ∀ j, j < es.length + 1 →
      wfKey (st.getD j ([], .fresh [])).1 = true ∧
      lbOKb lo (st.getD j ([], .fresh [])).1 = true ∧
      ubOKb hi (st.getD j ([], .fresh [])).1 = true := by
    intro j hj
    rw [hsget j (by omega)]
    split_ifs with h1 h2
    · obtain ⟨a, b, c, _⟩ := hfacts j (by omega)
      exact ⟨a, b, c⟩
    · exact ⟨hk, hlo, hhi⟩
    · obtain ⟨a, b, c, _⟩ := hfacts (j-1) (by omega)
      exact ⟨a, b, c⟩
  have hplace_wf : ∀ j, j ≤ es.length →
      wfNodeSize (st.getD j ([], .fresh [])).1
        (placeNodeVal (st.getD j ([], .fresh [])).1 (st.getD j ([], .fresh [])).2)
        = true := by
    intro j hj
    rw [hsget j hj]
    split_ifs with h1 h2
    · exact (hfacts j (by omega)).2.2.2
    · exact wfNodeSize_place_fresh k d
    · exact (hfacts (j-1) (by omega)).2.2.2
  have hfull : leafUsed (st.map (fun e => (e.1, placeNodeVal e.1 e.2))) =
      leafUsed es + mdb_leaf_size_model k d := by
    rw [hst]
    show ((((es.map (fun e => (e.1, NodeData.stored e.2))).insertIdx idx
        (k, NodeData.fresh d)).map (fun e => (e.1, placeNodeVal e.1 e.2))).map
        (fun e => leafValHeapSize e.1 e.2 + indx_size)).sum = _
    rw [map_insertIdx, map_insertIdx,
      sum_insertIdx _ idx _ (by simpa using hidx)]
    have h1 : ((es.map (fun e => (e.1, NodeData.stored e.2))).map
        (fun e => (e.1, placeNodeVal e.1 e.2))).map
        (fun e => leafValHeapSize e.1 e.2 + indx_size) =
        es.map (fun e => leafValHeapSize e.1 e.2 + indx_size) := by
      apply List.ext_getElem
      · simp
      · intro n h1' h2'
        simp [placeNodeVal]
    rw [h1]
    have h3 : leafValHeapSize
        ((k, NodeData.fresh d).1,
          placeNodeVal (k, NodeData.fresh d).1 (k, NodeData.fresh d).2).1
        ((k, NodeData.fresh d).1,
          placeNodeVal (k, NodeData.fresh d).1 (k, NodeData.fresh d).2).2 +
        indx_size = mdb_leaf_size_model k d := heap_place_fresh k d
    rw [h3]
    rfl
  have hstne : st ≠ [] := by
    intro hnil
    rw [hnil] at hslen
    simp at hslen
  have hsi1 : 1 ≤ si := by
    by_contra h
    have hsi0 : si = 0 := by omega
    rw [hsi0, List.drop_zero] at hrp hrb
    have hb := hrb hstne
    rw [hrp] at hb
    rw [hfull] at hb
    omega
  have hsi2 : si ≤ es.length := by
    by_contra h
    have htk : st.take si = st := List.take_of_length_le (by omega)
    rw [htk] at hlp hlb
    have hb := hlb hstne
    rw [hlp] at hb
    rw [hfull] at hb
    omega
  have hlplen : lp.length = si := by
    rw [hlp]
    simp [hslen]
    omega
  have hrplen : rp.length = es.length + 1 - si := by
    rw [hrp]
    simp [hslen]
  have hlpget : ∀ j, j < si → lp.getD j ([], .inline []) =
      ((st.getD j ([], .fresh [])).1,
        placeNodeVal (st.getD j ([], .fresh [])).1 (st.getD j ([], .fresh [])).2) := by
    intro j hj
    rw [hlp, getD_map_in _ (fun e => (e.1, placeNodeVal e.1 e.2)) j
      (by simp [hslen]; omega) ([], LeafVal.inline []) ([], NodeData.fresh []),
      getD_take _ _ si j hj]
  have hrpget : ∀ m, m < es.length + 1 - si → rp.getD m ([], .inline []) =
      ((st.getD (si + m) ([], .fresh [])).1,
        placeNodeVal (st.getD (si + m) ([], .fresh [])).1
          (st.getD (si + m) ([], .fresh [])).2) := by
    intro m hm
    rw [hrp, getD_map_in _ (fun e => (e.1, placeNodeVal e.1 e.2)) m
      (by simp [hslen]; omega) ([], LeafVal.inline []) ([], NodeData.fresh []),
      getD_drop]
  have hsepk : sep = (st.getD si ([], .fresh [])).1 := hsep
  have hlpne : st.take si ≠ [] := by
    have hpos : (st.take si).length > 0 := by
      simp [hslen]
      omega
    intro hnil
    rw [hnil] at hpos
    simp at hpos
  have hrpne : st.drop si ≠ [] := by
    have hpos : (st.drop si).length > 0 := by
      simp [hslen]
      omega
    intro hnil
    rw [hnil] at hpos
    simp at hpos
  have hlpair : ∀ i j, i < j → j < lp.length →
      lexCmp (lp.getD i ([], .inline [])).1 (lp.getD j ([], .inline [])).1 < 0 := by
    intro i j hij hj
    rw [hlplen] at hj
    rw [hlpget i (by omega), hlpget j hj]
    exact hkpair i j hij (by omega)
  have hrpair : ∀ i j, i < j → j < rp.length →
      lexCmp (rp.getD i ([], .inline [])).1 (rp.getD j ([], .inline [])).1 < 0 := by
    intro i j hij hj
    rw [hrplen] at hj
    rw [hrpget i (by omega), hrpget j hj]
    exact hkpair (si + i) (si + j) (by omega) (by omega)
  simp only [PutPost]
  refine ⟨?_, ?_, ?_, ?_, ?_, ?_⟩
  · -- wfKey sep
    rw [hsepk]
    exact (hkfacts si (by omega)).1
  · -- lbStrictB lo sep
    have h0si := hkpair 0 si hsi1 (by omega)
    cases lo with
    | none => rfl
    | some l0 =>
      have hl0 := (hkfacts 0 (by omega)).2.1
      simp only [lbOKb, decide_eq_true_iff] at hl0
      simp only [lbStrictB, decide_eq_true_iff]
      rw [hsepk]
      exact lexCmp_trans_le_neg hl0 h0si
  · -- ubOKb hi sep
    rw [hsepk]
    exact (hkfacts si (by omega)).2.2
  · -- wf of left half
    rw [wfTreeB_leaf, wfLeafB_iff]
    refine ⟨hlpair, ?_, ?_⟩
    · intro i hi
      rw [hlplen] at hi
      rw [hlpget i hi]
      refine ⟨(hkfacts i (by omega)).1, (hkfacts i (by omega)).2.1, ?_, ?_⟩
      · simp only [ubOKb, decide_eq_true_iff]
        rw [hsepk]
        exact hkpair i si hi (by omega)
      · exact hplace_wf i (by omega)
    · exact hlb hlpne
  · -- wf of right half
    rw [wfTreeB_leaf, wfLeafB_iff]
    refine ⟨hrpair, ?_, ?_⟩
    · intro m hm
      rw [hrplen] at hm
      rw [hrpget m hm]
      refine ⟨(hkfacts (si + m) (by omega)).1, ?_, (hkfacts (si + m) (by omega)).2.2, ?_⟩
      · simp only [lbOKb, decide_eq_true_iff]
        rw [hsepk]
        rcases Nat.eq_zero_or_pos m with hm0 | hm0
        · rw [hm0, Nat.add_zero, lexCmp_self]
        · have := hkpair si (si + m) (by omega) (by omega)
          omega
      · exact hplace_wf (si + m) (by omega)
    · exact hrb hrpne
  · -- the get lands in the selected half
    have hkidx : (st.getD idx ([], .fresh [])).1 = k := by
      rw [hsget idx (by omega)]
      simp
    by_cases hks : lexCmp k sep < 0
    · have hidxsi : idx < si := by
        by_contra hcon
        by_cases he : si = idx
        · rw [hsepk, he, hkidx, lexCmp_self] at hks
          omega
        · have hlt := hkpair si idx (by omega) (by omega)
          rw [hkidx] at hlt
          rw [hsepk] at hks
          exact absurd hks (lexCmp_asymm hlt)
      rw [if_pos hks]
      have hsorted : sortedKeysB (lp.map (fun e => e.1)) = true :=
        pairwise_to_sortedKeys lp hlpair
      have hkeyl : (lp.getD idx ([], .inline [])).1 = k := by
        rw [hlpget idx hidxsi]
        exact hkidx
      have hfound := treeGet_leaf_found lp k idx hh hsorted (by omega) hkeyl
      have hval : valBytes (lp.getD idx ([], .inline [])).2 = d := by
        rw [hlpget idx hidxsi]
        show valBytes (placeNodeVal (st.getD idx ([], .fresh [])).1
          (st.getD idx ([], .fresh [])).2) = d
        rw [hsget idx (by omega)]
        simp [valBytes_place_fresh]
      rw [hval] at hfound
      exact hfound
    · have hsiidx : si ≤ idx := by
        by_contra hcon
        have hlt := hkpair idx si (by omega) (by omega)
        rw [hkidx, ← hsepk] at hlt
        exact hks hlt
      rw [if_neg hks]
      have hsorted : sortedKeysB (rp.map (fun e => e.1)) = true :=
        pairwise_to_sortedKeys rp hrpair
      have hkeyr : (rp.getD (idx - si) ([], .inline [])).1 = k := by
        rw [hrpget (idx - si) (by omega)]
        show (st.getD (si + (idx - si)) ([], .fresh [])).1 = k
        have he : si + (idx - si) = idx := by omega
        rw [he]
        exact hkidx
      have hfound := treeGet_leaf_found rp k (idx - si) hh hsorted (by omega) hkeyr
      have hval : valBytes (rp.getD (idx - si) ([], .inline [])).2 = d := by
        rw [hrpget (idx - si) (by omega)]
        show valBytes (placeNodeVal (st.getD (si + (idx - si)) ([], .fresh [])).1
          (st.getD (si + (idx - si)) ([], .fresh [])).2) = d
        have he : si + (idx - si) = idx := by omega
        rw [he, hsget idx (by omega)]
        simp [valBytes_place_fresh]
      rw [hval] at hfound
      exact hfound

/-- Overwriting the data of the node at the key's index in place (same
heap footprint) keeps the leaf well formed and makes a get return the
new bytes. -/
theorem leafSet_one_spec (lo hi : Option Key) (es : List (Key × LeafVal)) (idx : Nat)
    (k : Key) (d : Bytes) (newv : LeafVal) (hh : Nat)
    (hpair : ∀ i j, i < j → j < es.length →
      lexCmp (es.getD i ([], .inline [])).1 (es.getD j ([], .inline [])).1 < 0)
    (hfacts : ∀ i, i < es.length →
      wfKey (es.getD i ([], .inline [])).1 = true ∧
      lbOKb lo (es.getD i ([], .inline [])).1 = true ∧
      ubOKb hi (es.getD i ([], .inline [])).1 = true ∧
      wfNodeSize (es.getD i ([], .inline [])).1 (es.getD i ([], .inline [])).2 = true)
    (hused : leafUsed es ≤ pmaxP)
    (hidx : idx < es.length) (hek : (es.getD idx ([], .inline [])).1 = k)
    (hsz : leafValHeapSize (es.getD idx ([], .inline [])).1 newv =
      leafValHeapSize (es.getD idx ([], .inline [])).1 (es.getD idx ([], .inline [])).2)
    (hnsz : wfNodeSize (es.getD idx ([], .inline [])).1 newv = true)
    (hvb : valBytes newv = d) :
    wfTreeB hh lo hi (.leaf (es.set idx ((es.getD idx ([], .inline [])).1, newv)))
      = true ∧
    treeGet hh (.leaf (es.set idx ((es.getD idx ([], .inline [])).1, newv))) k
      = .ok d := by
  have hsget : ∀ j, (es.set idx ((es.getD idx ([], .inline [])).1, newv)).getD j
      ([], .inline []) =
      if idx = j ∧ idx < es.length then ((es.getD idx ([], .inline [])).1, newv)
      else es.getD j ([], .inline []) :=
    fun j => getD_set es ([], .inline []) ((es.getD idx ([], .inline [])).1, newv) idx j
  have hkeq : ∀ j, ((es.set idx ((es.getD idx ([], .inline [])).1, newv)).getD j
      ([], .inline [])).1 = (es.getD j ([], .inline [])).1 := by
    intro j
    rw [hsget j]
    split_ifs with h
    · rw [← h.1]
    · rfl
  have hslen : (es.set idx ((es.getD idx ([], .inline [])).1, newv)).length =
      es.length := by simp
  have hspair : ∀ i j, i < j → j < es.length →
      lexCmp ((es.set idx ((es.getD idx ([], .inline [])).1, newv)).getD i
        ([], .inline [])).1
        ((es.set idx ((es.getD idx ([], .inline [])).1, newv)).getD j
          ([], .inline [])).1 < 0 := by
    intro i j hij hj
    rw [hkeq i, hkeq j]
    exact hpair i j hij hj
  have hsused : leafUsed (es.set idx ((es.getD idx ([], .inline [])).1, newv)) =
      leafUsed es := by
    unfold leafUsed
    congr 1
    apply List.ext_getElem
    · simp
    · intro n h1 h2
      have h2' : n < es.length := by simpa using h2
      simp only [List.getElem_map, List.getElem_set]
      split_ifs with h
      · have hg : es.getD idx ([], .inline []) = es[n] := by
          rw [List.getD_eq_getElem?_getD, h, List.getElem?_eq_getElem h2']
          rfl
        show leafValHeapSize (es.getD idx ([], .inline [])).1 newv + indx_size =
          leafValHeapSize es[n].1 es[n].2 + indx_size
        rw [hsz, hg]
      · rfl
  constructor
  · rw [wfTreeB_leaf, wfLeafB_iff]
    refine ⟨?_, ?_, ?_⟩
    · intro i j hij hj
      rw [hslen] at hj
      exact hspair i j hij hj
    · intro i hi
      rw [hslen] at hi
      rw [hsget i]
      split_ifs with h
      · obtain ⟨a, b, c, _⟩ := hfacts idx hidx
        exact ⟨a, b, c, hnsz⟩
      · exact hfacts i hi
    · rw [hsused]
      exact hused
  · have hsorted : sortedKeysB ((es.set idx ((es.getD idx ([], .inline [])).1,
        newv)).map (fun e => e.1)) = true := by
      apply pairwise_to_sortedKeys
      intro i j hij hj
      rw [hslen] at hj
      exact hspair i j hij hj
    have hkey2 : ((es.set idx ((es.getD idx ([], .inline [])).1, newv)).getD idx
        ([], .inline [])).1 = k := by
      rw [hkeq idx]
      exact hek
    have hfound := treeGet_leaf_found _ k idx hh hsorted (by omega) hkey2
    have hval : valBytes ((es.set idx ((es.getD idx ([], .inline [])).1, newv)).getD
        idx ([], .inline [])).2 = d := by
      rw [hsget idx]
      rw [if_pos ⟨rfl, hidx⟩]
      exact hvb
    rw [hval] at hfound
    exact hfound

/-- The delete-then-reinsert path of `_mdb_cursor_put_simple` (node at
the cursor deleted, new node inserted at the same index, splitting if
needed) satisfies the put postcondition. -/
theorem leafReplace_spec (lo hi : Option Key) (es : List (Key × LeafVal)) (idx : Nat)
    (k : Key) (d : Bytes) (nflags : Nat) (r : InsR) (hh : Nat)
    (hnfl : nflags &&& MDB_APPEND = 0)
    (hpair : ∀ i j, i < j → j < es.length →
      lexCmp (es.getD i ([], .inline [])).1 (es.getD j ([], .inline [])).1 < 0)
    (hfacts : ∀ i, i < es.length →
      wfKey (es.getD i ([], .inline [])).1 = true ∧
      lbOKb lo (es.getD i ([], .inline [])).1 = true ∧
      ubOKb hi (es.getD i ([], .inline [])).1 = true ∧
      wfNodeSize (es.getD i ([], .inline [])).1 (es.getD i ([], .inline [])).2 = true)
    (hk : wfKey k = true) (hlo : lbOKb lo k = true) (hhi : ubOKb hi k = true)
    (hidx : idx < es.length) (hek : (es.getD idx ([], .inline [])).1 = k)
    (hrep : (if pmaxP - leafUsed (es.eraseIdx idx) < mdb_leaf_size_model k d then
        (do
          let (lp, sep, rp) ← splitLeafInsert (es.eraseIdx idx) idx k d nflags
          Except.ok (InsR.two (Tree.leaf lp) sep (Tree.leaf rp)))
      else do
        let es3 ← mdb_insert_node_leaf (es.eraseIdx idx) idx k (NodeData.fresh d)
        Except.ok (InsR.one (Tree.leaf es3))) = Except.ok r) :
    PutPost hh lo hi k d r := by
  have hlen2 : (es.eraseIdx idx).length = es.length - 1 := by
    rw [List.length_eraseIdx_of_lt hidx]
  have hget2 : ∀ j, (es.eraseIdx idx).getD j ([], .inline []) =
      if j < idx then es.getD j ([], .inline []) else es.getD (j+1) ([], .inline []) :=
    fun j => getD_eraseIdx es ([], .inline []) idx j
  have hpair2 : ∀ i j, i < j → j < (es.eraseIdx idx).length →
      lexCmp ((es.eraseIdx idx).getD i ([], .inline [])).1
        ((es.eraseIdx idx).getD j ([], .inline [])).1 < 0 := by
    intro i j hij hj
    rw [hlen2] at hj
    rw [hget2 i, hget2 j]
    split_ifs <;>
      first
        | omega
        | exact hpair i j (by omega) (by omega)
        | exact hpair i (j+1) (by omega) (by omega)
        | exact hpair (i+1) (j+1) (by omega) (by omega)
  have hfacts2 : ∀ i, i < (es.eraseIdx idx).length →
      wfKey ((es.eraseIdx idx).getD i ([], .inline [])).1 = true ∧
      lbOKb lo ((es.eraseIdx idx).getD i ([], .inline [])).1 = true ∧
      ubOKb hi ((es.eraseIdx idx).getD i ([], .inline [])).1 = true ∧
      wfNodeSize ((es.eraseIdx idx).getD i ([], .inline [])).1
        ((es.eraseIdx idx).getD i ([], .inline [])).2 = true := by
    intro i hi
    rw [hlen2] at hi
    rw [hget2 i]
    split_ifs with h1
    · exact hfacts i (by omega)
    · exact hfacts (i+1) (by omega)
  have hregL2 : ∀ j, j < idx →
      lexCmp ((es.eraseIdx idx).getD j ([], .inline [])).1 k < 0 := by
    intro j hj
    rw [hget2 j, if_pos hj, ← hek]
    exact hpair j idx hj hidx
  have hregR2 : ∀ j, idx ≤ j → j < (es.eraseIdx idx).length →
      lexCmp k ((es.eraseIdx idx).getD j ([], .inline [])).1 < 0 := by
    intro j hj1 hj2
    rw [hlen2] at hj2
    rw [hget2 j, if_neg (by omega), ← hek]
    exact hpair idx (j+1) (by omega) (by omega)
  by_cases hg : pmaxP - leafUsed (es.eraseIdx idx) < mdb_leaf_size_model k d
  · rw [if_pos hg] at hrep
    obtain ⟨x, hX, hfin⟩ := except_bind_ok _ _ _ hrep
    obtain ⟨lp2, sep2, rp2⟩ := x
    cases hfin
    exact leafSplit_two_spec lo hi (es.eraseIdx idx) idx k d nflags lp2 sep2 rp2 hh
      hnfl hpair2 hfacts2 hk hlo hhi (by omega) hregL2 hregR2 hg hX
  · rw [if_neg hg] at hrep
    obtain ⟨es3, hX, hfin⟩ := except_bind_ok _ _ _ hrep
    cases hfin
    have hone := leafInsert_one_spec lo hi (es.eraseIdx idx) idx k d es3 hh
      hpair2 hfacts2 hk hlo hhi (by omega) hregL2 hregR2 hX
    simp only [PutPost]
    exact hone

/-- `_mdb_cursor_put_simple` on a located leaf (flags 0): every success
satisfies the put postcondition. -/
theorem leafPut_spec (lo hi : Option Key) (es : List (Key × LeafVal)) (k : Key)
    (d : Bytes) (ovfDirty : Bool) (r : InsR) (hh : Nat)
    (hwf : wfLeafB lo hi es = true)
    (hk : wfKey k = true) (hlo : lbOKb lo k = true) (hhi : ubOKb hi k = true)
    (hput : leafPut es k d 0 ovfDirty = .ok r) :
    PutPost hh lo hi k d r := by
  rw [wfLeafB_iff] at hwf
  obtain ⟨hpair, hfacts, hused⟩ := hwf
  unfold leafPut at hput
  dsimp only at hput
  have hmpair : ∀ i j : Nat, i < j → j < (es.map (fun x => x.1)).length →
      lexCmp ((es.map (fun x => x.1)).getD i []) ((es.map (fun x => x.1)).getD j [])
        < 0 := by
    intro i j hij hj
    have hj' : j < es.length := by simpa using hj
    rw [getD_map_in es _ i (by omega) [] ([], .inline []),
      getD_map_in es _ j hj' [] ([], .inline [])]
    exact hpair i j hij hj'
  set fe := node_search_in_page true (es.map (fun x => x.1)) k with hfedef
  have hcases := nsip_cases (es.map (fun x => x.1)) k fe.1 fe.2 hmpair rfl
  rw [if_neg (by simp)] at hput
  by_cases hfound : fe.2 = true
  · rw [if_neg (by simp [hfound])] at hput
    rcases hcases with ⟨_, hfin, hfk⟩ | ⟨hex, _, _, _⟩
    swap
    · rw [hex] at hfound
      simp at hfound
    have hfin' : fe.1 < es.length := by simpa using hfin
    have hek : (es.getD fe.1 ([], .inline [])).1 = k := by
      rw [getD_map_in es _ fe.1 hfin' [] ([], .inline [])] at hfk
      exact hfk
    cases hv : (es.getD fe.1 ([], .inline [])).2 with
    | big c v =>
      rw [hv] at hput
      dsimp only at hput
      by_cases hov : c ≥ OVPAGES d.length PSIZE ∧ ovfDirty = true
      · rw [if_pos hov] at hput
        cases hput
        simp only [PutPost]
        apply leafSet_one_spec lo hi es fe.1 k d (.big c d) hh hpair hfacts hused
          hfin' hek ?_ ?_ ?_
        · rw [hv]
          rfl
        · rfl
        · rfl
      · rw [if_neg hov] at hput
        exact leafReplace_spec lo hi es fe.1 k d _ r hh (by decide) hpair hfacts
          hk hlo hhi hfin' hek hput
    | inline v =>
      rw [hv] at hput
      dsimp only at hput
      by_cases hdl : d.length = v.length
      · rw [if_pos hdl] at hput
        cases hput
        simp only [PutPost]
        apply leafSet_one_spec lo hi es fe.1 k d (.inline d) hh hpair hfacts hused
          hfin' hek ?_ ?_ ?_
        · rw [hv]
          simp [leafValHeapSize, hdl]
        · have hns := (hfacts fe.1 hfin').2.2.2
          rw [hv] at hns
          simp only [wfNodeSize, decide_eq_true_iff] at hns ⊢
          omega
        · rfl
      · rw [if_neg hdl] at hput
        exact leafReplace_spec lo hi es fe.1 k d _ r hh (by decide) hpair hfacts
          hk hlo hhi hfin' hek hput
  · have hfalse : fe.2 = false := by
      cases h2 : fe.2
      · rfl
      · exact absurd h2 hfound
    rw [if_pos (by simp [hfalse])] at hput
    rcases hcases with ⟨hex, _, _⟩ | ⟨_, hfin, hlft, hrgt⟩
    · rw [hex] at hfalse
      simp at hfalse
    have hfin' : fe.1 ≤ es.length := by simpa using hfin
    have hregL : ∀ j, j < fe.1 → lexCmp (es.getD j ([], .inline [])).1 k < 0 := by
      intro j hj
      have h := hlft j hj
      rwa [getD_map_in es _ j (by omega) [] ([], .inline [])] at h
    have hregR : ∀ j, fe.1 ≤ j → j < es.length →
        lexCmp k (es.getD j ([], .inline [])).1 < 0 := by
      intro j hj1 hj2
      have h := hrgt j hj1 (by simpa using hj2)
      rwa [getD_map_in es _ j hj2 [] ([], .inline [])] at h
    by_cases hg : pmaxP - leafUsed es < mdb_leaf_size_model k d
    · rw [if_pos hg] at hput
      obtain ⟨x, hX, hfin2⟩ := except_bind_ok _ _ _ hput
      obtain ⟨lp2, sep2, rp2⟩ := x
      cases hfin2
      exact leafSplit_two_spec lo hi es fe.1 k d _ lp2 sep2 rp2 hh (by decide)
        hpair hfacts hk hlo hhi hfin' hregL hregR hg hX
    · rw [if_neg hg] at hput
      obtain ⟨es3, hX, hfin2⟩ := except_bind_ok _ _ _ hput
      cases hfin2
      have hone := leafInsert_one_spec lo hi es fe.1 k d es3 hh hpair hfacts
        hk hlo hhi hfin' hregL hregR hX
      simp only [PutPost]
      exact hone

/-! ### Branch-page insert and split -/

theorem clearFirstKey_of_key_empty (l : List (Key × Tree)) (hne : l ≠ [])
    (h0 : (l.getD 0 ([], .leaf [])).1 = []) : clearFirstKey l = l := by
  cases l with
  | nil => rfl
  | cons x rest =>
    simp only [List.getD_cons_zero] at h0
    show ([], x.2) :: rest = x :: rest
    rw [← h0]

theorem branchUsed_insertIdx (slots : List (Key × Tree)) (idx : Nat) (x : Key × Tree)
    (hidx : idx ≤ slots.length) :
    branchUsed (slots.insertIdx idx x) =
      branchUsed slots + (EVEN (node_header_size + x.1.length) + indx_size) := by
  unfold branchUsed
  have hs : ((slots.insertIdx idx x).map
      (fun s => EVEN (node_header_size + s.1.length) + indx_size)).sum =
      (slots.map (fun s => EVEN (node_header_size + s.1.length) + indx_size)).sum +
        (EVEN (node_header_size + x.1.length) + indx_size) :=
    sum_map_insertIdx slots idx x _ hidx
  exact hs

/-- A successful `mdb_insert_node` on a branch page inserts the slot at
the index and the page stays within its capacity. -/
theorem branch_insert_ok (slots2 : List (Key × Tree)) (idx : Nat) (sep : Key)
    (rsub : Tree) (slots3 : List (Key × Tree)) (hidx : idx ≤ slots2.length)
    (hins : mdb_insert_node_branch slots2 idx sep rsub = .ok slots3) :
    slots3 = slots2.insertIdx idx (sep, rsub) ∧ branchUsed slots3 ≤ pmaxP := by
  rw [mdb_insert_node_branch] at hins
  by_cases hroom : (EVEN (node_header_size + sep.length) : Int) >
      (pmaxP : Int) - branchUsed slots2 - indx_size
  · rw [if_pos hroom] at hins
    cases hins
  · rw [if_neg hroom] at hins
    have h3 : slots3 = slots2.insertIdx idx (sep, rsub) := by
      cases hins
      rfl
    refine ⟨h3, ?_⟩
    rw [h3, branchUsed_insertIdx slots2 idx (sep, rsub) hidx]
    show branchUsed slots2 + (EVEN (node_header_size + sep.length) + indx_size) ≤ pmaxP
    omega

/-- The branch-split guard implies the staged slot list exceeds the page
capacity. -/
theorem branch_staged_over (slots2 : List (Key × Tree)) (ci : Nat) (sep : Key)
    (rsub : Tree) (hidx : ci + 1 ≤ slots2.length)
    (hguard : pmaxP - branchUsed slots2 < mdb_branch_size_model sep) :
    pmaxP < branchUsed (slots2.insertIdx (ci+1) (sep, rsub)) := by
  rw [branchUsed_insertIdx slots2 (ci+1) (sep, rsub) hidx]
  show pmaxP < branchUsed slots2 + (EVEN (node_header_size + sep.length) + indx_size)
  have he := le_EVEN (node_header_size + sep.length)
  unfold mdb_branch_size_model at hguard
  unfold indx_size at *
  omega

/-- Inserting the promoted separator and right sibling of a child split
at child index + 1 (when the branch page has room) keeps the branch well
formed and routes a get for the inserted key to the correct child. -/
theorem branchInsert_one_spec (lo hi : Option Key) (slots2 : List (Key × Tree))
    (ci : Nat) (k sep : Key) (d : Bytes) (rsub : Tree) (slots3 : List (Key × Tree))
    (h : Nat)
    (hci : ci < slots2.length)
    (h0 : (slots2.getD 0 ([], .leaf [])).1 = [])
    (hkeys : ∀ j, 1 ≤ j → j < slots2.length →
      wfKey (slots2.getD j ([], .leaf [])).1 = true ∧
      lbStrictB lo (slots2.getD j ([], .leaf [])).1 = true ∧
      ubOKb hi (slots2.getD j ([], .leaf [])).1 = true)
    (hpair : ∀ i j, 1 ≤ i → i < j → j < slots2.length →
      lexCmp (slots2.getD i ([], .leaf [])).1 (slots2.getD j ([], .leaf [])).1 < 0)
    (hchOther : ∀ i, i < slots2.length → i ≠ ci →
      wfTreeB h (childLo lo slots2 i) (childHi hi slots2 i)
        (slots2.getD i ([], .leaf [])).2 = true)
    (hsepwf : wfKey sep = true)
    (hsepl : lbStrictB (childLo lo slots2 ci) sep = true)
    (hsepu : ubOKb (childHi hi slots2 ci) sep = true)
    (hlwf : wfTreeB h (childLo lo slots2 ci) (some sep)
      (slots2.getD ci ([], .leaf [])).2 = true)
    (hrwf : wfTreeB h (some sep) (childHi hi slots2 ci) rsub = true)
    (hkci : 1 ≤ ci → lexCmp (slots2.getD ci ([], .leaf [])).1 k ≤ 0)
    (hkci1 : ci + 1 < slots2.length →
      lexCmp k (slots2.getD (ci+1) ([], .leaf [])).1 < 0)
    (hget2 : if lexCmp k sep < 0 then
        treeGet h (slots2.getD ci ([], .leaf [])).2 k = .ok d
      else treeGet h rsub k = .ok d)
    (hins : mdb_insert_node_branch slots2 (ci + 1) sep rsub = .ok slots3) :
    wfTreeB (h+1) lo hi (.branch slots3) = true ∧
    treeGet (h+1) (.branch slots3) k = .ok d := by
  obtain ⟨hs3, hbound⟩ := branch_insert_ok slots2 (ci+1) sep rsub slots3 (by omega) hins
  subst hs3
  have hstlen : (slots2.insertIdx (ci+1) (sep, rsub)).length = slots2.length + 1 := by
    rw [List.length_insertIdx (ci+1) slots2 (by omega)]
  have hstget : ∀ j, (slots2.insertIdx (ci+1) (sep, rsub)).getD j ([], .leaf []) =
      if j < ci + 1 then slots2.getD j ([], .leaf [])
      else if j = ci + 1 then (sep, rsub)
      else slots2.getD (j-1) ([], .leaf []) :=
    fun j => getD_insertIdx slots2 (sep, rsub) ([], .leaf []) (ci+1) j (by omega)
  -- separator strictly between its neighbours
  have hlt_left : 1 ≤ ci → lexCmp (slots2.getD ci ([], .leaf [])).1 sep < 0 := by
    intro h1
    have := hsepl
    unfold childLo at this
    rw [if_neg (by omega)] at this
    simpa [lbStrictB] using this
  have hlt_right : ci + 1 < slots2.length →
      lexCmp sep (slots2.getD (ci+1) ([], .leaf [])).1 < 0 := by
    intro h1
    have := hsepu
    unfold childHi at this
    rw [if_neg (by omega)] at this
    simpa [ubOKb] using this
  have hsep_lo : lbStrictB lo sep = true := by
    by_cases hc0 : ci = 0
    · rw [hc0] at hsepl
      unfold childLo at hsepl
      rwa [if_pos rfl] at hsepl
    · have h1 := (hkeys ci (by omega) hci).2.1
      cases lo with
      | none => rfl
      | some l0 =>
        simp only [lbStrictB, decide_eq_true_iff] at h1 ⊢
        exact lexCmp_trans_neg h1 (hlt_left (by omega))
  have hsep_hi : ubOKb hi sep = true := by
    by_cases hcn : ci + 1 = slots2.length
    · unfold childHi at hsepu
      rwa [if_pos hcn] at hsepu
    · have h1 := (hkeys (ci+1) (by omega) (by omega)).2.2
      cases hi with
      | none => rfl
      | some h0' =>
        simp only [ubOKb, decide_eq_true_iff] at h1 ⊢
        exact lexCmp_trans_neg (hlt_right (by omega)) h1
  -- staged key facts
  have hkeys' : ∀ j, 1 ≤ j → j < slots2.length + 1 →
      wfKey ((slots2.insertIdx (ci+1) (sep, rsub)).getD j ([], .leaf [])).1 = true ∧
      lbStrictB lo ((slots2.insertIdx (ci+1) (sep, rsub)).getD j ([], .leaf [])).1
        = true ∧
      ubOKb hi ((slots2.insertIdx (ci+1) (sep, rsub)).getD j ([], .leaf [])).1
        = true := by
    intro j hj1 hjn
    rw [hstget j]
    split_ifs with hc1 hc2
    · exact hkeys j hj1 (by omega)
    · exact ⟨hsepwf, hsep_lo, hsep_hi⟩
    · exact hkeys (j-1) (by omega) (by omega)
  have hpair' : ∀ i j, 1 ≤ i → i < j → j < slots2.length + 1 →
      lexCmp ((slots2.insertIdx (ci+1) (sep, rsub)).getD i ([], .leaf [])).1
        ((slots2.insertIdx (ci+1) (sep, rsub)).getD j ([], .leaf [])).1 < 0 := by
    intro i j hi1 hij hjn
    rw [hstget i, hstget j]
    split_ifs with hc1 hc2 hc3 hc4 hc5 <;>
      first
        | omega
        | exact hpair i j (by omega) (by omega) (by omega)
        | exact hpair i (j-1) (by omega) (by omega) (by omega)
        | exact hpair (i-1) (j-1) (by omega) (by omega) (by omega)
        | ( -- i ≤ ci, j = ci+1 : key i < sep
           rcases Nat.lt_or_ge i ci with hlt | hge
           · exact lexCmp_trans_neg (hpair i ci (by omega) (by omega) (by omega))
               (hlt_left (by omega))
           · have hieq : i = ci := by omega
             rw [hieq]
             exact hlt_left (by omega))
        | ( -- i = ci+1, j - 1 ≥ ci+1 : sep < key (j-1)
           rcases Nat.lt_or_ge (ci+1) (j-1) with hlt | hge
           · exact lexCmp_trans_neg (hlt_right (by omega))
               (hpair (ci+1) (j-1) (by omega) (by omega) (by omega))
           · have hjeq : j - 1 = ci + 1 := by omega
             rw [hjeq]
             exact hlt_right (by omega))
  -- staged children
  have hch' : ∀ i, i < slots2.length + 1 →
      wfTreeB h (childLo lo (slots2.insertIdx (ci+1) (sep, rsub)) i)
        (childHi hi (slots2.insertIdx (ci+1) (sep, rsub)) i)
        ((slots2.insertIdx (ci+1) (sep, rsub)).getD i ([], .leaf [])).2 = true := by
    intro i hii
    have hcl : childLo lo (slots2.insertIdx (ci+1) (sep, rsub)) i =
        if i = 0 then lo
        else some ((slots2.insertIdx (ci+1) (sep, rsub)).getD i ([], .leaf [])).1 := by
      unfold childLo
      split_ifs <;> rfl
    have hch2 : childHi hi (slots2.insertIdx (ci+1) (sep, rsub)) i =
        if i + 1 = slots2.length + 1 then hi
        else some ((slots2.insertIdx (ci+1) (sep, rsub)).getD (i+1)
          ([], .leaf [])).1 := by
      unfold childHi
      rw [hstlen]
    rcases Nat.lt_or_ge i ci with hic | hic
    · -- untouched child left of ci
      have hval : ((slots2.insertIdx (ci+1) (sep, rsub)).getD i ([], .leaf [])).2 =
          (slots2.getD i ([], .leaf [])).2 := by
        rw [hstget i, if_pos (by omega)]
      have hlo_eq : childLo lo (slots2.insertIdx (ci+1) (sep, rsub)) i =
          childLo lo slots2 i := by
        rw [hcl]
        unfold childLo
        split_ifs with hz
        · rfl
        · rw [hstget i, if_pos (by omega)]
      have hhi_eq : childHi hi (slots2.insertIdx (ci+1) (sep, rsub)) i =
          childHi hi slots2 i := by
        rw [hch2]
        unfold childHi
        rw [if_neg (by omega), if_neg (by omega), hstget (i+1), if_pos (by omega)]
      rw [hval, hlo_eq, hhi_eq]
      exact hchOther i (by omega) (by omega)
    · rcases Nat.eq_or_lt_of_le hic with hic2 | hic2
      · -- i = ci : the split child's left page
        have hieq : i = ci := hic2.symm
        subst hieq
        have hval : ((slots2.insertIdx (i+1) (sep, rsub)).getD i ([], .leaf [])).2 =
            (slots2.getD i ([], .leaf [])).2 := by
          rw [hstget i, if_pos (by omega)]
        have hlo_eq : childLo lo (slots2.insertIdx (i+1) (sep, rsub)) i =
            childLo lo slots2 i := by
          rw [hcl]
          unfold childLo
          split_ifs with hz
          · rfl
          · rw [hstget i, if_pos (by omega)]
        have hhi_eq : childHi hi (slots2.insertIdx (i+1) (sep, rsub)) i = some sep := by
          rw [hch2]
          rw [if_neg (by omega), hstget (i+1), if_neg (by omega), if_pos rfl]
        rw [hval, hlo_eq, hhi_eq]
        exact hlwf
      · rcases Nat.eq_or_lt_of_le hic2 with hic3 | hic3
        · -- i = ci + 1 : the right sibling
          have hieq : i = ci + 1 := hic3.symm
          subst hieq
          have hval : ((slots2.insertIdx (ci+1) (sep, rsub)).getD (ci+1)
              ([], .leaf [])).2 = rsub := by
            rw [hstget (ci+1), if_neg (by omega), if_pos rfl]
          have hlo_eq : childLo lo (slots2.insertIdx (ci+1) (sep, rsub)) (ci+1) =
              some sep := by
            rw [hcl]
            rw [if_neg (by omega), hstget (ci+1), if_neg (by omega), if_pos rfl]
          have hhi_eq : childHi hi (slots2.insertIdx (ci+1) (sep, rsub)) (ci+1) =
              childHi hi slots2 ci := by
            rw [hch2]
            unfold childHi
            split_ifs with hz hz2
            · rfl
            · omega
            · omega
            · rw [hstget (ci+1+1), if_neg (by omega), if_neg (by omega)]
              have he : ci + 1 + 1 - 1 = ci + 1 := by omega
              rw [he]
          rw [hval, hlo_eq, hhi_eq]
          exact hrwf
        · -- shifted child right of ci + 1
          have hval : ((slots2.insertIdx (ci+1) (sep, rsub)).getD i ([], .leaf [])).2 =
              (slots2.getD (i-1) ([], .leaf [])).2 := by
            rw [hstget i, if_neg (by omega), if_neg (by omega)]
          have hlo_eq : childLo lo (slots2.insertIdx (ci+1) (sep, rsub)) i =
              childLo lo slots2 (i-1) := by
            rw [hcl]
            unfold childLo
            rw [if_neg (by omega), if_neg (by omega),
              hstget i, if_neg (by omega), if_neg (by omega)]
          have hhi_eq : childHi hi (slots2.insertIdx (ci+1) (sep, rsub)) i =
              childHi hi slots2 (i-1) := by
            rw [hch2]
            unfold childHi
            split_ifs with hz hz2
            · rfl
            · omega
            · omega
            · rw [hstget (i+1), if_neg (by omega), if_neg (by omega)]
              have he : i + 1 - 1 = i - 1 + 1 := by omega
              rw [he]
          rw [hval, hlo_eq, hhi_eq]
          exact hchOther (i-1) (by omega) (by omega)
  -- the child index the search selects on the new page
  have hmap : ∀ j, j < slots2.length + 1 →
      ((slots2.insertIdx (ci+1) (sep, rsub)).map (fun x => x.1)).getD j [] =
      ((slots2.insertIdx (ci+1) (sep, rsub)).getD j ([], .leaf [])).1 := by
    intro j hj
    rw [getD_map_in _ _ j (by omega) [] ([], .leaf [])]
  have hmlen : ((slots2.insertIdx (ci+1) (sep, rsub)).map (fun x => x.1)).length =
      slots2.length + 1 := by
    simp [hstlen]
  have hmpair : ∀ i j : Nat, 1 ≤ i → i < j →
      j < ((slots2.insertIdx (ci+1) (sep, rsub)).map (fun x => x.1)).length →
      lexCmp (((slots2.insertIdx (ci+1) (sep, rsub)).map (fun x => x.1)).getD i [])
        (((slots2.insertIdx (ci+1) (sep, rsub)).map (fun x => x.1)).getD j [])
        < 0 := by
    intro i j hi1 hij hj
    rw [hmlen] at hj
    rw [hmap i (by omega), hmap j hj]
    exact hpair' i j hi1 hij hj
  have hbci : branchChildIdx ((slots2.insertIdx (ci+1) (sep, rsub)).map (fun x => x.1))
      k = (if lexCmp k sep < 0 then ci else ci + 1) := by
    apply branchChildIdx_unique _ k _ (by rw [hmlen]; omega) hmpair
    · rw [hmlen]
      split_ifs <;> omega
    · intro hm1
      split_ifs with hcmp
      · rw [hmap ci (by omega), hstget ci, if_pos (by omega)]
        exact hkci (by split_ifs at hm1 <;> omega)
      · rw [hmap (ci+1) (by omega), hstget (ci+1), if_neg (by omega), if_pos rfl]
        show lexCmp sep k ≤ 0
        have := lexCmp_swap k sep
        omega
    · intro hm2
      rw [hmlen] at hm2
      split_ifs with hcmp
      · rw [hmap (ci+1) (by omega), hstget (ci+1), if_neg (by omega), if_pos rfl]
        exact hcmp
      · rw [hmap (ci+1+1) (by split_ifs at hm2 <;> omega),
          hstget (ci+1+1), if_neg (by omega), if_neg (by omega)]
        have he : ci + 1 + 1 - 1 = ci + 1 := by omega
        rw [he]
        exact hkci1 (by split_ifs at hm2 <;> omega)
  constructor
  · rw [wfBranch_iff]
    refine ⟨?_, ?_, ?_, ?_, hbound, ?_⟩
    · intro hnil
      have := congrArg List.length hnil
      rw [hstlen] at this
      simp at this
    · rw [hstget 0, if_pos (by omega)]
      exact h0
    · intro j hj1 hjn
      rw [hstlen] at hjn
      exact hkeys' j hj1 hjn
    · intro i j hi1 hij hjn
      rw [hstlen] at hjn
      exact hpair' i j hi1 hij hjn
    · intro i hii
      rw [hstlen] at hii
      exact hch' i hii
  · simp only [treeGet]
    rw [hbci]
    split_ifs with hcmp
    · have hval : ((slots2.insertIdx (ci+1) (sep, rsub)).getD ci ([], .leaf [])).2 =
          (slots2.getD ci ([], .leaf [])).2 := by
        rw [hstget ci, if_pos (by omega)]
      rw [hval]
      rw [if_pos hcmp] at hget2
      exact hget2
    · have hval : ((slots2.insertIdx (ci+1) (sep, rsub)).getD (ci+1)
          ([], .leaf [])).2 = rsub := by
        rw [hstget (ci+1), if_neg (by omega), if_pos rfl]
      rw [hval]
      rw [if_neg hcmp] at hget2
      exact hget2

/-- The staged slot list of a branch insert at child index + 1: the
slots with the separator and right sibling inserted form a well-formed
branch page content apart from the size bound. -/
theorem branchStaged_facts (lo hi : Option Key) (slots2 : List (Key × Tree))
    (ci : Nat) (sep : Key) (rsub : Tree)
    (h : Nat)
    (hci : ci < slots2.length)
    (h0 : (slots2.getD 0 ([], .leaf [])).1 = [])
    (hkeys : ∀ j, 1 ≤ j → j < slots2.length →
      wfKey (slots2.getD j ([], .leaf [])).1 = true ∧
      lbStrictB lo (slots2.getD j ([], .leaf [])).1 = true ∧
      ubOKb hi (slots2.getD j ([], .leaf [])).1 = true)
    (hpair : ∀ i j, 1 ≤ i → i < j → j < slots2.length →
      lexCmp (slots2.getD i ([], .leaf [])).1 (slots2.getD j ([], .leaf [])).1 < 0)
    (hchOther : ∀ i, i < slots2.length → i ≠ ci →
      wfTreeB h (childLo lo slots2 i) (childHi hi slots2 i)
        (slots2.getD i ([], .leaf [])).2 = true)
    (hsepwf : wfKey sep = true)
    (hsepl : lbStrictB (childLo lo slots2 ci) sep = true)
    (hsepu : ubOKb (childHi hi slots2 ci) sep = true)
    (hlwf : wfTreeB h (childLo lo slots2 ci) (some sep)
      (slots2.getD ci ([], .leaf [])).2 = true)
    (hrwf : wfTreeB h (some sep) (childHi hi slots2 ci) rsub = true)
    :
    (slots2.insertIdx (ci+1) (sep, rsub)).length = slots2.length + 1 ∧
    ((slots2.insertIdx (ci+1) (sep, rsub)).getD 0 ([], .leaf [])).1 = [] ∧
    (∀ j, 1 ≤ j → j < slots2.length + 1 →
      wfKey ((slots2.insertIdx (ci+1) (sep, rsub)).getD j ([], .leaf [])).1 = true ∧
      lbStrictB lo ((slots2.insertIdx (ci+1) (sep, rsub)).getD j ([], .leaf [])).1
        = true ∧
      ubOKb hi ((slots2.insertIdx (ci+1) (sep, rsub)).getD j ([], .leaf [])).1
        = true) ∧
    (∀ i j, 1 ≤ i → i < j → j < slots2.length + 1 →
      lexCmp ((slots2.insertIdx (ci+1) (sep, rsub)).getD i ([], .leaf [])).1
        ((slots2.insertIdx (ci+1) (sep, rsub)).getD j ([], .leaf [])).1 < 0) ∧
    (∀ i, i < slots2.length + 1 →
      wfTreeB h (childLo lo (slots2.insertIdx (ci+1) (sep, rsub)) i)
        (childHi hi (slots2.insertIdx (ci+1) (sep, rsub)) i)
        ((slots2.insertIdx (ci+1) (sep, rsub)).getD i ([], .leaf [])).2 = true) := by
  have hstlen : (slots2.insertIdx (ci+1) (sep, rsub)).length = slots2.length + 1 := by
    rw [List.length_insertIdx (ci+1) slots2 (by omega)]
  have hstget : ∀ j, (slots2.insertIdx (ci+1) (sep, rsub)).getD j ([], .leaf []) =
      if j < ci + 1 then slots2.getD j ([], .leaf [])
      else if j = ci + 1 then (sep, rsub)
      else slots2.getD (j-1) ([], .leaf []) :=
    fun j => getD_insertIdx slots2 (sep, rsub) ([], .leaf []) (ci+1) j (by omega)
  -- separator strictly between its neighbours
  have hlt_left : 1 ≤ ci → lexCmp (slots2.getD ci ([], .leaf [])).1 sep < 0 := by
    intro h1
    have := hsepl
    unfold childLo at this
    rw [if_neg (by omega)] at this
    simpa [lbStrictB] using this
  have hlt_right : ci + 1 < slots2.length →
      lexCmp sep (slots2.getD (ci+1) ([], .leaf [])).1 < 0 := by
    intro h1
    have := hsepu
    unfold childHi at this
    rw [if_neg (by omega)] at this
    simpa [ubOKb] using this
  have hsep_lo : lbStrictB lo sep = true := by
    by_cases hc0 : ci = 0
    · rw [hc0] at hsepl
      unfold childLo at hsepl
      rwa [if_pos rfl] at hsepl
    · have h1 := (hkeys ci (by omega) hci).2.1
      cases lo with
      | none => rfl
      | some l0 =>
        simp only [lbStrictB, decide_eq_true_iff] at h1 ⊢
        exact lexCmp_trans_neg h1 (hlt_left (by omega))
  have hsep_hi : ubOKb hi sep = true := by
    by_cases hcn : ci + 1 = slots2.length
    · unfold childHi at hsepu
      rwa [if_pos hcn] at hsepu
    · have h1 := (hkeys (ci+1) (by omega) (by omega)).2.2
      cases hi with
      | none => rfl
      | some h0' =>
        simp only [ubOKb, decide_eq_true_iff] at h1 ⊢
        exact lexCmp_trans_neg (hlt_right (by omega)) h1
  -- staged key facts
  have hkeys' : ∀ j, 1 ≤ j → j < slots2.length + 1 →
      wfKey ((slots2.insertIdx (ci+1) (sep, rsub)).getD j ([], .leaf [])).1 = true ∧
      lbStrictB lo ((slots2.insertIdx (ci+1) (sep, rsub)).getD j ([], .leaf [])).1
        = true ∧
      ubOKb hi ((slots2.insertIdx (ci+1) (sep, rsub)).getD j ([], .leaf [])).1
        = true := by
    intro j hj1 hjn
    rw [hstget j]
    split_ifs with hc1 hc2
    · exact hkeys j hj1 (by omega)
    · exact ⟨hsepwf, hsep_lo, hsep_hi⟩
    · exact hkeys (j-1) (by omega) (by omega)
  have hpair' : ∀ i j, 1 ≤ i → i < j → j < slots2.length + 1 →
      lexCmp ((slots2.insertIdx (ci+1) (sep, rsub)).getD i ([], .leaf [])).1
        ((slots2.insertIdx (ci+1) (sep, rsub)).getD j ([], .leaf [])).1 < 0 := by
    intro i j hi1 hij hjn
    rw [hstget i, hstget j]
    split_ifs with hc1 hc2 hc3 hc4 hc5 <;>
      first
        | omega
        | exact hpair i j (by omega) (by omega) (by omega)
        | exact hpair i (j-1) (by omega) (by omega) (by omega)
        | exact hpair (i-1) (j-1) (by omega) (by omega) (by omega)
        | ( -- i ≤ ci, j = ci+1 : key i < sep
           rcases Nat.lt_or_ge i ci with hlt | hge
           · exact lexCmp_trans_neg (hpair i ci (by omega) (by omega) (by omega))
               (hlt_left (by omega))
           · have hieq : i = ci := by omega
             rw [hieq]
             exact hlt_left (by omega))
        | ( -- i = ci+1, j - 1 ≥ ci+1 : sep < key (j-1)
           rcases Nat.lt_or_ge (ci+1) (j-1) with hlt | hge
           · exact lexCmp_trans_neg (hlt_right (by omega))
               (hpair (ci+1) (j-1) (by omega) (by omega) (by omega))
           · have hjeq : j - 1 = ci + 1 := by omega
             rw [hjeq]
             exact hlt_right (by omega))
  -- staged children
  have hch' : ∀ i, i < slots2.length + 1 →
      wfTreeB h (childLo lo (slots2.insertIdx (ci+1) (sep, rsub)) i)
        (childHi hi (slots2.insertIdx (ci+1) (sep, rsub)) i)
        ((slots2.insertIdx (ci+1) (sep, rsub)).getD i ([], .leaf [])).2 = true := by
    intro i hii
    have hcl : childLo lo (slots2.insertIdx (ci+1) (sep, rsub)) i =
        if i = 0 then lo
        else some ((slots2.insertIdx (ci+1) (sep, rsub)).getD i ([], .leaf [])).1 := by
      unfold childLo
      split_ifs <;> rfl
    have hch2 : childHi hi (slots2.insertIdx (ci+1) (sep, rsub)) i =
        if i + 1 = slots2.length + 1 then hi
        else some ((slots2.insertIdx (ci+1) (sep, rsub)).getD (i+1)
          ([], .leaf [])).1 := by
      unfold childHi
      rw [hstlen]
    rcases Nat.lt_or_ge i ci with hic | hic
    · -- untouched child left of ci
      have hval : ((slots2.insertIdx (ci+1) (sep, rsub)).getD i ([], .leaf [])).2 =
          (slots2.getD i ([], .leaf [])).2 := by
        rw [hstget i, if_pos (by omega)]
      have hlo_eq : childLo lo (slots2.insertIdx (ci+1) (sep, rsub)) i =
          childLo lo slots2 i := by
        rw [hcl]
        unfold childLo
        split_ifs with hz
        · rfl
        · rw [hstget i, if_pos (by omega)]
      have hhi_eq : childHi hi (slots2.insertIdx (ci+1) (sep, rsub)) i =
          childHi hi slots2 i := by
        rw [hch2]
        unfold childHi
        rw [if_neg (by omega), if_neg (by omega), hstget (i+1), if_pos (by omega)]
      rw [hval, hlo_eq, hhi_eq]
      exact hchOther i (by omega) (by omega)
    · rcases Nat.eq_or_lt_of_le hic with hic2 | hic2
      · -- i = ci : the split child's left page
        have hieq : i = ci := hic2.symm
        subst hieq
        have hval : ((slots2.insertIdx (i+1) (sep, rsub)).getD i ([], .leaf [])).2 =
            (slots2.getD i ([], .leaf [])).2 := by
          rw [hstget i, if_pos (by omega)]
        have hlo_eq : childLo lo (slots2.insertIdx (i+1) (sep, rsub)) i =
            childLo lo slots2 i := by
          rw [hcl]
          unfold childLo
          split_ifs with hz
          · rfl
          · rw [hstget i, if_pos (by omega)]
        have hhi_eq : childHi hi (slots2.insertIdx (i+1) (sep, rsub)) i = some sep := by
          rw [hch2]
          rw [if_neg (by omega), hstget (i+1), if_neg (by omega), if_pos rfl]
        rw [hval, hlo_eq, hhi_eq]
        exact hlwf
      · rcases Nat.eq_or_lt_of_le hic2 with hic3 | hic3
        · -- i = ci + 1 : the right sibling
          have hieq : i = ci + 1 := hic3.symm
          subst hieq
          have hval : ((slots2.insertIdx (ci+1) (sep, rsub)).getD (ci+1)
              ([], .leaf [])).2 = rsub := by
            rw [hstget (ci+1), if_neg (by omega), if_pos rfl]
          have hlo_eq : childLo lo (slots2.insertIdx (ci+1) (sep, rsub)) (ci+1) =
              some sep := by
            rw [hcl]
            rw [if_neg (by omega), hstget (ci+1), if_neg (by omega), if_pos rfl]
          have hhi_eq : childHi hi (slots2.insertIdx (ci+1) (sep, rsub)) (ci+1) =
              childHi hi slots2 ci := by
            rw [hch2]
            unfold childHi
            split_ifs with hz hz2
            · rfl
            · omega
            · omega
            · rw [hstget (ci+1+1), if_neg (by omega), if_neg (by omega)]
              have he : ci + 1 + 1 - 1 = ci + 1 := by omega
              rw [he]
          rw [hval, hlo_eq, hhi_eq]
          exact hrwf
        · -- shifted child right of ci + 1
          have hval : ((slots2.insertIdx (ci+1) (sep, rsub)).getD i ([], .leaf [])).2 =
              (slots2.getD (i-1) ([], .leaf [])).2 := by
            rw [hstget i, if_neg (by omega), if_neg (by omega)]
          have hlo_eq : childLo lo (slots2.insertIdx (ci+1) (sep, rsub)) i =
              childLo lo slots2 (i-1) := by
            rw [hcl]
            unfold childLo
            rw [if_neg (by omega), if_neg (by omega),
              hstget i, if_neg (by omega), if_neg (by omega)]
          have hhi_eq : childHi hi (slots2.insertIdx (ci+1) (sep, rsub)) i =
              childHi hi slots2 (i-1) := by
            rw [hch2]
            unfold childHi
            split_ifs with hz hz2
            · rfl
            · omega
            · omega
            · rw [hstget (i+1), if_neg (by omega), if_neg (by omega)]
              have he : i + 1 - 1 = i - 1 + 1 := by omega
              rw [he]
          rw [hval, hlo_eq, hhi_eq]
          exact hchOther (i-1) (by omega) (by omega)
  refine ⟨hstlen, ?_, hkeys', hpair', hch'⟩
  rw [hstget 0, if_pos (by omega)]
  exact h0

/-- A successful branch split after a child split yields two well-formed
branch halves around the promoted separator, and the get for the
inserted key descends into the half its comparison selects. -/
theorem branchSplit_two_spec (lo hi : Option Key) (slots2 : List (Key × Tree))
    (ci : Nat) (k sep : Key) (d : Bytes) (rsub : Tree) (lp : List (Key × Tree))
    (sep2 : Key) (rp : List (Key × Tree)) (h : Nat)
    (hci : ci < slots2.length)
    (h0 : (slots2.getD 0 ([], .leaf [])).1 = [])
    (hkeys : ∀ j, 1 ≤ j → j < slots2.length →
      wfKey (slots2.getD j ([], .leaf [])).1 = true ∧
      lbStrictB lo (slots2.getD j ([], .leaf [])).1 = true ∧
      ubOKb hi (slots2.getD j ([], .leaf [])).1 = true)
    (hpair : ∀ i j, 1 ≤ i → i < j → j < slots2.length →
      lexCmp (slots2.getD i ([], .leaf [])).1 (slots2.getD j ([], .leaf [])).1 < 0)
    (hchOther : ∀ i, i < slots2.length → i ≠ ci →
      wfTreeB h (childLo lo slots2 i) (childHi hi slots2 i)
        (slots2.getD i ([], .leaf [])).2 = true)
    (hsepwf : wfKey sep = true)
    (hsepl : lbStrictB (childLo lo slots2 ci) sep = true)
    (hsepu : ubOKb (childHi hi slots2 ci) sep = true)
    (hlwf : wfTreeB h (childLo lo slots2 ci) (some sep)
      (slots2.getD ci ([], .leaf [])).2 = true)
    (hrwf : wfTreeB h (some sep) (childHi hi slots2 ci) rsub = true)
    (hkci : 1 ≤ ci → lexCmp (slots2.getD ci ([], .leaf [])).1 k ≤ 0)
    (hkci1 : ci + 1 < slots2.length →
      lexCmp k (slots2.getD (ci+1) ([], .leaf [])).1 < 0)
    (hget2 : if lexCmp k sep < 0 then
        treeGet h (slots2.getD ci ([], .leaf [])).2 k = .ok d
      else treeGet h rsub k = .ok d)
    (hguard : pmaxP - branchUsed slots2 < mdb_branch_size_model sep)
    (hsplit : splitBranchInsert slots2 (ci+1) sep rsub = .ok (lp, sep2, rp)) :
    PutPost (h+1) lo hi k d (.two (.branch lp) sep2 (.branch rp)) := by
  obtain ⟨hstlen, hst0, hkeys', hpair', hch'⟩ := branchStaged_facts lo hi slots2 ci
    sep rsub h hci h0 hkeys hpair hchOther hsepwf hsepl hsepu hlwf hrwf
  obtain ⟨si, hlp, hrp, hsep2, hlb, hrb⟩ :=
    splitBranchInsert_char slots2 (ci+1) sep rsub lp sep2 rp hsplit
  have hstget : ∀ j, (slots2.insertIdx (ci+1) (sep, rsub)).getD j ([], .leaf []) =
      if j < ci + 1 then slots2.getD j ([], .leaf [])
      else if j = ci + 1 then (sep, rsub)
      else slots2.getD (j-1) ([], .leaf []) :=
    fun j => getD_insertIdx slots2 (sep, rsub) ([], .leaf []) (ci+1) j (by omega)
  have hover : pmaxP < branchUsed (slots2.insertIdx (ci+1) (sep, rsub)) :=
    branch_staged_over slots2 ci sep rsub (by omega) hguard
  have hstne : slots2.insertIdx (ci+1) (sep, rsub) ≠ [] := by
    intro hnil
    have := congrArg List.length hnil
    rw [hstlen] at this
    simp at this
  have hsi1 : 1 ≤ si := by
    by_contra hcon
    have hsi0 : si = 0 := by omega
    rw [hsi0, List.drop_zero] at hrp hrb
    have hb := hrb hstne
    rw [hrp, clearFirstKey_of_key_empty _ hstne hst0] at hb
    omega
  have hsi2 : si ≤ slots2.length := by
    by_contra hcon
    have htk : (slots2.insertIdx (ci+1) (sep, rsub)).take si =
        slots2.insertIdx (ci+1) (sep, rsub) := List.take_of_length_le (by omega)
    rw [htk] at hlp hlb
    have hb := hlb hstne
    rw [hlp, clearFirstKey_of_key_empty _ hstne hst0] at hb
    omega
  have hlp' : lp = (slots2.insertIdx (ci+1) (sep, rsub)).take si := by
    rw [hlp]
    apply clearFirstKey_of_key_empty
    · intro hnil
      have := congrArg List.length hnil
      simp [hstlen] at this
      omega
    · rw [getD_take _ _ si 0 hsi1]
      exact hst0
  have hlplen : lp.length = si := by
    rw [hlp']
    simp [hstlen]
    omega
  have hlpget : ∀ j, j < si → lp.getD j ([], .leaf []) =
      (slots2.insertIdx (ci+1) (sep, rsub)).getD j ([], .leaf []) := by
    intro j hj
    rw [hlp', getD_take _ _ si j hj]
  have hsibound : si < (slots2.insertIdx (ci+1) (sep, rsub)).length := by
    rw [hstlen]
    omega
  have hdrop : (slots2.insertIdx (ci+1) (sep, rsub)).drop si =
      (slots2.insertIdx (ci+1) (sep, rsub)).getD si ([], .leaf []) ::
        (slots2.insertIdx (ci+1) (sep, rsub)).drop (si+1) := by
    rw [List.drop_eq_getElem_cons hsibound]
    congr 1
    rw [List.getD_eq_getElem?_getD, List.getElem?_eq_getElem hsibound]
    rfl
  have hrp' : rp = ([], ((slots2.insertIdx (ci+1) (sep, rsub)).getD si
      ([], .leaf [])).2) :: (slots2.insertIdx (ci+1) (sep, rsub)).drop (si+1) := by
    rw [hrp, hdrop]
    rfl
  have hrplen : rp.length = slots2.length + 1 - si := by
    rw [hrp']
    simp [hstlen]
    omega
  have hrpget0 : rp.getD 0 ([], .leaf []) =
      ([], ((slots2.insertIdx (ci+1) (sep, rsub)).getD si ([], .leaf [])).2) := by
    rw [hrp']
    rfl
  have hrpgetS : ∀ m, rp.getD (m+1) ([], .leaf []) =
      (slots2.insertIdx (ci+1) (sep, rsub)).getD (si+1+m) ([], .leaf []) := by
    intro m
    rw [hrp', List.getD_cons_succ, getD_drop]
  have hsep2' : sep2 = ((slots2.insertIdx (ci+1) (sep, rsub)).getD si
      ([], .leaf [])).1 := hsep2
  -- descent facts for the key, on the staged list
  have hm_lt : (if lexCmp k sep < 0 then ci else ci + 1) < slots2.length + 1 := by
    split_ifs <;> omega
  have hm_lb : 1 ≤ (if lexCmp k sep < 0 then ci else ci + 1) →
      lexCmp ((slots2.insertIdx (ci+1) (sep, rsub)).getD
        (if lexCmp k sep < 0 then ci else ci + 1) ([], .leaf [])).1 k ≤ 0 := by
    intro hm1
    split_ifs with hcmp
    · rw [hstget ci, if_pos (by omega)]
      exact hkci (by split_ifs at hm1 <;> omega)
    · rw [hstget (ci+1), if_neg (by omega), if_pos rfl]
      show lexCmp sep k ≤ 0
      have := lexCmp_swap k sep
      omega
  have hm_ub : (if lexCmp k sep < 0 then ci else ci + 1) + 1 < slots2.length + 1 →
      lexCmp k ((slots2.insertIdx (ci+1) (sep, rsub)).getD
        ((if lexCmp k sep < 0 then ci else ci + 1) + 1) ([], .leaf [])).1 < 0 := by
    intro hm2
    split_ifs with hcmp
    · rw [hstget (ci+1), if_neg (by omega), if_pos rfl]
      exact hcmp
    · rw [hstget (ci+1+1), if_neg (by omega), if_neg (by omega)]
      have he : ci + 1 + 1 - 1 = ci + 1 := by omega
      rw [he]
      exact hkci1 (by split_ifs at hm2 <;> omega)
  have hm_get : treeGet h (((slots2.insertIdx (ci+1) (sep, rsub)).getD
      (if lexCmp k sep < 0 then ci else ci + 1) ([], .leaf [])).2) k = .ok d := by
    split_ifs with hcmp
    · rw [hstget ci, if_pos (by omega)]
      rw [if_pos hcmp] at hget2
      exact hget2
    · rw [hstget (ci+1), if_neg (by omega), if_pos rfl]
      rw [if_neg hcmp] at hget2
      exact hget2
  simp only [PutPost]
  refine ⟨?_, ?_, ?_, ?_, ?_, ?_⟩
  · rw [hsep2']
    exact (hkeys' si hsi1 (by omega)).1
  · rw [hsep2']
    exact (hkeys' si hsi1 (by omega)).2.1
  · rw [hsep2']
    exact (hkeys' si hsi1 (by omega)).2.2
  · -- left half well formed
    rw [wfBranch_iff]
    refine ⟨?_, ?_, ?_, ?_, ?_, ?_⟩
    · intro hnil
      have := congrArg List.length hnil
      rw [hlplen] at this
      simp at this
      omega
    · rw [hlpget 0 hsi1]
      exact hst0
    · intro j hj1 hjn
      rw [hlplen] at hjn
      rw [hlpget j hjn]
      refine ⟨(hkeys' j hj1 (by omega)).1, (hkeys' j hj1 (by omega)).2.1, ?_⟩
      simp only [ubOKb, decide_eq_true_iff]
      rw [hsep2']
      exact hpair' j si hj1 hjn (by omega)
    · intro i j hi1 hij hjn
      rw [hlplen] at hjn
      rw [hlpget i (by omega), hlpget j hjn]
      exact hpair' i j hi1 hij (by omega)
    · exact hlb (by
        intro hnil
        have := congrArg List.length hnil
        simp [hstlen] at this
        omega)
    · intro i hii
      rw [hlplen] at hii
      have hval : (lp.getD i ([], .leaf [])).2 =
          ((slots2.insertIdx (ci+1) (sep, rsub)).getD i ([], .leaf [])).2 := by
        rw [hlpget i hii]
      have hlo_eq : childLo lo lp i =
          childLo lo (slots2.insertIdx (ci+1) (sep, rsub)) i := by
        unfold childLo
        split_ifs with hz
        · rfl
        · rw [hlpget i hii]
      have hhi_eq : childHi (some sep2) lp i =
          childHi hi (slots2.insertIdx (ci+1) (sep, rsub)) i := by
        unfold childHi
        rw [hlplen, hstlen]
        split_ifs with hz hz2
        · omega
        · have he : i + 1 = si := by omega
          rw [hsep2', he]
        · omega
        · rw [hlpget (i+1) (by omega)]
      rw [hval, hlo_eq, hhi_eq]
      exact hch' i (by omega)
  · -- right half well formed
    rw [wfBranch_iff]
    refine ⟨?_, ?_, ?_, ?_, ?_, ?_⟩
    · intro hnil
      have := congrArg List.length hnil
      rw [hrplen] at this
      simp at this
      omega
    · rw [hrpget0]
    · intro j hj1 hjn
      rw [hrplen] at hjn
      obtain ⟨m, rfl⟩ : ∃ m, j = m + 1 := ⟨j - 1, by omega⟩
      rw [hrpgetS m]
      refine ⟨(hkeys' (si+1+m) (by omega) (by omega)).1, ?_,
        (hkeys' (si+1+m) (by omega) (by omega)).2.2⟩
      simp only [lbStrictB, decide_eq_true_iff]
      rw [hsep2']
      exact hpair' si (si+1+m) hsi1 (by omega) (by omega)
    · intro i j hi1 hij hjn
      rw [hrplen] at hjn
      obtain ⟨mi, rfl⟩ : ∃ m, i = m + 1 := ⟨i - 1, by omega⟩
      obtain ⟨mj, rfl⟩ : ∃ m, j = m + 1 := ⟨j - 1, by omega⟩
      rw [hrpgetS mi, hrpgetS mj]
      exact hpair' (si+1+mi) (si+1+mj) (by omega) (by omega) (by omega)
    · exact hrb (by
        intro hnil
        have := congrArg List.length hnil
        simp [hstlen] at this
        omega)
    · intro i hii
      rw [hrplen] at hii
      cases i with
      | zero =>
        have hval : (rp.getD 0 ([], .leaf [])).2 =
            ((slots2.insertIdx (ci+1) (sep, rsub)).getD si ([], .leaf [])).2 := by
          rw [hrpget0]
        have hlo_eq : childLo (some sep2) rp 0 =
            childLo lo (slots2.insertIdx (ci+1) (sep, rsub)) si := by
          unfold childLo
          rw [if_pos rfl, if_neg (by omega), hsep2']
        have hhi_eq : childHi hi rp 0 =
            childHi hi (slots2.insertIdx (ci+1) (sep, rsub)) si := by
          unfold childHi
          rw [hrplen, hstlen]
          split_ifs with hz hz2
          · rfl
          · omega
          · omega
          · rw [hrpgetS 0]
        rw [hval, hlo_eq, hhi_eq]
        exact hch' si (by omega)
      | succ m =>
        have hval : (rp.getD (m+1) ([], .leaf [])).2 =
            ((slots2.insertIdx (ci+1) (sep, rsub)).getD (si+1+m) ([], .leaf [])).2 := by
          rw [hrpgetS m]
        have hlo_eq : childLo (some sep2) rp (m+1) =
            childLo lo (slots2.insertIdx (ci+1) (sep, rsub)) (si+1+m) := by
          unfold childLo
          rw [if_neg (by omega), if_neg (by omega), hrpgetS m]
        have hhi_eq : childHi hi rp (m+1) =
            childHi hi (slots2.insertIdx (ci+1) (sep, rsub)) (si+1+m) := by
          unfold childHi
          rw [hrplen, hstlen]
          split_ifs with hz hz2
          · rfl
          · omega
          · omega
          · rw [hrpgetS (m+1)]
            have he : si + 1 + (m + 1) = si + 1 + m + 1 := by omega
            rw [he]
        rw [hval, hlo_eq, hhi_eq]
        exact hch' (si+1+m) (by omega)
  · -- the get descends into the selected half
    by_cases hks : lexCmp k sep2 < 0
    · have hmsi : (if lexCmp k sep < 0 then ci else ci + 1) < si := by
        by_contra hcon
        have h1 := hm_lb (by omega)
        have h2 : lexCmp sep2 ((slots2.insertIdx (ci+1) (sep, rsub)).getD
            (if lexCmp k sep < 0 then ci else ci + 1) ([], .leaf [])).1 ≤ 0 := by
          rcases Nat.eq_or_lt_of_le (Nat.le_of_not_lt hcon) with he | hlt
          · rw [hsep2', he, lexCmp_self]
          · rw [hsep2']
            have h5 := hpair' si _ hsi1 hlt hm_lt
            omega
        have h4 := lexCmp_trans_neg_le (lexCmp_trans_neg_le hks h2) h1
        rw [lexCmp_self] at h4
        omega
      rw [if_pos hks]
      simp only [treeGet]
      have hmap : ∀ j, j < si → ((lp.map (fun x => x.1)).getD j []) =
          (lp.getD j ([], .leaf [])).1 := by
        intro j hj
        rw [getD_map_in _ _ j (by omega) [] ([], .leaf [])]
      have hbci : branchChildIdx (lp.map (fun x => x.1)) k =
          (if lexCmp k sep < 0 then ci else ci + 1) := by
        apply branchChildIdx_unique _ k _ (by simp [hlplen]; omega) ?_ ?_ ?_ ?_
        · intro i j hi1 hij hj
          have hj' : j < si := by simpa [hlplen] using hj
          rw [hmap i (by omega), hmap j hj', hlpget i (by omega), hlpget j hj']
          exact hpair' i j hi1 hij (by omega)
        · simp [hlplen]
          omega
        · intro hm1
          rw [hmap _ hmsi, hlpget _ hmsi]
          exact hm_lb hm1
        · intro hm2
          have hm2' : (if lexCmp k sep < 0 then ci else ci + 1) + 1 < si := by
            simpa [hlplen] using hm2
          rw [hmap _ hm2', hlpget _ hm2']
          exact hm_ub (by omega)
      rw [hbci]
      have hval : (lp.getD (if lexCmp k sep < 0 then ci else ci + 1)
          ([], .leaf [])).2 = ((slots2.insertIdx (ci+1) (sep, rsub)).getD
          (if lexCmp k sep < 0 then ci else ci + 1) ([], .leaf [])).2 := by
        rw [hlpget _ hmsi]
      rw [hval]
      exact hm_get
    · have hmsi : si ≤ (if lexCmp k sep < 0 then ci else ci + 1) := by
        by_contra hcon
        have hlt : (if lexCmp k sep < 0 then ci else ci + 1) < si := by omega
        have h1 := hm_ub (by omega)
        have h2 : lexCmp ((slots2.insertIdx (ci+1) (sep, rsub)).getD
            ((if lexCmp k sep < 0 then ci else ci + 1) + 1) ([], .leaf [])).1 sep2
            ≤ 0 := by
          have hle : (if lexCmp k sep < 0 then ci else ci + 1) + 1 ≤ si := hlt
          rcases Nat.eq_or_lt_of_le hle with he | hlt2
          · rw [hsep2', ← he, lexCmp_self]
          · rw [hsep2']
            have h5 := hpair' ((if lexCmp k sep < 0 then ci else ci + 1) + 1) si
              (by omega) hlt2 (by omega)
            omega
        exact hks (lexCmp_trans_neg_le h1 h2)
      rw [if_neg hks]
      simp only [treeGet]
      have hmapr : ∀ j, j < rp.length → ((rp.map (fun x => x.1)).getD j []) =
          (rp.getD j ([], .leaf [])).1 := by
        intro j hj
        rw [getD_map_in _ _ j hj [] ([], .leaf [])]
      have hbci : branchChildIdx (rp.map (fun x => x.1)) k =
          (if lexCmp k sep < 0 then ci else ci + 1) - si := by
        apply branchChildIdx_unique _ k _ (by simp [hrplen]; omega) ?_ ?_ ?_ ?_
        · intro i j hi1 hij hj
          have hj' : j < rp.length := by simpa using hj
          rw [hrplen] at hj'
          obtain ⟨mi, rfl⟩ : ∃ m, i = m + 1 := ⟨i - 1, by omega⟩
          obtain ⟨mj, rfl⟩ : ∃ m, j = m + 1 := ⟨j - 1, by omega⟩
          rw [hmapr (mi+1) (by rw [hrplen]; omega), hmapr (mj+1) (by rw [hrplen]; omega),
            hrpgetS mi, hrpgetS mj]
          exact hpair' (si+1+mi) (si+1+mj) (by omega) (by omega) (by omega)
        · simp [hrplen]
          omega
        · intro hm1
          obtain ⟨m, hmeq⟩ : ∃ m, (if lexCmp k sep < 0 then ci else ci + 1) - si =
              m + 1 := ⟨(if lexCmp k sep < 0 then ci else ci + 1) - si - 1, by omega⟩
          rw [hmeq, hmapr (m+1) (by rw [hrplen]; omega), hrpgetS m]
          have he : si + 1 + m = (if lexCmp k sep < 0 then ci else ci + 1) := by omega
          rw [he]
          exact hm_lb (by omega)
        · intro hm2
          have hm2' : (if lexCmp k sep < 0 then ci else ci + 1) + 1 <
              slots2.length + 1 := by
            have : (if lexCmp k sep < 0 then ci else ci + 1) - si + 1 < rp.length := by
              simpa using hm2
            rw [hrplen] at this
            omega
          obtain ⟨m, hmeq⟩ : ∃ m, (if lexCmp k sep < 0 then ci else ci + 1) - si + 1 =
              m + 1 := ⟨(if lexCmp k sep < 0 then ci else ci + 1) - si, rfl⟩
          rw [hmeq, hmapr (m+1) (by rw [hrplen]; omega), hrpgetS m]
          have he : si + 1 + m = (if lexCmp k sep < 0 then ci else ci + 1) + 1 := by
            omega
          rw [he]
          exact hm_ub hm2'
      rw [hbci]
      rcases Nat.eq_or_lt_of_le hmsi with he | hlt
      · have hz : (if lexCmp k sep < 0 then ci else ci + 1) - si = 0 := by omega
        rw [hz]
        have hval : (rp.getD 0 ([], .leaf [])).2 =
            ((slots2.insertIdx (ci+1) (sep, rsub)).getD si ([], .leaf [])).2 := by
          rw [hrpget0]
        rw [hval, he]
        exact hm_get
      · obtain ⟨m, hmeq⟩ : ∃ m, (if lexCmp k sep < 0 then ci else ci + 1) - si =
            m + 1 := ⟨(if lexCmp k sep < 0 then ci else ci + 1) - si - 1, by omega⟩
        rw [hmeq]
        have hval : (rp.getD (m+1) ([], .leaf [])).2 =
            ((slots2.insertIdx (ci+1) (sep, rsub)).getD (si+1+m) ([], .leaf [])).2 := by
          rw [hrpgetS m]
        rw [hval]
        have he : si + 1 + m = (if lexCmp k sep < 0 then ci else ci + 1) := by omega
        rw [he]
        exact hm_get

/-- `branchUsed` depends only on the slot keys. -/
theorem branchUsed_congr {s1 s2 : List (Key × Tree)}
    (h : s1.map (fun e => e.1) = s2.map (fun e => e.1)) :
    branchUsed s1 = branchUsed s2 := by
  unfold branchUsed
  have h1 : s1.map (fun s => EVEN (node_header_size + s.1.length) + indx_size) =
      (s1.map (fun e => e.1)).map
        (fun kk => EVEN (node_header_size + kk.length) + indx_size) := by
    rw [List.map_map]
    rfl
  have h2 : s2.map (fun s => EVEN (node_header_size + s.1.length) + indx_size) =
      (s2.map (fun e => e.1)).map
        (fun kk => EVEN (node_header_size + kk.length) + indx_size) := by
    rw [List.map_map]
    rfl
  rw [h1, h2, h]

/-- Main insert specification: a successful `treePut` (flags 0) on a
well-formed tree with the key inside the bounds satisfies the put
postcondition — the result tree(s) are well formed and the inserted key
reads back as the inserted bytes. -/
theorem treePut_spec (k : Key) (d : Bytes) (ovfDirty : Bool) (hk : wfKey k = true) :
    ∀ (hf : Nat) (t : Tree) (lo hi : Option Key) (f : Nat) (r : InsR),
      wfTreeB hf lo hi t = true → lbOKb lo k = true → ubOKb hi k = true →
      treePut f t k d 0 ovfDirty = .ok r → PutPost hf lo hi k d r := by
  intro hf
  induction hf with
  | zero =>
    intro t lo hi f r hwf hlo hhi hput
    cases t with
    | leaf es =>
      rw [wfTreeB_leaf] at hwf
      simp only [treePut] at hput
      exact leafPut_spec lo hi es k d ovfDirty r 0 hwf hk hlo hhi hput
    | branch slots => simp [wfTreeB] at hwf
  | succ h ih =>
    intro t lo hi f r hwf hlo hhi hput
    cases t with
    | leaf es =>
      rw [wfTreeB_leaf] at hwf
      simp only [treePut] at hput
      exact leafPut_spec lo hi es k d ovfDirty r (h+1) hwf hk hlo hhi hput
    | branch slots =>
      cases f with
      | zero => simp [treePut] at hput
      | succ f =>
        rw [wfBranch_iff] at hwf
        obtain ⟨hne, h0, hkeys, hpair, hused, hch⟩ := hwf
        have hn : 1 ≤ slots.length := List.length_pos.mpr hne
        simp only [treePut] at hput
        set ci := branchChildIdx (slots.map (fun x => x.1)) k with hcidef
        have hmpair : ∀ i j : Nat, 1 ≤ i → i < j →
            j < (slots.map (fun x => x.1)).length →
            lexCmp ((slots.map (fun x => x.1)).getD i [])
              ((slots.map (fun x => x.1)).getD j []) < 0 := by
          intro i j hi1 hij hj
          have hj' : j < slots.length := by simpa using hj
          rw [getD_map_in slots _ i (by omega) [] ([], .leaf []),
            getD_map_in slots _ j hj' [] ([], .leaf [])]
          exact hpair i j hi1 hij hj'
        obtain ⟨hci_lt, hci_le, hci_gt⟩ := branchChildIdx_spec
          (slots.map (fun x => x.1)) k (by simpa using hn) hmpair
        rw [← hcidef] at hci_lt hci_le hci_gt
        have hci_lt' : ci < slots.length := by simpa using hci_lt
        have hclo : lbOKb (childLo lo slots ci) k = true := by
          unfold childLo
          split_ifs with hz
          · exact hlo
          · simp only [lbOKb, decide_eq_true_iff]
            have h1 := hci_le ci (by omega) (by omega) (by simpa using hci_lt')
            rwa [getD_map_in slots _ ci hci_lt' [] ([], .leaf [])] at h1
        have hchi : ubOKb (childHi hi slots ci) k = true := by
          unfold childHi
          split_ifs with hz
          · exact hhi
          · have hci1 : ci + 1 < slots.length := by omega
            simp only [ubOKb, decide_eq_true_iff]
            have h1 := hci_gt (ci+1) (by omega) (by simpa using hci1)
            rwa [getD_map_in slots _ (ci+1) hci1 [] ([], .leaf [])] at h1
        obtain ⟨rc, hrc, hfin⟩ := except_bind_ok _ _ _ hput
        have hrcspec := ih (slots.getD ci ([], .leaf [])).2 (childLo lo slots ci)
          (childHi hi slots ci) f rc (hch ci hci_lt') hclo hchi hrc
        cases rc with
        | one t2 =>
          cases hfin
          simp only [PutPost] at hrcspec ⊢
          obtain ⟨ht2wf, ht2get⟩ := hrcspec
          have hs2key : ∀ j, ((slots.set ci ((slots.getD ci ([], .leaf [])).1, t2)).getD
              j ([], .leaf [])).1 = (slots.getD j ([], .leaf [])).1 := by
            intro j
            rw [getD_set slots ([], .leaf []) ((slots.getD ci ([], .leaf [])).1, t2) ci j]
            split_ifs with hc
            · rw [hc.1]
            · rfl
          have hs2len : (slots.set ci ((slots.getD ci ([], .leaf [])).1, t2)).length =
              slots.length := by simp
          have hs2val : ∀ j, j ≠ ci →
              ((slots.set ci ((slots.getD ci ([], .leaf [])).1, t2)).getD j
                ([], .leaf [])).2 = (slots.getD j ([], .leaf [])).2 := by
            intro j hj
            rw [getD_set slots ([], .leaf []) ((slots.getD ci ([], .leaf [])).1, t2) ci j]
            rw [if_neg (by omega)]
          have hs2vci : ((slots.set ci ((slots.getD ci ([], .leaf [])).1, t2)).getD ci
              ([], .leaf [])).2 = t2 := by
            rw [getD_set slots ([], .leaf []) ((slots.getD ci ([], .leaf [])).1, t2) ci ci]
            rw [if_pos ⟨rfl, hci_lt'⟩]
          have hclo_eq : ∀ i, childLo lo (slots.set ci
              ((slots.getD ci ([], .leaf [])).1, t2)) i = childLo lo slots i := by
            intro i
            unfold childLo
            split_ifs with hz
            · rfl
            · rw [hs2key i]
          have hchi_eq : ∀ i, childHi hi (slots.set ci
              ((slots.getD ci ([], .leaf [])).1, t2)) i = childHi hi slots i := by
            intro i
            unfold childHi
            rw [hs2len]
            split_ifs with hz
            · rfl
            · rw [hs2key (i+1)]
          constructor
          · rw [wfBranch_iff]
            refine ⟨?_, ?_, ?_, ?_, ?_, ?_⟩
            · intro hnil
              have := congrArg List.length hnil
              rw [hs2len, List.length_nil] at this
              omega
            · rw [hs2key 0]
              exact h0
            · intro j hj1 hjn
              rw [hs2len] at hjn
              rw [hs2key j]
              exact hkeys j hj1 hjn
            · intro i j hi1 hij hjn
              rw [hs2len] at hjn
              rw [hs2key i, hs2key j]
              exact hpair i j hi1 hij hjn
            · have hbu : branchUsed (slots.set ci ((slots.getD ci ([], .leaf [])).1,
                  t2)) = branchUsed slots := by
                apply branchUsed_congr
                exact map_fst_set slots ci ([], .leaf []) t2 hci_lt'
              rw [hbu]
              exact hused
            · intro i hii
              rw [hs2len] at hii
              rw [hclo_eq i, hchi_eq i]
              by_cases hic : i = ci
              · rw [hic, hs2vci]
                exact ht2wf
              · rw [hs2val i hic]
                exact hch i hii
          · simp only [treeGet]
            have hmeq : (slots.set ci ((slots.getD ci ([], .leaf [])).1, t2)).map
                (fun x => x.1) = slots.map (fun x => x.1) :=
              map_fst_set slots ci ([], .leaf []) t2 hci_lt'
            rw [hmeq, ← hcidef, hs2vci]
            exact ht2get
        | two l sep rsub =>
          dsimp only at hfin
          simp only [PutPost] at hrcspec
          obtain ⟨hsepwf, hsepl, hsepu, hlwf, hrwf, hget2⟩ := hrcspec
          have hs2key : ∀ j, ((slots.set ci ((slots.getD ci ([], .leaf [])).1, l)).getD
              j ([], .leaf [])).1 = (slots.getD j ([], .leaf [])).1 := by
            intro j
            rw [getD_set slots ([], .leaf []) ((slots.getD ci ([], .leaf [])).1, l) ci j]
            split_ifs with hc
            · rw [hc.1]
            · rfl
          have hs2len : (slots.set ci ((slots.getD ci ([], .leaf [])).1, l)).length =
              slots.length := by simp
          have hs2val : ∀ j, j ≠ ci →
              ((slots.set ci ((slots.getD ci ([], .leaf [])).1, l)).getD j
                ([], .leaf [])).2 = (slots.getD j ([], .leaf [])).2 := by
            intro j hj
            rw [getD_set slots ([], .leaf []) ((slots.getD ci ([], .leaf [])).1, l) ci j]
            rw [if_neg (by omega)]
          have hs2vci : ((slots.set ci ((slots.getD ci ([], .leaf [])).1, l)).getD ci
              ([], .leaf [])).2 = l := by
            rw [getD_set slots ([], .leaf []) ((slots.getD ci ([], .leaf [])).1, l) ci ci]
            rw [if_pos ⟨rfl, hci_lt'⟩]
          have hclo_eq : ∀ i, childLo lo (slots.set ci
              ((slots.getD ci ([], .leaf [])).1, l)) i = childLo lo slots i := by
            intro i
            unfold childLo
            split_ifs with hz
            · rfl
            · rw [hs2key i]
          have hchi_eq : ∀ i, childHi hi (slots.set ci
              ((slots.getD ci ([], .leaf [])).1, l)) i = childHi hi slots i := by
            intro i
            unfold childHi
            rw [hs2len]
            split_ifs with hz
            · rfl
            · rw [hs2key (i+1)]
          have hci2 : ci < (slots.set ci ((slots.getD ci ([], .leaf [])).1, l)).length :=
            by rw [hs2len]; exact hci_lt'
          have h02 : ((slots.set ci ((slots.getD ci ([], .leaf [])).1, l)).getD 0
              ([], .leaf [])).1 = [] := by
            rw [hs2key 0]
            exact h0
          have hkeys2 : ∀ j, 1 ≤ j →
              j < (slots.set ci ((slots.getD ci ([], .leaf [])).1, l)).length →
              wfKey ((slots.set ci ((slots.getD ci ([], .leaf [])).1, l)).getD j
                ([], .leaf [])).1 = true ∧
              lbStrictB lo ((slots.set ci ((slots.getD ci ([], .leaf [])).1, l)).getD j
                ([], .leaf [])).1 = true ∧
              ubOKb hi ((slots.set ci ((slots.getD ci ([], .leaf [])).1, l)).getD j
                ([], .leaf [])).1 = true := by
            intro j hj1 hjn
            rw [hs2len] at hjn
            rw [hs2key j]
            exact hkeys j hj1 hjn
          have hpair2 : ∀ i j, 1 ≤ i → i < j →
              j < (slots.set ci ((slots.getD ci ([], .leaf [])).1, l)).length →
              lexCmp ((slots.set ci ((slots.getD ci ([], .leaf [])).1, l)).getD i
                ([], .leaf [])).1
                ((slots.set ci ((slots.getD ci ([], .leaf [])).1, l)).getD j
                  ([], .leaf [])).1 < 0 := by
            intro i j hi1 hij hjn
            rw [hs2len] at hjn
            rw [hs2key i, hs2key j]
            exact hpair i j hi1 hij hjn
          have hchO2 : ∀ i, i < (slots.set ci ((slots.getD ci ([], .leaf [])).1,
              l)).length → i ≠ ci →
              wfTreeB h (childLo lo (slots.set ci ((slots.getD ci ([], .leaf [])).1, l))
                  i)
                (childHi hi (slots.set ci ((slots.getD ci ([], .leaf [])).1, l)) i)
                ((slots.set ci ((slots.getD ci ([], .leaf [])).1, l)).getD i
                  ([], .leaf [])).2 = true := by
            intro i hii hic
            rw [hs2len] at hii
            rw [hclo_eq i, hchi_eq i, hs2val i hic]
            exact hch i hii
          have hsepl2 : lbStrictB (childLo lo (slots.set ci
              ((slots.getD ci ([], .leaf [])).1, l)) ci) sep = true := by
            rw [hclo_eq ci]
            exact hsepl
          have hsepu2 : ubOKb (childHi hi (slots.set ci
              ((slots.getD ci ([], .leaf [])).1, l)) ci) sep = true := by
            rw [hchi_eq ci]
            exact hsepu
          have hlwf2 : wfTreeB h (childLo lo (slots.set ci
              ((slots.getD ci ([], .leaf [])).1, l)) ci) (some sep)
              ((slots.set ci ((slots.getD ci ([], .leaf [])).1, l)).getD ci
                ([], .leaf [])).2 = true := by
            rw [hclo_eq ci, hs2vci]
            exact hlwf
          have hrwf2 : wfTreeB h (some sep) (childHi hi (slots.set ci
              ((slots.getD ci ([], .leaf [])).1, l)) ci) rsub = true := by
            rw [hchi_eq ci]
            exact hrwf
          have hkci2 : 1 ≤ ci → lexCmp ((slots.set ci
              ((slots.getD ci ([], .leaf [])).1, l)).getD ci ([], .leaf [])).1 k
              ≤ 0 := by
            intro hc1
            rw [hs2key ci]
            have h1 := hci_le ci hc1 (by omega) (by simpa using hci_lt')
            rwa [getD_map_in slots _ ci hci_lt' [] ([], .leaf [])] at h1
          have hkci12 : ci + 1 < (slots.set ci ((slots.getD ci ([], .leaf [])).1,
              l)).length → lexCmp k ((slots.set ci ((slots.getD ci ([], .leaf [])).1,
              l)).getD (ci+1) ([], .leaf [])).1 < 0 := by
            intro hc1
            rw [hs2len] at hc1
            rw [hs2key (ci+1)]
            have h1 := hci_gt (ci+1) (by omega) (by simpa using hc1)
            rwa [getD_map_in slots _ (ci+1) hc1 [] ([], .leaf [])] at h1
          have hget22 : if lexCmp k sep < 0 then
              treeGet h ((slots.set ci ((slots.getD ci ([], .leaf [])).1, l)).getD ci
                ([], .leaf [])).2 k = .ok d
              else treeGet h rsub k = .ok d := by
            rw [hs2vci]
            exact hget2
          by_cases hg : pmaxP - branchUsed (slots.set ci
              ((slots.getD ci ([], .leaf [])).1, l)) < mdb_branch_size_model sep
          · rw [if_pos hg] at hfin
            obtain ⟨x, hX, hfin2⟩ := except_bind_ok _ _ _ hfin
            obtain ⟨lp2, sep2, rp2⟩ := x
            cases hfin2
            exact branchSplit_two_spec lo hi
              (slots.set ci ((slots.getD ci ([], .leaf [])).1, l)) ci k sep d rsub
              lp2 sep2 rp2 h hci2 h02 hkeys2 hpair2 hchO2 hsepwf hsepl2 hsepu2
              hlwf2 hrwf2 hkci2 hkci12 hget22 hg hX
          · rw [if_neg hg] at hfin
            obtain ⟨slots3, hX, hfin2⟩ := except_bind_ok _ _ _ hfin
            cases hfin2
            have hone := branchInsert_one_spec lo hi
              (slots.set ci ((slots.getD ci ([], .leaf [])).1, l)) ci k sep d rsub
              slots3 h hci2 h02 hkeys2 hpair2 hchO2 hsepwf hsepl2 hsepu2
              hlwf2 hrwf2 hkci2 hkci12 hget22 hX
            simp only [PutPost]
            exact hone

/-- Behaviour of one staleness check of the free-DB walk: if the cached
value is a lower bound of the freshly computed oldest live snapshot id,
then after the check it still is, it equals the fresh value once
`found_old` is set, and whenever the walk is allowed to continue the
candidate id lies strictly below the (possibly recomputed) cached value. -/
theorem walkStalenessCheck_spec (writer : Nat) (readers : List ReaderSlot)
    (cand alive : Nat) (found_old : Bool)
    (h1 : found_old = true → alive = mdb_find_alive_snapshot_id writer readers)
    (h2 : alive ≤ mdb_find_alive_snapshot_id writer readers) :
    ((walkStalenessCheck writer readers cand alive found_old).2.1 = true →
      (walkStalenessCheck writer readers cand alive found_old).1 =
        mdb_find_alive_snapshot_id writer readers) ∧
    (walkStalenessCheck writer readers cand alive found_old).1 ≤
      mdb_find_alive_snapshot_id writer readers ∧
    ((walkStalenessCheck writer readers cand alive found_old).2.2 = false →
      cand < (walkStalenessCheck writer readers cand alive found_old).1) := by
  unfold walkStalenessCheck
  split_ifs with hc hf
  · exact ⟨fun _ => h1 hf, h2, by simp⟩
  · refine ⟨fun _ => rfl, le_refl _, fun hs => ?_⟩
    simp only [decide_eq_false_iff_not, Nat.not_le] at hs
    exact hs
  · exact ⟨fun h => h1 h, h2, fun _ => Nat.lt_of_not_le hc⟩

/-- The free-DB walk only ever merges records whose snapshot id lies
strictly below the oldest live snapshot id, provided the cached
`alive_snapshot_id` is a lower bound of the freshly computed value and
every previously merged id already satisfies the bound. -/
theorem freeWalk_merged_lt (writer : Nat) (readers : List ReaderSlot)
    (runFound : Nat → Bool) (records : List FreeRecord) (st : FreeWalkState)
    (hfo : st.found_old = true →
      st.alive_snapshot_id = mdb_find_alive_snapshot_id writer readers)
    (hle : st.alive_snapshot_id ≤ mdb_find_alive_snapshot_id writer readers)
    (hm : ∀ id ∈ st.merged, id < mdb_find_alive_snapshot_id writer readers) :
    ∀ id ∈ (freeWalk writer readers runFound st records).1.merged,
      id < mdb_find_alive_snapshot_id writer readers := by
  induction records generalizing st with
  | nil =>
    rw [freeWalk]
    dsimp only
    split_ifs <;> exact hm
  | cons r rest ih =>
    obtain ⟨ha1, ha2, ha3⟩ :=
      walkStalenessCheck_spec writer readers (st.last_snapshot_id + 1)
        st.alive_snapshot_id st.found_old hfo hle
    obtain ⟨hb1, hb2, hb3⟩ :=
      walkStalenessCheck_spec writer readers r.snapshot_id
        (walkStalenessCheck writer readers (st.last_snapshot_id + 1)
          st.alive_snapshot_id st.found_old).1
        (walkStalenessCheck writer readers (st.last_snapshot_id + 1)
          st.alive_snapshot_id st.found_old).2.1 ha1 ha2
    rw [freeWalk]
    dsimp only
    split_ifs with h0 h1 h2
    · exact hm
    · exact hm
    · exact hm
    · apply ih
      · exact fun h => hb1 h
      · exact hb2
      · intro id hid
        simp only [List.mem_append, List.mem_singleton] at hid
        rcases hid with hid | hid
        · exact hm id hid
        · subst hid
          exact Nat.lt_of_lt_of_le (hb3 (by simpa using h2)) hb2

/-! ## Claim theorems -/

/-- Bitwise fact: `&&&` distributes over `|||`. -/
theorem nat_or_and_distrib (x y z : Nat) : (x ||| y) &&& z = (x &&& z) ||| (y &&& z) := by
  apply Nat.eq_of_testBit_eq
  intro i
  simp only [Nat.testBit_and, Nat.testBit_or]
  cases Nat.testBit x i <;> cases Nat.testBit y i <;> cases Nat.testBit z i <;> rfl

/-- `leafPut` reads its flag word only through `MDB_NOOVERWRITE` and
`NODE_ADD_FLAGS`; flag words agreeing there are interchangeable. -/
theorem leafPut_flags_congr (es : List (Key × LeafVal)) (k : Key) (d : Bytes)
    (f1 f2 : Nat) (ov : Bool)
    (hno : f1 &&& MDB_NOOVERWRITE = f2 &&& MDB_NOOVERWRITE)
    (hnode : f1 &&& NODE_ADD_FLAGS = f2 &&& NODE_ADD_FLAGS) :
    leafPut es k d f1 ov = leafPut es k d f2 ov := by
  simp only [leafPut, hno, hnode]

/-- `treePut` reads its flag word only through `leafPut`. -/
theorem treePut_flags_congr (fuel : Nat) (t : Tree) (k : Key) (d : Bytes)
    (f1 f2 : Nat) (ov : Bool)
    (hno : f1 &&& MDB_NOOVERWRITE = f2 &&& MDB_NOOVERWRITE)
    (hnode : f1 &&& NODE_ADD_FLAGS = f2 &&& NODE_ADD_FLAGS) :
    treePut fuel t k d f1 ov = treePut fuel t k d f2 ov := by
  induction fuel generalizing t with
  | zero =>
    cases t with
    | leaf es => exact leafPut_flags_congr es k d f1 f2 ov hno hnode
    | branch slots => rfl
  | succ fuel ih =>
    cases t with
    | leaf es => exact leafPut_flags_congr es k d f1 f2 ov hno hnode
    | branch slots =>
      simp only [treePut]
      rw [ih]

/-- C3: for an environment whose two meta pages pass validation and carry
distinct snapshot ids, `mdb_env_pick_meta` returns the meta with the
larger snapshot id, returns the older meta exactly when the
`MDB_PREVSNAPSHOT` environment flag is set, and `mdb_env_read_header`
(the reopen path) makes the same choice among the valid metas. -/
theorem C3_meta_selection (prev : Bool) (m0 m1 : MetaPage)
    (h0 : metaValid m0 = true) (h1 : metaValid m1 = true)
    (hne : m0.mm_txnid ≠ m1.mm_txnid) :
    (mdb_env_pick_meta false m0 m1).mm_txnid = max m0.mm_txnid m1.mm_txnid ∧
    (mdb_env_pick_meta true m0 m1).mm_txnid = min m0.mm_txnid m1.mm_txnid ∧
    mdb_env_read_header prev m0 m1 = .ok (mdb_env_pick_meta prev m0 m1) := by
  simp only [metaValid, Bool.and_eq_true, beq_iff_eq] at h0 h1
  obtain ⟨⟨hf0, hm0⟩, hv0⟩ := h0
  obtain ⟨⟨hf1, hm1⟩, hv1⟩ := h1
  rcases Nat.lt_trichotomy m0.mm_txnid m1.mm_txnid with h | h | h
  · refine ⟨?_, ?_, ?_⟩
    · simp [mdb_env_pick_meta, h, Nat.max_eq_right (Nat.le_of_lt h)]
    · simp [mdb_env_pick_meta, h, Nat.min_eq_left (Nat.le_of_lt h)]
    · cases prev <;>
        simp [mdb_env_read_header, mdb_env_pick_meta, hf0, hm0, hv0, hf1, hm1, hv1,
          h, Nat.lt_asymm h, pure, Except.pure, bind, Except.bind]
  · exact absurd h hne
  · refine ⟨?_, ?_, ?_⟩
    · simp [mdb_env_pick_meta, Nat.lt_asymm h, Nat.max_eq_left (Nat.le_of_lt h)]
    · simp [mdb_env_pick_meta, Nat.lt_asymm h, Nat.min_eq_right (Nat.le_of_lt h)]
    · cases prev <;>
        simp [mdb_env_read_header, mdb_env_pick_meta, hf0, hm0, hv0, hf1, hm1, hv1,
          h, Nat.lt_asymm h, pure, Except.pure, bind, Except.bind]

/-- Witness for C3 at concrete valid metas with snapshot ids 4 and 5. -/
theorem C3_meta_selection_witness :
    metaValid (sampleMeta 4) = true ∧ metaValid (sampleMeta 5) = true ∧
    (sampleMeta 4).mm_txnid ≠ (sampleMeta 5).mm_txnid ∧
    ((mdb_env_pick_meta false (sampleMeta 4) (sampleMeta 5)).mm_txnid =
        max (sampleMeta 4).mm_txnid (sampleMeta 5).mm_txnid ∧
      (mdb_env_pick_meta true (sampleMeta 4) (sampleMeta 5)).mm_txnid =
        min (sampleMeta 4).mm_txnid (sampleMeta 5).mm_txnid ∧
      mdb_env_read_header false (sampleMeta 4) (sampleMeta 5) =
        .ok (mdb_env_pick_meta false (sampleMeta 4) (sampleMeta 5))) :=
  ⟨by decide, by decide, by decide,
   C3_meta_selection false (sampleMeta 4) (sampleMeta 5) (by decide) (by decide) (by decide)⟩

/-- C4 counterexample: with `mapsize/page_size = 16` pages, a transaction
whose `mt_next_pgno` is 15 (so the allocated page would be page number
`mapsize/page_size - 1 = 15`), no loose pages, dirty room available and
an exhausted free-DB, a single-page allocation from the file tail fails
with `MDB_MAP_FULL` even though `mt_next_pgno + num` equals (does not
exceed) `mapsize / page_size`, contradicting both halves of the claim. -/
theorem C4_counterexample :
    mdb_page_alloc
        { mt_loose_count := 0, mt_loose_head := 0, mt_dirty_room := 10,
          mt_next_pgno := 15, me_maxpg := me_maxpg 65536 4096 }
        1 (.error .NOTFOUND) = .error .MAP_FULL ∧
    ¬ (15 + 1 > me_maxpg 65536 4096) := by
  constructor
  · rfl
  · decide

/-- C4 (amended): allocation of `num` pages from the file tail fails with
`MDB_MAP_FULL` exactly when `mt_next_pgno + num ≥ mapsize / page_size`
(the comparison in mdb.c line 2330 is `>=`, not `>`); consequently the
highest page number a tail allocation can produce is
`mapsize/page_size - 2`, not `mapsize/page_size - 1`. -/
theorem C4_tail_allocation_boundary (txn : AllocTxn) (num mapsize psize : Nat)
    (hloose : ¬ (num = 1 ∧ txn.mt_loose_count ≠ 0))
    (hroom : txn.mt_dirty_room ≠ 0)
    (hmax : txn.me_maxpg = me_maxpg mapsize psize) :
    (mdb_page_alloc txn num (.error .NOTFOUND) = .error .MAP_FULL ↔
      txn.mt_next_pgno + num ≥ mapsize / psize) ∧
    (txn.mt_next_pgno + num < mapsize / psize →
      mdb_page_alloc txn num (.error .NOTFOUND) =
        .ok (.tail txn.mt_next_pgno,
             { txn with mt_next_pgno := txn.mt_next_pgno + num,
                        mt_dirty_room := txn.mt_dirty_room - 1 })) := by
  have hmax2 : txn.me_maxpg = mapsize / psize := hmax
  unfold mdb_page_alloc
  rw [if_neg hloose, if_neg hroom]
  constructor
  · constructor
    · intro hfail
      by_contra hlt
      rw [if_neg (by omega)] at hfail
      exact absurd hfail (by simp)
    · intro hge
      rw [if_pos (by omega)]
  · intro hlt
    rw [if_neg (by omega)]

/-- Witness for C4 (amended) at the boundary: 14 pages of room, allocating
at `mt_next_pgno = 13` succeeds, and at `mt_next_pgno = 15` the `≥` bound
makes the allocation fail. -/
theorem C4_tail_allocation_boundary_witness :
    ¬ ((1 : Nat) = 1 ∧ (0 : Nat) ≠ 0) ∧ (10 : Nat) ≠ 0 ∧
    (me_maxpg 65536 4096 : Nat) = me_maxpg 65536 4096 ∧
    ((mdb_page_alloc
        { mt_loose_count := 0, mt_loose_head := 0, mt_dirty_room := 10,
          mt_next_pgno := 13, me_maxpg := me_maxpg 65536 4096 }
        1 (.error .NOTFOUND) = .error .MAP_FULL ↔ 13 + 1 ≥ 65536 / 4096) ∧
     (13 + 1 < 65536 / 4096 →
      mdb_page_alloc
        { mt_loose_count := 0, mt_loose_head := 0, mt_dirty_room := 10,
          mt_next_pgno := 13, me_maxpg := me_maxpg 65536 4096 }
        1 (.error .NOTFOUND) =
        .ok (.tail 13,
             { mt_loose_count := 0, mt_loose_head := 0, mt_dirty_room := 9,
               mt_next_pgno := 14, me_maxpg := me_maxpg 65536 4096 }))) :=
  ⟨by decide, by decide, rfl,
   C4_tail_allocation_boundary
     { mt_loose_count := 0, mt_loose_head := 0, mt_dirty_room := 10,
       mt_next_pgno := 13, me_maxpg := me_maxpg 65536 4096 }
     1 65536 4096 (by decide) (by decide) rfl⟩

/-- C5: the free-DB harvest walk never merges (consumes) a record whose
snapshot id is greater than or equal to the oldest live snapshot id,
where that oldest id is `mdb_find_alive_snapshot_id`: the minimum of the
current writer's snapshot id minus one and the stamped snapshot ids of
all reader slots with nonzero pid.  The hypotheses state the entry
conditions of `__try_alloc_from_free_page_db`: `found_old` starts at 0,
nothing has been merged yet, and the cached `env->alive_snapshot_id` is a
lower bound of the freshly computed value (the cache is 0 at environment
open and is only ever set from `mdb_find_alive_snapshot_id`, whose value
cannot decrease between write transactions because reader stamps are
taken from the monotonically increasing `mti_txnid`). -/
theorem C5_harvest_reclamation_safety (writer : Nat) (readers : List ReaderSlot)
    (runFound : Nat → Bool) (records : List FreeRecord) (st0 : FreeWalkState)
    (hfo : st0.found_old = false)
    (hm : st0.merged = [])
    (hcache : st0.alive_snapshot_id ≤ mdb_find_alive_snapshot_id writer readers) :
    ∀ id ∈ (freeWalk writer readers runFound st0 records).1.merged,
      id < mdb_find_alive_snapshot_id writer readers := by
  apply freeWalk_merged_lt
  · intro h
    rw [hfo] at h
    exact absurd h (by simp)
  · exact hcache
  · intro id hid
    rw [hm] at hid
    exact absurd hid (by simp)

/-- Witness for C5: a writer at snapshot id 10 with two live readers
stamped at 7 and 9 (oldest live id 7), walking records with ids 5, 6, 7,
8 merges exactly the records 5 and 6. -/
theorem C5_harvest_reclamation_safety_witness :
    (({ last_snapshot_id := 0, alive_snapshot_id := 0, found_old := false,
        merged := [] } : FreeWalkState).found_old = false) ∧
    (({ last_snapshot_id := 0, alive_snapshot_id := 0, found_old := false,
        merged := [] } : FreeWalkState).merged = []) ∧
    (({ last_snapshot_id := 0, alive_snapshot_id := 0, found_old := false,
        merged := [] } : FreeWalkState).alive_snapshot_id ≤
      mdb_find_alive_snapshot_id 10
        [{ mr_pid := 31, mr_txnid := 7 }, { mr_pid := 32, mr_txnid := 9 }]) ∧
    (∀ id ∈ (freeWalk 10
        [{ mr_pid := 31, mr_txnid := 7 }, { mr_pid := 32, mr_txnid := 9 }]
        (fun _ => false)
        { last_snapshot_id := 0, alive_snapshot_id := 0, found_old := false,
          merged := [] }
        [{ snapshot_id := 5, pages := [40] }, { snapshot_id := 6, pages := [41] },
         { snapshot_id := 7, pages := [42] }, { snapshot_id := 8, pages := [43] }]).1.merged,
      id < mdb_find_alive_snapshot_id 10
        [{ mr_pid := 31, mr_txnid := 7 }, { mr_pid := 32, mr_txnid := 9 }]) :=
  ⟨rfl, rfl, by decide,
   C5_harvest_reclamation_safety 10
     [{ mr_pid := 31, mr_txnid := 7 }, { mr_pid := 32, mr_txnid := 9 }]
     (fun _ => false)
     [{ snapshot_id := 5, pages := [40] }, { snapshot_id := 6, pages := [41] },
      { snapshot_id := 7, pages := [42] }, { snapshot_id := 8, pages := [43] }]
     { last_snapshot_id := 0, alive_snapshot_id := 0, found_old := false, merged := [] }
     rfl rfl (by decide)⟩

/-- C6: the size-check prologue of `_mdb_cursor_put` (reached by both
`mdb_put` and `mdb_cursor_put` before any modification of the database)
accepts a key of size exactly `MDB_MAXKEYSIZE` = 511 and rejects a key of
size `MDB_MAXKEYSIZE + 1` with `MDB_BAD_VALSIZE`. -/
theorem C6_key_size_boundary (dsize : Nat) (dupsort : Bool)
    (hd : put_data_guard_rejects dsize dupsort = false) :
    cursor_put_size_prologue MDB_MAXKEYSIZE dsize dupsort = none ∧
    cursor_put_size_prologue (MDB_MAXKEYSIZE + 1) dsize dupsort = some .BAD_VALSIZE := by
  have hmax : put_key_guard_rejects MDB_MAXKEYSIZE = false := by decide
  have hover : put_key_guard_rejects (MDB_MAXKEYSIZE + 1) = true := by decide
  constructor
  · simp [cursor_put_size_prologue, hmax, hd]
  · simp [cursor_put_size_prologue, hover]

/-- Witness for C6 with a 16-byte value in a non-dupsort database. -/
theorem C6_key_size_boundary_witness :
    put_data_guard_rejects 16 false = false ∧
    (cursor_put_size_prologue MDB_MAXKEYSIZE 16 false = none ∧
     cursor_put_size_prologue (MDB_MAXKEYSIZE + 1) 16 false = some .BAD_VALSIZE) :=
  ⟨by decide, C6_key_size_boundary 16 false (by decide)⟩

/-- C7: for a leaf insert in a non-dupsort database, `mdb_insert_node`
stores the value inline exactly when the node (header + key + data) does
not exceed `me_nodemax`, and otherwise puts the data on an overflow run
of exactly `⌈(PAGEHDRSZ + data size) / psize⌉` pages (the node then holds
the run's first page number). -/
theorem C7_overflow_placement (psize ksize dsize : Nat) (hp : 0 < psize) :
    (insert_node_placement psize ksize dsize = .inline ↔
      LEAFSIZE ksize dsize ≤ me_nodemax psize) ∧
    (LEAFSIZE ksize dsize > me_nodemax psize →
      insert_node_placement psize ksize dsize =
        .overflow ((PAGEHDRSZ + dsize + psize - 1) / psize)) := by
  have hov : OVPAGES dsize psize = (PAGEHDRSZ + dsize + psize - 1) / psize := by
    unfold OVPAGES PAGEHDRSZ
    have h1 : 16 + dsize + psize - 1 = 16 - 1 + dsize + psize := by omega
    rw [h1, Nat.add_div_right _ hp]
  unfold insert_node_placement LEAFSIZE
  constructor
  · split_ifs with h
    · simp only [reduceCtorEq, false_iff, Nat.not_le]
      omega
    · simp only [true_iff]
      omega
  · intro h
    rw [if_pos h, hov]

/-- Witness for C7 at page size 4096 (`me_nodemax` = 2038): a 10-byte key
with a 2020-byte value stays inline, while a 3000-byte value goes to one
overflow page. -/
theorem C7_overflow_placement_witness :
    0 < 4096 ∧
    ((insert_node_placement 4096 10 2020 = .inline ↔
        LEAFSIZE 10 2020 ≤ me_nodemax 4096) ∧
     (LEAFSIZE 10 2020 > me_nodemax 4096 →
        insert_node_placement 4096 10 2020 =
          .overflow ((PAGEHDRSZ + 2020 + 4096 - 1) / 4096))) :=
  ⟨by decide, C7_overflow_placement 4096 10 2020 (by decide)⟩

/-- C9: a put with an empty key (size 0) is rejected with
`MDB_BAD_VALSIZE` by the size-check prologue of `_mdb_cursor_put` before
any modification of the database — the guard
`key->mv_size - 1 >= MDB_MAXKEYSIZE` wraps around for the unsigned size
0 — and `mdb_locate_cursor_by_op` (reached by `mdb_get` and every cursor
positioning) rejects an empty key as well, so an empty key can be
neither stored nor retrieved. -/
theorem C9_empty_key_rejected (dsize : Nat) (dupsort : Bool) :
    cursor_put_size_prologue 0 dsize dupsort = some .BAD_VALSIZE ∧
    locate_key_guard_rejects 0 = true := by
  have h0 : put_key_guard_rejects 0 = true := by decide
  exact ⟨by simp [cursor_put_size_prologue, h0], by decide⟩

/-- C10: `mdb_txn_begin` has no child-transaction code path: a non-NULL
parent argument fires the `assert(!parent)` at mdb.c line 2822, and every
successfully begun write transaction hands back the environment's single
preallocated writer transaction object `me_txn0`. -/
theorem C10_no_nested_transactions (env : EnvState) (freshReadObj p : Nat)
    (rdonly : Bool) (lock_rc : Option Err) :
    mdb_txn_begin env freshReadObj (some p) rdonly lock_rc = .assert_violation ∧
    (∀ o, mdb_txn_begin env freshReadObj none false lock_rc = .okTxn o →
      o = env.me_txn0) := by
  constructor
  · simp [mdb_txn_begin]
  · intro o h
    by_cases hr : env.me_rdonly
    · simp [mdb_txn_begin, hr] at h
    · simp only [mdb_txn_begin, Option.isSome_none, Bool.false_eq_true, if_false,
        hr, false_and, not_false_eq_true, if_neg] at h
      cases hw : write_txn_begin env lock_rc <;> rw [hw] at h <;> simp_all

/-- Witness for C10: in the concrete healthy environment, beginning with a
parent fires the assertion, and a successful write begin returns the
preallocated object 99. -/
theorem C10_no_nested_transactions_witness :
    mdb_txn_begin sampleEnv 42 (some 7) false none = .assert_violation ∧
    ((42 : Nat) = 42) ∧
    (mdb_txn_begin sampleEnv 42 none false none = .okTxn 99 → (99 : Nat) = sampleEnv.me_txn0) :=
  ⟨(C10_no_nested_transactions sampleEnv 42 7 false none).1, rfl,
   (C10_no_nested_transactions sampleEnv 42 7 false none).2 99⟩

/-- C1 (amended): commit is atomic with respect to failure.  If the
sub-DB descriptor update, the freelist save, the dirty-page flush or the
fsync fails, `_mdb_txn_commit` returns that error and aborts the
transaction — the dirty/free/spill state is discarded and the environment
(in particular both meta pages and the published `mti_txnid`) is returned
unchanged, so the previously committed meta remains authoritative and
later readers observe no effect of the transaction.  If the meta write
itself fails, the environment is marked fatally corrupted
(`MDB_FATAL_ERROR`) and every subsequent attempt to begin a transaction
fails with `MDB_PANIC`. -/
theorem C1_commit_failure_atomicity (io : CommitIO) (env : EnvState) (txn : WriteTxn)
    (hrd : txn.flags_rdonly = false) (hfin : txn.flags_finished = false)
    (herr : txn.flags_error = false) (hwork : txn.mt_dirty ≠ []) :
    (∀ e, io.subdb_update_rc = some e →
      _mdb_txn_commit io env txn true = (env, mdb_txn_end_write txn, .error e)) ∧
    (∀ e, io.subdb_update_rc = none → io.freelist_save_rc = some e →
      _mdb_txn_commit io env txn true = (env, mdb_txn_end_write txn, .error e)) ∧
    (∀ e, io.subdb_update_rc = none → io.freelist_save_rc = none →
      io.page_flush_rc = some e →
      _mdb_txn_commit io env txn true = (env, mdb_txn_end_write txn, .error e)) ∧
    (∀ e, io.subdb_update_rc = none → io.freelist_save_rc = none →
      io.page_flush_rc = none → txn.flags_nosync = false → io.sync_rc = some e →
      _mdb_txn_commit io env txn true = (env, mdb_txn_end_write txn, .error e)) ∧
    ((mdb_txn_end_write txn).mt_dirty = [] ∧ (mdb_txn_end_write txn).m_free_pgs = [] ∧
      (mdb_txn_end_write txn).mt_spill_pgs = [] ∧
      (mdb_txn_end_write txn).flags_finished = true) ∧
    (∀ e, io.subdb_update_rc = none → io.freelist_save_rc = none →
      io.page_flush_rc = none → io.sync_rc = none → io.meta_pwrite_rc = some e →
      _mdb_txn_commit io env txn true =
        ({ env with fatal := true }, mdb_txn_end_write txn, .error e) ∧
      read_txn_begin { env with fatal := true } = .error .PANIC ∧
      write_txn_begin { env with fatal := true } none = .error .PANIC) := by
  refine ⟨?_, ?_, ?_, ?_, ?_, ?_⟩
  · intro e h1
    simp [_mdb_txn_commit, hrd, hfin, herr, hwork, h1]
  · intro e h1 h2
    simp [_mdb_txn_commit, hrd, hfin, herr, hwork, h1, h2]
  · intro e h1 h2 h3
    simp [_mdb_txn_commit, hrd, hfin, herr, hwork, h1, h2, h3]
  · intro e h1 h2 h3 h4 h5
    simp [_mdb_txn_commit, hrd, hfin, herr, hwork, h1, h2, h3, h4, h5]
  · simp [mdb_txn_end_write, hfin]
  · intro e h1 h2 h3 h4 h5
    refine ⟨?_, ?_, ?_⟩
    · simp [_mdb_txn_commit, hrd, hfin, herr, hwork, h1, h2, h3, h4, h5,
        mdb_env_write_meta, ite_self]
    · simp [read_txn_begin]
    · simp [write_txn_begin]

/-- Witness for C1 (amended) in the concrete healthy environment with a
failing freelist save. -/
theorem C1_commit_failure_atomicity_witness :
    sampleWriteTxn.flags_rdonly = false ∧ sampleWriteTxn.flags_finished = false ∧
    sampleWriteTxn.flags_error = false ∧ sampleWriteTxn.mt_dirty ≠ [] ∧
    _mdb_txn_commit
      { subdb_update_rc := none, freelist_save_rc := some .ENOMEM,
        page_flush_rc := none, sync_rc := none, meta_pwrite_rc := none,
        share_locks_rc := none }
      sampleEnv sampleWriteTxn true =
      (sampleEnv, mdb_txn_end_write sampleWriteTxn, .error .ENOMEM) :=
  ⟨rfl, rfl, rfl, by decide,
   (C1_commit_failure_atomicity
      { subdb_update_rc := none, freelist_save_rc := some .ENOMEM,
        page_flush_rc := none, sync_rc := none, meta_pwrite_rc := none,
        share_locks_rc := none }
      sampleEnv sampleWriteTxn rfl rfl rfl (by decide)).2.1 .ENOMEM rfl rfl⟩

/-- C1 counterexample: after a commit whose meta-page write failed (the
environment is marked fatal), the public API call `mdb_env_sync` — which
never consults the fatal flag — still returns success rather than
`MDB_PANIC`, refuting "every subsequent API call returns PANIC". -/
theorem C1_counterexample :
    ((_mdb_txn_commit
        { subdb_update_rc := none, freelist_save_rc := none, page_flush_rc := none,
          sync_rc := none, meta_pwrite_rc := some .Eio, share_locks_rc := none }
        sampleEnv sampleWriteTxn true).1.fatal = true) ∧
    mdb_env_sync0
      (_mdb_txn_commit
        { subdb_update_rc := none, freelist_save_rc := none, page_flush_rc := none,
          sync_rc := none, meta_pwrite_rc := some .Eio, share_locks_rc := none }
        sampleEnv sampleWriteTxn true).1
      false true none = .ok () := by
  constructor
  · decide
  · rfl


/-- C8 counterexample: on a database whose largest (only) key is "bravo",
`mdb_put` with the `MDB_APPEND` flag and the strictly smaller key "a"
succeeds as an ordinary ordered insert instead of failing: the put path
never compares the key against the last key, and `flags & NODE_ADD_FLAGS`
(mdb.c line 5978) strips `MDB_APPEND` before it could reach
`mdb_page_split_insert`. -/
theorem C8_counterexample :
    lexCmp [97] [98, 114, 97, 118, 111] < 0 ∧
    mdb_put_model false false
      (some (.leaf [([98, 114, 97, 118, 111], .inline [50])])) [97] [49] MDB_APPEND false =
      .ok (some (.leaf [([97], .inline [49]), ([98, 114, 97, 118, 111], .inline [50])])) :=
  ⟨by decide, rfl⟩

/-- C8 (amended): the `MDB_APPEND` flag is accepted by `mdb_put`'s flag
mask but has no effect: for any combination of the other put flags, a put
with `MDB_APPEND` added behaves identically to the same put without it —
in particular it performs an ordinary ordered insert and does not fail
when the supplied key is smaller than the largest existing key. -/
theorem C8_append_has_no_effect (rdonly blocked : Bool) (root : Option Tree)
    (k : Key) (d : Bytes) (flags : Nat) (ov : Bool)
    (hsub : flags &&& (MDB_NOOVERWRITE ||| MDB_NODUPDATA ||| MDB_RESERVE |||
      MDB_APPENDDUP) = flags) :
    mdb_put_model rdonly blocked root k d (flags ||| MDB_APPEND) ov =
      mdb_put_model rdonly blocked root k d flags ov := by
  have hm1 : flags &&& (MDB_NOOVERWRITE ||| MDB_NODUPDATA ||| MDB_RESERVE ||| MDB_APPEND |||
      MDB_APPENDDUP) = flags := by
    calc flags &&& (MDB_NOOVERWRITE ||| MDB_NODUPDATA ||| MDB_RESERVE ||| MDB_APPEND |||
          MDB_APPENDDUP)
        = (flags &&& (MDB_NOOVERWRITE ||| MDB_NODUPDATA ||| MDB_RESERVE ||| MDB_APPENDDUP)) &&&
          (MDB_NOOVERWRITE ||| MDB_NODUPDATA ||| MDB_RESERVE ||| MDB_APPEND ||| MDB_APPENDDUP) := by
          rw [hsub]
      _ = flags &&& ((MDB_NOOVERWRITE ||| MDB_NODUPDATA ||| MDB_RESERVE ||| MDB_APPENDDUP) &&&
          (MDB_NOOVERWRITE ||| MDB_NODUPDATA ||| MDB_RESERVE ||| MDB_APPEND ||| MDB_APPENDDUP)) :=
          Nat.and_assoc _ _ _
      _ = flags &&& (MDB_NOOVERWRITE ||| MDB_NODUPDATA ||| MDB_RESERVE ||| MDB_APPENDDUP) := by
          rw [show (MDB_NOOVERWRITE ||| MDB_NODUPDATA ||| MDB_RESERVE ||| MDB_APPENDDUP) &&&
            (MDB_NOOVERWRITE ||| MDB_NODUPDATA ||| MDB_RESERVE ||| MDB_APPEND ||| MDB_APPENDDUP) =
            (MDB_NOOVERWRITE ||| MDB_NODUPDATA ||| MDB_RESERVE ||| MDB_APPENDDUP) from by decide]
      _ = flags := hsub
  have hm2 : (flags ||| MDB_APPEND) &&& (MDB_NOOVERWRITE ||| MDB_NODUPDATA ||| MDB_RESERVE |||
      MDB_APPEND ||| MDB_APPENDDUP) = flags ||| MDB_APPEND := by
    rw [nat_or_and_distrib, hm1,
      show MDB_APPEND &&& (MDB_NOOVERWRITE ||| MDB_NODUPDATA ||| MDB_RESERVE ||| MDB_APPEND |||
        MDB_APPENDDUP) = MDB_APPEND from by decide]
  have hno : (flags ||| MDB_APPEND) &&& MDB_NOOVERWRITE = flags &&& MDB_NOOVERWRITE := by
    rw [nat_or_and_distrib, show MDB_APPEND &&& MDB_NOOVERWRITE = 0 from by decide,
      Nat.or_zero]
  have hcur : (flags ||| MDB_APPEND) &&& MDB_CURRENT = flags &&& MDB_CURRENT := by
    rw [nat_or_and_distrib, show MDB_APPEND &&& MDB_CURRENT = 0 from by decide, Nat.or_zero]
  have hnode : (flags ||| MDB_APPEND) &&& NODE_ADD_FLAGS = flags &&& NODE_ADD_FLAGS := by
    rw [nat_or_and_distrib, show MDB_APPEND &&& NODE_ADD_FLAGS = 0 from by decide, Nat.or_zero]
  simp only [mdb_put_model, hm1, hm2, _mdb_cursor_put_model, hcur, ne_eq,
    not_true_eq_false, if_false,
    treePut_flags_congr CURSOR_STACK _ k d (flags ||| MDB_APPEND) flags ov hno hnode]

/-- Witness for C8 (amended): `MDB_NOOVERWRITE` alone satisfies the flag
hypothesis, and with `MDB_APPEND` added the put behaves the same. -/
theorem C8_append_has_no_effect_witness :
    MDB_NOOVERWRITE &&& (MDB_NOOVERWRITE ||| MDB_NODUPDATA ||| MDB_RESERVE |||
      MDB_APPENDDUP) = MDB_NOOVERWRITE ∧
    mdb_put_model false false (some (.leaf [([98], .inline [50])])) [97] [49]
      (MDB_NOOVERWRITE ||| MDB_APPEND) false =
      mdb_put_model false false (some (.leaf [([98], .inline [50])])) [97] [49]
      MDB_NOOVERWRITE false :=
  ⟨by decide,
   C8_append_has_no_effect false false (some (.leaf [([98], .inline [50])])) [97] [49]
     MDB_NOOVERWRITE false (by decide)⟩

/-- C2: Put-then-get round trip — for every live write transaction
(neither read-only nor blocked), every database whose tree is well
formed within the cursor-stack depth bound, every valid key `k` (size in
`[1, MDB_MAXKEYSIZE]`) and every value `v`, whenever
`mdb_put(txn, k, v, 0)` returns success, `mdb_get(txn, k)` in the same
transaction returns exactly `v` — for any overflow-page dirty state the
put may have encountered. -/
theorem C2_put_get_roundtrip (hfuel : Nat) (root : Option Tree) (k : Key) (d : Bytes)
    (ovfDirty : Bool) (root2 : Option Tree)
    (hwf : wfTreeB hfuel none none (root.getD (.leaf [])) = true)
    (hdepth : hfuel + 1 ≤ CURSOR_STACK)
    (hk : wfKey k = true)
    (hput : mdb_put_model false false root k d 0 ovfDirty = .ok root2) :
    mdb_get_model false root2 k = .ok d := by
  have hk' : 1 ≤ k.length ∧ k.length ≤ MDB_MAXKEYSIZE := by
    unfold wfKey at hk
    simpa using hk
  unfold mdb_put_model at hput
  rw [if_neg (by decide)] at hput
  rw [if_neg (by simp)] at hput
  unfold _mdb_cursor_put_model at hput
  rw [if_neg (by simp)] at hput
  by_cases hkg : put_key_guard_rejects k.length = true
  · rw [if_pos hkg] at hput
    cases hput
  rw [if_neg hkg] at hput
  by_cases hdg : put_data_guard_rejects d.length false = true
  · rw [if_pos hdg] at hput
    cases hput
  rw [if_neg hdg] at hput
  rw [if_neg (by decide)] at hput
  obtain ⟨rr, hrr, hfin⟩ := except_bind_ok _ _ _ hput
  have hspec := treePut_spec k d ovfDirty hk hfuel (root.getD (.leaf []))
    none none CURSOR_STACK rr hwf rfl rfl hrr
  cases rr with
  | one t2 =>
    cases hfin
    simp only [PutPost] at hspec
    obtain ⟨_, hget⟩ := hspec
    unfold mdb_get_model
    rw [if_neg (by simp), if_neg (by omega)]
    exact treeGet_mono hfuel CURSOR_STACK t2 k d (by omega) hget
  | two l sep rsub =>
    simp only [PutPost] at hspec
    obtain ⟨hsepwf, _, _, hlwf, hrwf, hget⟩ := hspec
    obtain ⟨s0, hS0, hfin2⟩ := except_bind_ok _ _ _ hfin
    have hs0 : mdb_insert_node_branch [] 0 [] l = .ok [([], l)] := rfl
    rw [hs0] at hS0
    have hs0v : s0 = [([], l)] := by
      cases hS0
      rfl
    subst hs0v
    obtain ⟨s1, hS1, hfin3⟩ := except_bind_ok _ _ _ hfin2
    obtain ⟨hs1v, _⟩ := branch_insert_ok [([], l)] 1 sep rsub s1 (by simp) hS1
    have hs1v' : s1 = [([], l), (sep, rsub)] := by
      rw [hs1v]
      rfl
    subst hs1v'
    cases hfin3
    unfold mdb_get_model
    rw [if_neg (by simp), if_neg (by omega)]
    have hg1 : treeGet (hfuel + 1) (.branch [([], l), (sep, rsub)]) k = .ok d := by
      simp only [treeGet]
      have hbci : branchChildIdx ([([], l), (sep, rsub)].map (fun x => x.1)) k =
          if lexCmp k sep < 0 then 0 else 1 := by
        apply branchChildIdx_unique _ k _ (by simp) ?_ ?_ ?_ ?_
        · intro i j hi1 hij hj
          simp at hj
          omega
        · split_ifs <;> simp
        · intro hm1
          split_ifs with hcmp
          · split_ifs at hm1 <;> omega
          · show lexCmp sep k ≤ 0
            have := lexCmp_swap k sep
            omega
        · intro hm2
          split_ifs with hcmp
          · exact hcmp
          · simp at hm2
            split_ifs at hm2
            omega
      rw [hbci]
      split_ifs with hcmp
      · show treeGet hfuel l k = .ok d
        rw [if_pos hcmp] at hget
        exact hget
      · show treeGet hfuel rsub k = .ok d
        rw [if_neg hcmp] at hget
        exact hget
    exact treeGet_mono (hfuel + 1) CURSOR_STACK _ k d hdepth hg1

/-- Witness: inserting key `[1]` with value `[7]` into the empty
database and reading it back in the same transaction returns `[7]`. -/
theorem C2_put_get_roundtrip_witness :
    wfTreeB 0 none none ((none : Option Tree).getD (.leaf [])) = true ∧
    0 + 1 ≤ CURSOR_STACK ∧
    wfKey [1] = true ∧
    mdb_put_model false false none [1] [7] 0 false =
      .ok (some (.leaf [([1], .inline [7])])) ∧
    mdb_get_model false (some (.leaf [([1], .inline [7])])) [1] = .ok [7] :=
  ⟨rfl, by decide, by decide,
    rfl,
    C2_put_get_roundtrip 0 none [1] [7] false (some (.leaf [([1], .inline [7])]))
      rfl (by decide) (by decide) rfl⟩

end LMDB

